import Mathlib

/-!
Shallow embedding of hnakamur/filebuffer (Go).

Bytes are modelled as `Nat`, byte buffers as `List Nat`.  File offsets and
lengths that the Go code receives as `int64` are modelled as `Int` at the
validation boundary (`checkOffsetAndLength`); after validation every offset is
non-negative and the rest of the code is modelled over `Nat` (Go's truncating
`int64` division agrees with `Nat` division on the non-negative values that
reach it; the single corner `(off+length-1)/pageSize` with `off+length = 0`
gives `-1/ps = 0` in Go and `(0-1)/ps = 0` in `Nat`, so the two agree there as
well).
-/

namespace Filebuffer

/-- Errors produced by the Go code: `errors.New("negative offset")`,
`errors.New("offset and length out of bounds")`, and any error reported by the
backing store or the I/O primitives (collapsed into one constructor). -/
inductive GoErr where
  | negativeOffset
  | outOfBounds
  | ioError
deriving DecidableEq

/-- Go `type pageRange struct { start, end int64 }`.  The Go field `end` is a
Lean keyword, so it is named `stop` here. -/
structure pageRange where
  start : Nat
  stop : Nat
deriving DecidableEq

/-- `github.com/willf/bitset`, restricted to what the repository uses: a
fixed-length bit vector with `Set`, `Test`, `ClearAll` and `Len`.  (The real
library grows on out-of-range `Set`; every `Set` issued by this repository on
validated inputs is in range, so the fixed-length model is faithful there.) -/
structure BitSet where
  bits : List Bool
deriving DecidableEq

/-- `bitset.New(n)`: n bits, all clear. -/
def BitSet.new (n : Nat) : BitSet := ⟨List.replicate n false⟩

/-- `b.Test(i)`: out-of-range indices read as false, as in the library. -/
def BitSet.test (b : BitSet) (i : Nat) : Bool := b.bits.getD i false

/-- `b.Set(i)` (in-range use only, see above). -/
def BitSet.set (b : BitSet) (i : Nat) : BitSet := ⟨b.bits.set i true⟩

/-- `b.ClearAll()`. -/
def BitSet.clearAll (b : BitSet) : BitSet := ⟨List.replicate b.bits.length false⟩

/-- `b.Len()`: the number of bits. -/
def BitSet.len (b : BitSet) : Nat := b.bits.length

/-- Consecutive `Set` calls: `for page := p; page < p+n; page++ { b.Set(page) }`
(the marking loops of `Preread`/`read` and, shifted by one, `setDirty`). -/
def setBits (b : BitSet) (page : Nat) : Nat → BitSet
  | 0 => b
  | n+1 => setBits (b.set page) (page+1) n

/-- Go `copy(dst, src)`: copies `min len(dst) len(src)` bytes into the front of
`dst`; the new contents of `dst`. -/
def goCopy (dst src : List Nat) : List Nat :=
  src.take (min dst.length src.length) ++ dst.drop (min dst.length src.length)

/-- Go `copy(dst[off:], src)`: the new contents of `dst`. -/
def listWrite (dst : List Nat) (off : Nat) (src : List Nat) : List Nat :=
  dst.take off ++ goCopy (dst.drop off) src

/-- `pageRangeForFileRange` (filebuffer.go): the inclusive page range of a byte
range. -/
def pageRangeForFileRange (pageSize off length : Nat) : pageRange :=
  ⟨off / pageSize, (off + length - 1) / pageSize⟩

/-- The shared shape of the scan loops of `dirtyPageRanges` and
`pageRangesToRead`: starting at index `i` with `fuel` indices left to visit and
`count` consecutive `pred`-true indices seen immediately before `i`, append a
coalesced range whenever the run ends, and flush the trailing run when the scan
finishes.  `dirtyPageRanges` instantiates `pred` with `Test` (runs of set
bits), `pageRangesToRead` with `!Test` (runs of clear bits). -/
def coalesceLoop (pred : Nat → Bool) : Nat → Nat → Nat → List pageRange → List pageRange
  | 0, i, count, ranges =>
      if 0 < count then ranges ++ [⟨i - count, i⟩] else ranges
  | fuel+1, i, count, ranges =>
      if pred i then coalesceLoop pred fuel (i+1) (count+1) ranges
      else if 0 < count then coalesceLoop pred fuel (i+1) 0 (ranges ++ [⟨i - count, i⟩])
      else coalesceLoop pred fuel (i+1) 0 ranges

/-- `dirtyPageRanges` (filebuffer.go): scan indices `0 ≤ i < Len()`, coalescing
runs of set bits; the end of each returned range is exclusive. -/
def dirtyPageRanges (dirtyPages : BitSet) : List pageRange :=
  coalesceLoop dirtyPages.test dirtyPages.len 0 0 []

/-- `pageRangesToRead` (wholefilebuffer.go): scan pages `pr.start ≤ page ≤
pr.end` of the queried byte range, coalescing runs of pages whose bit is clear
in `readPages`; the end of each returned range is exclusive. -/
def pageRangesToRead (readPages : BitSet) (pageSize off length : Nat) : List pageRange :=
  let pr := pageRangeForFileRange pageSize off length
  coalesceLoop (fun page => ! readPages.test page) (pr.stop + 1 - pr.start) pr.start 0 []

/-- `checkOffsetAndLength` (filebuffer.go). -/
def checkOffsetAndLength (fileSize : Nat) (off length : Int) : Option GoErr :=
  if off < 0 then some .negativeOffset
  else if off + length > (fileSize : Int) then some .outOfBounds
  else none

/-- `setDirty` (filebuffer.go): mark every page of the byte range dirty
(inclusive page range). -/
def setDirty (dirtyPages : BitSet) (pageSize off length : Nat) : BitSet :=
  let pr := pageRangeForFileRange pageSize off length
  setBits dirtyPages pr.start (pr.stop + 1 - pr.start)

/-! ## vectorio.go

`preadvFull` and `pwritevFull` wrap a single-call primitive (`preadv` /
`pwritev`).  The primitive's successive outcomes are modelled by an oracle
list: each entry is the `(n, err)` the primitive returns for one call.  The
loop's result is `some (done, err, calls)` — the returned byte count, the
returned error, and the number of primitive calls made — or `none` when the
oracle is exhausted before the loop exits (the loop would keep calling the
primitive beyond the modelled behaviour). -/

/-- `iovsTotalLen` (vectorio.go). -/
def iovsTotalLen : List (List Nat) → Nat
  | [] => 0
  | iov :: rest => iov.length + iovsTotalLen rest

/-- `iovsAdjust` (vectorio.go): drop fully consumed leading segments, then
truncate the first partially consumed segment by the consumed amount. -/
def iovsAdjust : List (List Nat) → Nat → List (List Nat)
  | [], _ => []
  | iov :: rest, n =>
      if iov.length ≤ n then iovsAdjust rest (n - iov.length)
      else iov.drop n :: rest

/-- The retry loop of `pwritevFull`.  Note: when the loop breaks (on an error
from the primitive or on `done >= total`) the Go source returns `done, nil`,
discarding the error that caused the break; the model keeps that behaviour, so
the error component of the result is always `none`. -/
def pwritevFullLoop (total : Nat) :
    List (Nat × Option GoErr) → List (List Nat) → Int → Nat → Nat →
    Option (Nat × Option GoErr × Nat)
  | [], _, _, _, _ => none
  | (n, e) :: oracle, iovs, offset, done, calls =>
      let done := done + n
      if e.isSome || total ≤ done then some (done, none, calls + 1)
      else pwritevFullLoop total oracle (iovsAdjust iovs n) (offset + n) done (calls + 1)

/-- `pwritevFull` (vectorio.go) over a primitive oracle. -/
def pwritevFullO (iovs : List (List Nat)) (offset : Int)
    (oracle : List (Nat × Option GoErr)) : Option (Nat × Option GoErr × Nat) :=
  let total := iovsTotalLen iovs
  if total = 0 then some (0, none, 0)
  else pwritevFullLoop total oracle iovs offset 0 0

/-- The retry loop of `preadvFull`: as `pwritevFullLoop` but it also breaks on
zero progress (`n == 0`).  Like the write side, the break-causing error is
discarded by `return done, nil`. -/
def preadvFullLoop (total : Nat) :
    List (Nat × Option GoErr) → List (List Nat) → Int → Nat → Nat →
    Option (Nat × Option GoErr × Nat)
  | [], _, _, _, _ => none
  | (n, e) :: oracle, iovs, offset, done, calls =>
      let done' := done + n
      if e.isSome || n = 0 || total ≤ done' then some (done', none, calls + 1)
      else preadvFullLoop total oracle (iovsAdjust iovs n) (offset + n) done' (calls + 1)

/-- `preadvFull` (vectorio.go) over a primitive oracle. -/
def preadvFullO (iovs : List (List Nat)) (offset : Int)
    (oracle : List (Nat × Option GoErr)) : Option (Nat × Option GoErr × Nat) :=
  let total := iovsTotalLen iovs
  if total = 0 then some (0, none, 0)
  else preadvFullLoop total oracle iovs offset 0 0

/-! ## The backing store

`WholeFileBuffer.file` is any `ReadWriterAt`; the tests implement it with
`mockFile`, an in-memory byte array that records each call in a log.  The model
follows `mockFile` and additionally lets `WriteAt` be scheduled to fail, since
the interface allows a store whose writes fail (`failPlan = []` is the test
mock, whose calls on in-bounds ranges always succeed).  A failed call records
no log entry and changes no bytes, exactly as in `mockFile`, where the error
return precedes the copy and the log append. -/

/-- One logged backing-store call, as recorded by the test `mockFile`
(`"ReadAt(off=%d,len=%d)"` / `"WriteAt(off=%d,len=%d)"`). -/
inductive IoCall where
  | readAt (off len : Nat)
  | writeAt (off len : Nat)
deriving DecidableEq

/-- The in-memory backing store (`mockFile` of the tests, plus a schedule of
`WriteAt` outcomes). -/
structure MockFile where
  buf : List Nat
  failPlan : List Bool
  logs : List IoCall
deriving DecidableEq

/-- `mockFile.ReadAt`: bounds-checked read of `len` bytes at `off` (the
negative-offset branch is unreachable here because every modelled call passes a
page-aligned `Nat` offset). -/
def MockFile.ReadAt (f : MockFile) (len off : Nat) : Except GoErr (List Nat × MockFile) :=
  if f.buf.length < off + len then .error .outOfBounds
  else .ok ((f.buf.drop off).take len, { f with logs := f.logs ++ [.readAt off len] })

/-- `mockFile.WriteAt`: bounds-checked write of `data` at `off`; consults the
failure schedule first (the test mock is `failPlan = []`, which always
succeeds). -/
def MockFile.WriteAt (f : MockFile) (data : List Nat) (off : Nat) : Except GoErr MockFile :=
  if f.failPlan.head? = some false then .error .ioError
  else if f.buf.length < off + data.length then .error .outOfBounds
  else .ok { buf := listWrite f.buf off data,
             failPlan := f.failPlan.tail,
             logs := f.logs ++ [.writeAt off data.length] }

/-! ## wholefilebuffer.go -/

/-- `WholeFileBuffer` (wholefilebuffer.go): one contiguous buffer the size of
the file, plus the two trackers.  The borrowed `file` handle is passed to the
operations explicitly. -/
structure WholeFileBuffer where
  buf : List Nat
  pageSize : Nat
  readPages : BitSet
  dirtyPages : BitSet
deriving DecidableEq

/-- `NewWholeFileBuffer`. -/
def NewWholeFileBuffer (fileSize pageSize : Nat) : WholeFileBuffer :=
  let pageCount := (fileSize + pageSize - 1) / pageSize
  { buf := List.replicate fileSize 0
    pageSize := pageSize
    readPages := BitSet.new pageCount
    dirtyPages := BitSet.new pageCount }

/-- `WholeFileBuffer.fileSize`. -/
def WholeFileBuffer.fileSize (b : WholeFileBuffer) : Nat := b.buf.length

/-- The loop body of `WholeFileBuffer.Preread` (identical to the unexported
`WholeFileBuffer.read` of the GetAt/PutAt revision): for each range, read
`b.buf[off:end]` from the file and mark the range's pages; an error from the
store is returned at once, keeping the state reached so far. -/
def wfPrereadRanges (b : WholeFileBuffer) (f : MockFile) :
    List pageRange → WholeFileBuffer × MockFile × Option GoErr
  | [] => (b, f, none)
  | pr :: rest =>
      let off := pr.start * b.pageSize
      let stop0 := pr.stop * b.pageSize
      let stop := if b.fileSize < stop0 then b.fileSize else stop0
      match f.ReadAt (stop - off) off with
      | .error e => (b, f, some e)
      | .ok (bytes, f) =>
          wfPrereadRanges
            { b with buf := listWrite b.buf off bytes,
                     readPages := setBits b.readPages pr.start (pr.stop - pr.start) }
            f rest

/-- `WholeFileBuffer.Preread` / `WholeFileBuffer.read`. -/
def WholeFileBuffer.Preread (b : WholeFileBuffer) (f : MockFile) (off length : Nat) :
    WholeFileBuffer × MockFile × Option GoErr :=
  wfPrereadRanges b f (pageRangesToRead b.readPages b.pageSize off length)

/-- `WholeFileBuffer.ReadAt`: validate, preread, copy out `b.buf[off:off+len]`.
The returned bytes are the contents copied into the caller's `p`. -/
def WholeFileBuffer.ReadAt (b : WholeFileBuffer) (f : MockFile) (lenP : Nat) (off : Int) :
    WholeFileBuffer × MockFile × Except GoErr (List Nat) :=
  match checkOffsetAndLength b.fileSize off lenP with
  | some e => (b, f, .error e)
  | none =>
      match b.Preread f off.toNat lenP with
      | (b, f, some e) => (b, f, .error e)
      | (b, f, none) => (b, f, .ok ((b.buf.drop off.toNat).take lenP))

/-- `WholeFileBuffer.WriteAt`: validate, preread the touched range, copy `p`
into `b.buf[off:]`, mark the touched pages dirty; returns `len(p)`. -/
def WholeFileBuffer.WriteAt (b : WholeFileBuffer) (f : MockFile) (p : List Nat) (off : Int) :
    WholeFileBuffer × MockFile × Except GoErr Nat :=
  match checkOffsetAndLength b.fileSize off p.length with
  | some e => (b, f, .error e)
  | none =>
      match b.Preread f off.toNat p.length with
      | (b, f, some e) => (b, f, .error e)
      | (b, f, none) =>
          ({ b with buf := listWrite b.buf off.toNat p,
                    dirtyPages := setDirty b.dirtyPages b.pageSize off.toNat p.length },
           f, .ok p.length)

/-- `WholeFileBuffer.GetAt` (the GetAt/PutAt revision): validate, read, return
the slice `b.buf[off : off+length]`. -/
def WholeFileBuffer.GetAt (b : WholeFileBuffer) (f : MockFile) (off length : Int) :
    WholeFileBuffer × MockFile × Except GoErr (List Nat) :=
  match checkOffsetAndLength b.fileSize off length with
  | some e => (b, f, .error e)
  | none =>
      match b.Preread f off.toNat length.toNat with
      | (b, f, some e) => (b, f, .error e)
      | (b, f, none) => (b, f, .ok ((b.buf.drop off.toNat).take length.toNat))

/-- `WholeFileBuffer.PutAt` (the GetAt/PutAt revision): validate, copy `data`
into `b.buf[off:]`, mark the touched pages dirty.  The body performs no
backing-store I/O, which the signature makes plain: no file argument. -/
def WholeFileBuffer.PutAt (b : WholeFileBuffer) (data : List Nat) (off : Int) :
    WholeFileBuffer × Except GoErr Unit :=
  match checkOffsetAndLength b.fileSize off data.length with
  | some e => (b, .error e)
  | none =>
      ({ b with buf := listWrite b.buf off.toNat data,
                dirtyPages := setDirty b.dirtyPages b.pageSize off.toNat data.length },
       .ok ())

/-- The loop of `WholeFileBuffer.Flush`: for each coalesced dirty range write
`b.buf[off:end]` to the file; an error is returned at once (before `ClearAll`
is reached). -/
def wfFlushRanges (b : WholeFileBuffer) (f : MockFile) :
    List pageRange → MockFile × Option GoErr
  | [] => (f, none)
  | r :: rest =>
      let off := r.start * b.pageSize
      let stop0 := r.stop * b.pageSize
      let stop := if b.fileSize < stop0 then b.fileSize else stop0
      match f.WriteAt ((b.buf.drop off).take (stop - off)) off with
      | .error e => (f, some e)
      | .ok f => wfFlushRanges b f rest

/-- `WholeFileBuffer.Flush`: write every coalesced dirty range, then clear the
dirty tracker; on a failed write return the error with the tracker untouched. -/
def WholeFileBuffer.Flush (b : WholeFileBuffer) (f : MockFile) :
    WholeFileBuffer × MockFile × Option GoErr :=
  match wfFlushRanges b f (dirtyPageRanges b.dirtyPages) with
  | (f, some e) => (b, f, some e)
  | (f, none) => ({ b with dirtyPages := b.dirtyPages.clearAll }, f, none)

/-! ## filebuffer.go (and the identical state of PagedFileBuffer)

`FileBuffer` (filebuffer.go) and `PagedFileBuffer` carry the same fields: a
sparse map from page number to an independently allocated page buffer, plus the
two trackers.  One state type models both; the `PagedFileBuffer.GetAt` /
`PagedFileBuffer.PutAt` operations are defined on it alongside
`FileBuffer.ReadAt` / `FileBuffer.WriteAt`.

Their backing store is an `*os.File` accessed through `preadvFull` /
`pwritevFull`.  As written, those wrappers never return a non-nil error (see
`pwritevFullLoop`), so `Preread` and `Flush` here are total: the error branches
they guard are dead code in the source.  A read of an in-bounds range of a
regular file transfers fully, so the content path models full transfers; the
short-transfer/error behaviour of the executor itself is modelled separately by
`preadvFullO`/`pwritevFullO`, and `FileBuffer.FlushO` composes `Flush` with the
write oracle. -/

/-- `FileBuffer` (filebuffer.go); `PagedFileBuffer` has the identical fields. -/
structure FileBuffer where
  fileSize : Nat
  pageSize : Nat
  pages : Nat → Option (List Nat)
  readPages : BitSet
  dirtyPages : BitSet

/-- `New` (filebuffer.go) / `NewPagedFileBuffer`. -/
def FileBuffer.new (fileSize pageSize : Nat) : FileBuffer :=
  let pageCount := (fileSize + pageSize - 1) / pageSize
  { fileSize := fileSize
    pageSize := pageSize
    pages := fun _ => none
    readPages := BitSet.new pageCount
    dirtyPages := BitSet.new pageCount }

/-- Map update, `b.pages[page] = buf`. -/
def FileBuffer.setPage (b : FileBuffer) (page : Nat) (buf : List Nat) : FileBuffer :=
  { b with pages := fun q => if q = page then some buf else b.pages q }

/-- `getBuf` (filebuffer.go): the page's buffer, allocated zero-filled on first
access; the length is `pageSize` clipped to the end of the file. -/
def FileBuffer.getBuf (b : FileBuffer) (page : Nat) : List Nat × FileBuffer :=
  match b.pages page with
  | some buf => (buf, b)
  | none =>
      let off := b.pageSize * page
      let bufSize := if b.fileSize < off + b.pageSize then b.fileSize - off else b.pageSize
      let buf := List.replicate bufSize 0
      (buf, b.setPage page buf)

/-- One range of `Preread`: `preadvFull` scatter-reads the file bytes starting
at `r.start*pageSize` into the page buffers `r.start, r.start+1, …` in order
(page `p`'s chunk is `file[p*ps : p*ps+len(buf)]`, since every page before the
last has a full `pageSize` buffer).  Returns the filled buffer and the total
byte count transferred (`iovsTotalLen` of the range's buffers). -/
def pagedReadPages (f : MockFile) : FileBuffer → Nat → Nat → FileBuffer × Nat
  | b, _, 0 => (b, 0)
  | b, page, n+1 =>
      let (buf, b) := b.getBuf page
      let off := b.pageSize * page
      let b := b.setPage page (goCopy buf ((f.buf.drop off).take buf.length))
      let (b, rest) := pagedReadPages f b (page+1) n
      (b, buf.length + rest)

/-- The loop of `FileBuffer.Preread`: for each coalesced unread range, one
`preadvFull` call (logged with its byte offset and total length, as the test
mock would log it), then mark the range's pages read. -/
def pagedPrereadRanges (b : FileBuffer) (f : MockFile) :
    List pageRange → FileBuffer × MockFile
  | [] => (b, f)
  | r :: rest =>
      let off := r.start * b.pageSize
      let (b, total) := pagedReadPages f b r.start (r.stop - r.start)
      let f := { f with logs := f.logs ++ [.readAt off total] }
      let b := { b with readPages := setBits b.readPages r.start (r.stop - r.start) }
      pagedPrereadRanges b f rest

/-- `FileBuffer.Preread` / `PagedFileBuffer.read`. -/
def FileBuffer.Preread (b : FileBuffer) (f : MockFile) (off length : Nat) :
    FileBuffer × MockFile :=
  pagedPrereadRanges b f (pageRangesToRead b.readPages b.pageSize off length)

/-- The gather loop shared by `ReadAt` and the multi-page branch of `GetAt`:
for each page after the first, `n := copy(p, buf); p = p[n:]` — append
`min room len(buf)` bytes of the page buffer and shrink the room. -/
def FileBuffer.gatherPages (b : FileBuffer) (room page : Nat) :
    Nat → List Nat × FileBuffer
  | 0 => ([], b)
  | n+1 =>
      let (buf, b) := b.getBuf page
      let take1 := min room buf.length
      let (rest, b) := b.gatherPages (room - take1) (page+1) n
      (buf.take take1 ++ rest, b)

/-- The read-assembly common to `FileBuffer.ReadAt` and `PagedFileBuffer.GetAt`
(whose single-page branch returns `buf[offInPage : offInPage+length]` directly
and whose multi-page branch copies the same bytes into a fresh buffer): the
first page from `off % pageSize`, then the gather loop over the later pages. -/
def FileBuffer.readCore (b : FileBuffer) (off length : Nat) : List Nat × FileBuffer :=
  let r := pageRangeForFileRange b.pageSize off length
  let offInPage := off % b.pageSize
  let (buf, b) := b.getBuf r.start
  let first := (buf.drop offInPage).take length
  let (rest, b) := b.gatherPages (length - first.length) (r.start+1) (r.stop - r.start)
  (first ++ rest, b)

/-- `FileBuffer.ReadAt`: validate, preread, copy out; returns the bytes copied
into `p` and the returned count `int(length)`. -/
def FileBuffer.ReadAt (b : FileBuffer) (f : MockFile) (lenP : Nat) (off : Int) :
    FileBuffer × MockFile × Except GoErr (List Nat × Nat) :=
  match checkOffsetAndLength b.fileSize off lenP with
  | some e => (b, f, .error e)
  | none =>
      let (b, f) := b.Preread f off.toNat lenP
      let (bytes, b) := b.readCore off.toNat lenP
      (b, f, .ok (bytes, lenP))

/-- `PagedFileBuffer.GetAt` (part_000): validate, read, assemble. -/
def PagedFileBuffer.GetAt (b : FileBuffer) (f : MockFile) (off length : Int) :
    FileBuffer × MockFile × Except GoErr (List Nat) :=
  match checkOffsetAndLength b.fileSize off length with
  | some e => (b, f, .error e)
  | none =>
      let (b, f) := b.Preread f off.toNat length.toNat
      let (bytes, b) := b.readCore off.toNat length.toNat
      (b, f, .ok bytes)

/-- The scatter loop shared by `WriteAt` and `PutAt`: for each page after the
first, `n := copy(buf, data); data = data[n:]`.  Returns the state and the
leftover (re-sliced) data. -/
def FileBuffer.scatterPages (b : FileBuffer) (data : List Nat) (page : Nat) :
    Nat → FileBuffer × List Nat
  | 0 => (b, data)
  | n+1 =>
      let (buf, b) := b.getBuf page
      let n1 := min buf.length data.length
      let b := b.setPage page (goCopy buf data)
      b.scatterPages (data.drop n1) (page+1) n

/-- The write-assembly common to `FileBuffer.WriteAt` and
`PagedFileBuffer.PutAt`: `copy(buf[offInPage:], data)` on the first page, then
the scatter loop.  Returns the state and the leftover data slice. -/
def FileBuffer.writeCore (b : FileBuffer) (data : List Nat) (off : Nat) :
    FileBuffer × List Nat :=
  let r := pageRangeForFileRange b.pageSize off data.length
  let offInPage := off % b.pageSize
  let (buf, b) := b.getBuf r.start
  let n1 := min (buf.length - offInPage) data.length
  let b := b.setPage r.start (buf.take offInPage ++ goCopy (buf.drop offInPage) data)
  b.scatterPages (data.drop n1) (r.start+1) (r.stop - r.start)

/-- `FileBuffer.WriteAt`: validate, preread the touched range, copy `p` into
the page buffers, mark the touched pages dirty; returns `len(p)` of the
re-sliced (leftover) `p`. -/
def FileBuffer.WriteAt (b : FileBuffer) (f : MockFile) (p : List Nat) (off : Int) :
    FileBuffer × MockFile × Except GoErr Nat :=
  match checkOffsetAndLength b.fileSize off p.length with
  | some e => (b, f, .error e)
  | none =>
      let (b, f) := b.Preread f off.toNat p.length
      let (b, leftover) := b.writeCore p off.toNat
      let b := { b with dirtyPages := setDirty b.dirtyPages b.pageSize off.toNat p.length }
      (b, f, .ok leftover.length)

/-- `PagedFileBuffer.PutAt` (part_000): validate, copy into the page buffers,
mark dirty.  No preread, no marking of `readPages`, and no backing-store I/O
(no file argument). -/
def PagedFileBuffer.PutAt (b : FileBuffer) (data : List Nat) (off : Int) :
    FileBuffer × Except GoErr Unit :=
  match checkOffsetAndLength b.fileSize off data.length with
  | some e => (b, .error e)
  | none =>
      let (b, _) := b.writeCore data off.toNat
      ({ b with dirtyPages := setDirty b.dirtyPages b.pageSize off.toNat data.length },
       .ok ())

/-- `iovsForPageRange` flattened: the concatenation of the range's page
buffers, threading buffer allocation. -/
def FileBuffer.rangeBytes (b : FileBuffer) (page : Nat) : Nat → List Nat × FileBuffer
  | 0 => ([], b)
  | n+1 =>
      let (buf, b) := b.getBuf page
      let (rest, b) := b.rangeBytes (page+1) n
      (buf ++ rest, b)

/-- The loop of `FileBuffer.Flush` on the success path: one `pwritevFull` per
coalesced dirty range (logged with its byte offset and total length), writing
the range's page buffers to the file. -/
def pagedFlushRanges (b : FileBuffer) (f : MockFile) :
    List pageRange → FileBuffer × MockFile
  | [] => (b, f)
  | r :: rest =>
      let off := r.start * b.pageSize
      let (bytes, b) := b.rangeBytes r.start (r.stop - r.start)
      let f := { f with buf := listWrite f.buf off bytes,
                        logs := f.logs ++ [.writeAt off bytes.length] }
      pagedFlushRanges b f rest

/-- `FileBuffer.Flush` / `PagedFileBuffer.Flush`: write every coalesced dirty
range, then clear the dirty tracker.  Total (no error return): `pwritevFull`
never reports an error, so the source's error branch is dead. -/
def FileBuffer.Flush (b : FileBuffer) (f : MockFile) : FileBuffer × MockFile :=
  let (b, f) := pagedFlushRanges b f (dirtyPageRanges b.dirtyPages)
  ({ b with dirtyPages := b.dirtyPages.clearAll }, f)

/-- `iovsForPageRange` (filebuffer.go): the list of page buffers of a range,
threading buffer allocation. -/
def FileBuffer.iovsForPageRange (b : FileBuffer) (page : Nat) :
    Nat → List (List Nat) × FileBuffer
  | 0 => ([], b)
  | n+1 =>
      let (buf, b) := b.getBuf page
      let (rest, b) := b.iovsForPageRange (page+1) n
      (buf :: rest, b)

/-- The loop of `FileBuffer.Flush` with the `pwritev` primitive modelled by an
oracle (see `pwritevFullO`), tracking only the error/tracker behaviour: for
each dirty range, run `pwritevFull` on the range's buffers and consult its
returned error (`if err != nil { return err }` in the source).  `none` when the
oracle is exhausted mid-loop. -/
def pagedFlushRangesO (b : FileBuffer) (oracle : List (Nat × Option GoErr)) :
    List pageRange → Option (FileBuffer × List (Nat × Option GoErr) × Option GoErr)
  | [] => some (b, oracle, none)
  | r :: rest =>
      let off := r.start * b.pageSize
      let (iovs, b) := b.iovsForPageRange r.start (r.stop - r.start)
      match pwritevFullO iovs (off : Int) oracle with
      | none => none
      | some (_, some e, _) => some (b, oracle, some e)
      | some (_, none, calls) => pagedFlushRangesO b (oracle.drop calls) rest

/-- `FileBuffer.Flush` over the write-primitive oracle. -/
def FileBuffer.FlushO (b : FileBuffer) (oracle : List (Nat × Option GoErr)) :
    Option (FileBuffer × Option GoErr) :=
  match pagedFlushRangesO b oracle (dirtyPageRanges b.dirtyPages) with
  | none => none
  | some (b, _, some e) => some (b, some e)
  | some (b, _, none) => some ({ b with dirtyPages := b.dirtyPages.clearAll }, none)

/-! ## Derived views of the paged state -/

/-- The length `getBuf` allocates for page `p`: `pageSize`, clipped at the end
of the file. -/
def FileBuffer.pageLen (b : FileBuffer) (p : Nat) : Nat :=
  if b.fileSize < b.pageSize * p + b.pageSize then b.fileSize - b.pageSize * p
  else b.pageSize

/-- The buffer's byte at absolute file position `i` (0 when the page holding
it is not resident — exactly the zero-filled buffer `getBuf` would create). -/
def FileBuffer.byteAt (b : FileBuffer) (i : Nat) : Nat :=
  match b.pages (i / b.pageSize) with
  | some buf => buf.getD (i % b.pageSize) 0
  | none => 0

/-- Well-formedness of a paged buffer state: positive page size, resident
pages have the length `getBuf` gives them, and the trackers span the page
count, as `New` establishes. -/
def FileBuffer.WF (b : FileBuffer) : Prop :=
  1 ≤ b.pageSize ∧
  (∀ p buf, b.pages p = some buf → buf.length = b.pageLen p) ∧
  b.readPages.len = (b.fileSize + b.pageSize - 1) / b.pageSize ∧
  b.dirtyPages.len = (b.fileSize + b.pageSize - 1) / b.pageSize

/-- The total byte length of the page buffers of pages `q, …, q+n-1` — what
`iovsTotalLen` returns for the iovecs `iovsForPageRange` builds for a range
(the sum of the page lengths). -/
def FileBuffer.rangeLen (b : FileBuffer) (q : Nat) : Nat → Nat
  | 0 => 0
  | n+1 => b.pageLen q + b.rangeLen (q+1) n

/-- A backing-store call is a read. -/
def IoCall.isRead : IoCall → Bool
  | .readAt _ _ => true
  | .writeAt _ _ => false

/-- The byte offset of a backing-store call. -/
def IoCall.off : IoCall → Nat
  | .readAt o _ => o
  | .writeAt o _ => o

/-- The byte length of a backing-store call. -/
def IoCall.len : IoCall → Nat
  | .readAt _ l => l
  | .writeAt _ l => l

/-- Two backing-store calls touch disjoint byte ranges. -/
def disjointCalls (c d : IoCall) : Prop :=
  c.off + c.len ≤ d.off ∨ d.off + d.len ≤ c.off

/-- One read-only operation on a `WholeFileBuffer` (the operations claim C3
quantifies over). -/
inductive ReadOp where
  | getAt (off length : Int)
  | readAt (lenP : Nat) (off : Int)
  | preread (off length : Nat)

/-- Apply one read-only operation, keeping the resulting buffer/store pair
(any returned bytes or error are dropped; the state is what the next call
sees). -/
def WholeFileBuffer.applyReadOp (b : WholeFileBuffer) (f : MockFile) :
    ReadOp → WholeFileBuffer × MockFile
  | .getAt off length => ((b.GetAt f off length).1, (b.GetAt f off length).2.1)
  | .readAt lenP off => ((b.ReadAt f lenP off).1, (b.ReadAt f lenP off).2.1)
  | .preread off length => ((b.Preread f off length).1, (b.Preread f off length).2.1)

/-- Run a sequence of read-only operations on one buffer instance. -/
def WholeFileBuffer.runReadOps : WholeFileBuffer → MockFile → List ReadOp →
    WholeFileBuffer × MockFile
  | b, f, [] => (b, f)
  | b, f, op :: ops =>
      WholeFileBuffer.runReadOps (b.applyReadOp f op).1 (b.applyReadOp f op).2 ops

/-- The read-tracking invariant tying a `WholeFileBuffer` to its store: fixed
geometry and store size; every logged call is a read that stays inside the
file, is empty only when at or past the end of the file, and lies entirely on
pages marked in the read tracker; and the logged calls touch pairwise
disjoint byte ranges. -/
def wfReadState (size ps : Nat) (b : WholeFileBuffer) (f : MockFile) : Prop :=
  b.pageSize = ps ∧
  b.fileSize = size ∧
  b.readPages.len = (size + ps - 1) / ps ∧
  f.buf.length = size ∧
  (∀ c ∈ f.logs, c.isRead = true ∧ c.off + c.len ≤ size ∧
    (c.len = 0 → size ≤ c.off) ∧
    (∀ i, c.off ≤ i → i < c.off + c.len → b.readPages.test (i / ps) = true)) ∧
  List.Pairwise disjointCalls f.logs

/-! ## Claim C7: the concrete scenario (fileSize 50, pageSize 8) -/

/-- The scenario's backing store: page `i` filled with the digit `i`
(byte `48 + i`). -/
def c7file : MockFile := ⟨(List.range 50).map (fun j => 48 + j / 8), [], []⟩

/-- The persisted bytes the scenario expects,
`"0aa00000111111112222222233333333444444445555555bbb"`. -/
def c7final : List Nat :=
  [48, 97, 97, 48, 48, 48, 48, 48,
   49, 49, 49, 49, 49, 49, 49, 49,
   50, 50, 50, 50, 50, 50, 50, 50,
   51, 51, 51, 51, 51, 51, 51, 51,
   52, 52, 52, 52, 52, 52, 52, 52,
   53, 53, 53, 53, 53, 53, 53, 98,
   98, 98]

/-- `"3444444445555555566"`. -/
def c7bytes31 : List Nat :=
  [51, 52, 52, 52, 52, 52, 52, 52, 52, 53, 53, 53, 53, 53, 53, 53, 53, 54, 54]

def c7buf0 : WholeFileBuffer := NewWholeFileBuffer 50 8
def c7step1 : WholeFileBuffer × MockFile × Except GoErr (List Nat) :=
  WholeFileBuffer.GetAt c7buf0 c7file 7 2
def c7step2 : WholeFileBuffer := (WholeFileBuffer.PutAt c7step1.1 [97, 97] 1).1
def c7step3 : WholeFileBuffer × MockFile × Except GoErr (List Nat) :=
  WholeFileBuffer.GetAt c7step2 c7step1.2.1 32 8
def c7step4 : WholeFileBuffer × MockFile × Except GoErr (List Nat) :=
  WholeFileBuffer.GetAt c7step3.1 c7step3.2.1 31 19
def c7step5 : WholeFileBuffer := (WholeFileBuffer.PutAt c7step4.1 [98, 98, 98] 47).1
def c7step6 : WholeFileBuffer × MockFile × Option GoErr :=
  WholeFileBuffer.Flush c7step5 c7step4.2.1

/-- The same scenario on the sparse `PagedFileBuffer` (part_000). -/
def c7pbuf0 : FileBuffer := FileBuffer.new 50 8
def c7pstep1 : FileBuffer × MockFile × Except GoErr (List Nat) :=
  PagedFileBuffer.GetAt c7pbuf0 c7file 7 2
def c7pstep2 : FileBuffer := (PagedFileBuffer.PutAt c7pstep1.1 [97, 97] 1).1
def c7pstep3 : FileBuffer × MockFile × Except GoErr (List Nat) :=
  PagedFileBuffer.GetAt c7pstep2 c7pstep1.2.1 32 8
def c7pstep4 : FileBuffer × MockFile × Except GoErr (List Nat) :=
  PagedFileBuffer.GetAt c7pstep3.1 c7pstep3.2.1 31 19
def c7pstep5 : FileBuffer := (PagedFileBuffer.PutAt c7pstep4.1 [98, 98, 98] 47).1
def c7pstep6 : FileBuffer × MockFile :=
  FileBuffer.Flush c7pstep5 c7pstep4.2.1

/-! ## Lemmas: the coalescing scan -/

/-- A page is inside one of the ranges of a list. -/
def inRanges (rs : List pageRange) (p : Nat) : Prop :=
  ∃ r ∈ rs, r.start ≤ p ∧ p < r.stop

/-- The accumulator of `coalesceLoop` is only ever appended to. -/
theorem coalesceLoop_append (pred : Nat → Bool) :
    ∀ (fuel i count : Nat) (acc : List pageRange),
      coalesceLoop pred fuel i count acc = acc ++ coalesceLoop pred fuel i count [] := by
  intro fuel
  induction fuel with
  | zero =>
      intro i count acc
      simp only [coalesceLoop]
      by_cases h : 0 < count <;> simp [h]
  | succ fuel ih =>
      intro i count acc
      simp only [coalesceLoop]
      by_cases h : pred i
      · rw [if_pos h, if_pos h]
        exact ih (i+1) (count+1) acc
      · rw [if_neg h, if_neg h]
        by_cases h0 : 0 < count
        · rw [if_pos h0, if_pos h0, ih (i+1) 0 (acc ++ [pageRange.mk (i - count) i]),
            ih (i+1) 0 ([] ++ [pageRange.mk (i - count) i])]
          simp [List.append_assoc]
        · rw [if_neg h0, if_neg h0]
          exact ih (i+1) 0 acc

theorem inRanges_nil (p : Nat) : ¬ inRanges [] p := by
  rintro ⟨r, hr, _⟩
  exact absurd hr (List.not_mem_nil r)

theorem inRanges_cons (r : pageRange) (rs : List pageRange) (p : Nat) :
    inRanges (r :: rs) p ↔ (r.start ≤ p ∧ p < r.stop) ∨ inRanges rs p := by
  constructor
  · rintro ⟨r', hr', h⟩
    rcases List.mem_cons.mp hr' with rfl | hmem
    · exact Or.inl h
    · exact Or.inr ⟨r', hmem, h⟩
  · rintro (h | ⟨r', hr', h⟩)
    · exact ⟨r, List.mem_cons_self r rs, h⟩
    · exact ⟨r', List.mem_cons_of_mem r hr', h⟩

/-- Full characterization of `coalesceLoop` started at `i` with `fuel` indices
left and a current run of `count` indices: the produced ranges are non-empty,
lie in `[i - count, i + fuel)`, are strictly separated in ascending order, and
cover exactly the `pred`-true indices of `[i - count, i + fuel)`. -/
theorem coalesceLoop_char (pred : Nat → Bool) :
    ∀ (fuel i count : Nat), count ≤ i →
      (∀ j, i - count ≤ j → j < i → pred j = true) →
      (∀ r ∈ coalesceLoop pred fuel i count [],
          i - count ≤ r.start ∧ r.start < r.stop ∧ r.stop ≤ i + fuel) ∧
      List.Chain' (fun a b => a.stop < b.start) (coalesceLoop pred fuel i count []) ∧
      (∀ p, inRanges (coalesceLoop pred fuel i count []) p ↔
            (i - count ≤ p ∧ p < i + fuel ∧ pred p = true)) := by
  intro fuel
  induction fuel with
  | zero =>
      intro i count hci hrun
      by_cases h0 : 0 < count
      · simp only [coalesceLoop, h0, if_true, List.nil_append]
        refine ⟨?_, by simp, ?_⟩
        · intro r hr
          rcases List.mem_singleton.mp hr with rfl
          refine ⟨le_refl _, ?_, ?_⟩ <;> simp only [] <;> omega
        · intro p
          constructor
          · rintro ⟨r, hr, h1, h2⟩
            rcases List.mem_singleton.mp hr with rfl
            exact ⟨h1, by simpa using h2, hrun p h1 h2⟩
          · rintro ⟨h1, h2, _⟩
            exact ⟨⟨i - count, i⟩, List.mem_singleton.mpr rfl, h1, (by omega : p < i)⟩
      · simp only [coalesceLoop, h0, if_false]
        refine ⟨by simp, by simp, ?_⟩
        intro p
        constructor
        · intro h
          exact absurd h (inRanges_nil p)
        · rintro ⟨h1, h2, _⟩
          omega
  | succ fuel ih =>
      intro i count hci hrun
      by_cases hp : pred i
      · simp only [coalesceLoop, hp, if_true]
        have hrun' : ∀ j, (i+1) - (count+1) ≤ j → j < i+1 → pred j = true := by
          intro j h1 h2
          rcases Nat.lt_succ_iff_lt_or_eq.mp h2 with h | rfl
          · exact hrun j (by omega) h
          · exact hp
        have h := ih (i+1) (count+1) (by omega) hrun'
        refine ⟨?_, h.2.1, ?_⟩
        · intro r hr
          have := h.1 r hr
          omega
        · intro p
          rw [h.2.2 p]
          constructor <;> rintro ⟨a, b, c⟩ <;> exact ⟨by omega, by omega, c⟩
      · have hrun0 : ∀ j, (i+1) - 0 ≤ j → j < i+1 → pred j = true := by
          intro j h1 h2
          omega
        have h := ih (i+1) 0 (Nat.zero_le _) hrun0
        by_cases h0 : 0 < count
        · simp only [coalesceLoop]
          rw [if_neg hp, if_pos h0]
          rw [coalesceLoop_append pred fuel (i+1) 0 ([] ++ [pageRange.mk (i - count) i]), List.nil_append,
            List.singleton_append]
          refine ⟨?_, ?_, ?_⟩
          · intro r hr
            rcases List.mem_cons.mp hr with rfl | hmem
            · refine ⟨le_refl _, ?_, ?_⟩ <;> simp only [] <;> omega
            · have := h.1 r hmem
              omega
          · rw [List.chain'_cons']
            refine ⟨?_, h.2.1⟩
            intro b hb
            have hmem : b ∈ coalesceLoop pred fuel (i+1) 0 [] := List.mem_of_mem_head? hb
            have := h.1 b hmem
            simp only []
            omega
          · intro p
            rw [inRanges_cons, h.2.2 p]
            constructor
            · rintro (⟨h1, h2⟩ | ⟨h1, h2, h3⟩)
              · have h1' : i - count ≤ p := h1
                have h2' : p < i := h2
                exact ⟨h1', by omega, hrun p h1' h2'⟩
              · exact ⟨by omega, by omega, h3⟩
            · rintro ⟨h1, h2, h3⟩
              rcases Nat.lt_or_ge p i with hpi | hpi
              · exact Or.inl ⟨h1, hpi⟩
              · rcases Nat.eq_or_lt_of_le hpi with rfl | hpi'
                · exact absurd h3 (by simpa using hp)
                · exact Or.inr ⟨by omega, by omega, h3⟩
        · simp only [coalesceLoop]
          rw [if_neg hp, if_neg h0]
          refine ⟨?_, h.2.1, ?_⟩
          · intro r hr
            have := h.1 r hr
            omega
          · intro p
            rw [h.2.2 p]
            constructor
            · rintro ⟨h1, h2, h3⟩
              exact ⟨by omega, by omega, h3⟩
            · rintro ⟨h1, h2, h3⟩
              rcases Nat.eq_or_lt_of_le (show i ≤ p by omega) with h1' | h1'
              · rw [← h1'] at h3
                exact absurd h3 hp
              · exact ⟨by omega, by omega, h3⟩

/-! ## Lemmas: bit sets -/

theorem BitSet.test_lt_len {b : BitSet} {i : Nat} (h : b.test i = true) : i < b.len := by
  by_contra h'
  rw [BitSet.test, List.getD_eq_default _ _ (by
    simp only [BitSet.len] at h'
    omega)] at h
  exact absurd h (by simp)

theorem BitSet.test_new (n i : Nat) : (BitSet.new n).test i = false := by
  simp only [BitSet.new, BitSet.test, List.getD_eq_getElem?_getD, List.getElem?_replicate]
  by_cases h : i < n <;> simp [h]

theorem BitSet.test_clearAll (b : BitSet) (i : Nat) : b.clearAll.test i = false := by
  simp only [BitSet.clearAll, BitSet.test, List.getD_eq_getElem?_getD, List.getElem?_replicate]
  by_cases h : i < b.bits.length <;> simp [h]

theorem BitSet.len_clearAll (b : BitSet) : b.clearAll.len = b.len := by
  simp [BitSet.clearAll, BitSet.len]

theorem BitSet.len_set (b : BitSet) (i : Nat) : (b.set i).len = b.len := by
  simp [BitSet.set, BitSet.len]

theorem BitSet.test_set (b : BitSet) (i j : Nat) :
    (b.set i).test j = if i = j ∧ i < b.len then true else b.test j := by
  simp only [BitSet.test, BitSet.set, BitSet.len, List.getD_eq_getElem?_getD, List.getElem?_set]
  by_cases hij : i = j
  · subst hij
    by_cases hi : i < b.bits.length
    · simp [hi]
    · simp [hi, List.getElem?_eq_none (by omega : b.bits.length ≤ i)]
  · simp [hij]

theorem setBits_len (b : BitSet) (page n : Nat) : (setBits b page n).len = b.len := by
  induction n generalizing b page with
  | zero => rfl
  | succ n ih => rw [setBits, ih, BitSet.len_set]

theorem setBits_test (b : BitSet) (page n q : Nat) :
    (setBits b page n).test q = true ↔
      (b.test q = true ∨ (page ≤ q ∧ q < page + n ∧ q < b.len)) := by
  induction n generalizing b page with
  | zero =>
      simp only [setBits]
      constructor
      · exact Or.inl
      · rintro (h | ⟨h1, h2, h3⟩)
        · exact h
        · omega
  | succ n ih =>
      rw [setBits, ih, BitSet.test_set, BitSet.len_set]
      by_cases h : page = q ∧ page < b.len
      · rw [if_pos h]
        constructor
        · intro _
          exact Or.inr ⟨by omega, by omega, by omega⟩
        · intro _
          exact Or.inl rfl
      · rw [if_neg h]
        constructor
        · rintro (hb | ⟨h1, h2, h3⟩)
          · exact Or.inl hb
          · exact Or.inr ⟨by omega, by omega, h3⟩
        · rintro (hb | ⟨h1, h2, h3⟩)
          · exact Or.inl hb
          · rcases Nat.eq_or_lt_of_le h1 with h1' | h1'
            · exact absurd ⟨h1', h1' ▸ h3⟩ h
            · exact Or.inr ⟨by omega, by omega, h3⟩

/-! ## Lemmas: the two range scans -/

/-- `dirtyPageRanges` returns exactly the maximal runs of set bits: non-empty
in-bounds ranges, ascending and separated, covering a page iff its bit is set. -/
theorem dirtyPageRanges_char (bits : BitSet) :
    (∀ r ∈ dirtyPageRanges bits, r.start < r.stop ∧ r.stop ≤ bits.len) ∧
    List.Chain' (fun a b => a.stop < b.start) (dirtyPageRanges bits) ∧
    (∀ p, inRanges (dirtyPageRanges bits) p ↔ bits.test p = true) := by
  have h := coalesceLoop_char bits.test bits.len 0 0 (le_refl 0)
    (fun j h1 h2 => absurd h2 (by omega))
  refine ⟨fun r hr => ?_, h.2.1, fun p => ?_⟩
  · have := h.1 r hr
    exact ⟨this.2.1, by omega⟩
  · rw [show dirtyPageRanges bits = coalesceLoop bits.test bits.len 0 0 [] from rfl, h.2.2 p]
    constructor
    · rintro ⟨_, _, h3⟩
      exact h3
    · intro ht
      exact ⟨by omega, by simpa using BitSet.test_lt_len ht, ht⟩

theorem pageRange_start_le_stop_succ (ps off len : Nat) :
    (pageRangeForFileRange ps off len).start ≤ (pageRangeForFileRange ps off len).stop + 1 := by
  simp only [pageRangeForFileRange]
  rcases Nat.eq_zero_or_pos ps with rfl | hps
  · simp [Nat.div_zero]
  rcases Nat.eq_zero_or_pos (off + len) with h | h
  · have hoff : off = 0 := by omega
    subst hoff
    simp
  · have h1 : off ≤ (off + len - 1) + ps := by omega
    calc off / ps ≤ ((off + len - 1) + ps) / ps := Nat.div_le_div_right h1
      _ = (off + len - 1) / ps + 1 := Nat.add_div_right _ hps

/-- `pageRangesToRead` returns exactly the maximal runs of clear bits inside
the page range of the queried byte range. -/
theorem pageRangesToRead_char (bits : BitSet) (ps off len : Nat) :
    (∀ r ∈ pageRangesToRead bits ps off len,
        (pageRangeForFileRange ps off len).start ≤ r.start ∧ r.start < r.stop ∧
        r.stop ≤ (pageRangeForFileRange ps off len).stop + 1) ∧
    List.Chain' (fun a b => a.stop < b.start) (pageRangesToRead bits ps off len) ∧
    (∀ p, inRanges (pageRangesToRead bits ps off len) p ↔
        ((pageRangeForFileRange ps off len).start ≤ p ∧
         p ≤ (pageRangeForFileRange ps off len).stop ∧ bits.test p = false)) := by
  have hle := pageRange_start_le_stop_succ ps off len
  have h := coalesceLoop_char (fun page => ! bits.test page)
      ((pageRangeForFileRange ps off len).stop + 1 - (pageRangeForFileRange ps off len).start)
      (pageRangeForFileRange ps off len).start 0 (Nat.zero_le _)
      (fun j h1 h2 => absurd h2 (by omega))
  have hunfold : pageRangesToRead bits ps off len =
      coalesceLoop (fun page => ! bits.test page)
        ((pageRangeForFileRange ps off len).stop + 1 - (pageRangeForFileRange ps off len).start)
        (pageRangeForFileRange ps off len).start 0 [] := rfl
  rw [hunfold]
  refine ⟨fun r hr => ?_, h.2.1, fun p => ?_⟩
  · have := h.1 r hr
    omega
  · rw [h.2.2 p]
    constructor
    · rintro ⟨h1, h2, h3⟩
      exact ⟨by omega, by omega, by simpa using h3⟩
    · rintro ⟨h1, h2, h3⟩
      exact ⟨by omega, by omega, by simpa using h3⟩

/-- Every page of every range returned by `pageRangesToRead` has its bit clear
in the tracker (already-read pages are never re-read). -/
theorem pageRangesToRead_unread {bits : BitSet} {ps off len : Nat} {r : pageRange} {p : Nat}
    (hr : r ∈ pageRangesToRead bits ps off len) (h1 : r.start ≤ p) (h2 : p < r.stop) :
    bits.test p = false :=
  (((pageRangesToRead_char bits ps off len).2.2 p).mp ⟨r, hr, h1, h2⟩).2.2

/-- When every page of the queried range is marked read, no range is read. -/
theorem pageRangesToRead_all_read {bits : BitSet} {ps off len : Nat}
    (h : ∀ p, (pageRangeForFileRange ps off len).start ≤ p →
         p ≤ (pageRangeForFileRange ps off len).stop → bits.test p = true) :
    pageRangesToRead bits ps off len = [] := by
  cases hL : pageRangesToRead bits ps off len with
  | nil => rfl
  | cons r rest =>
      have hr : r ∈ pageRangesToRead bits ps off len := by
        rw [hL]
        exact List.mem_cons_self _ _
      have hb := (pageRangesToRead_char bits ps off len).1 r hr
      have hf := pageRangesToRead_unread hr (le_refl r.start) hb.2.1
      have ht := h r.start hb.1 (by omega)
      rw [ht] at hf
      exact absurd hf (by simp)

/-- A tracker with no set bit coalesces to no ranges. -/
theorem dirtyPageRanges_all_clear {bits : BitSet} (h : ∀ p, bits.test p = false) :
    dirtyPageRanges bits = [] := by
  cases hL : dirtyPageRanges bits with
  | nil => rfl
  | cons r rest =>
      have hr : r ∈ dirtyPageRanges bits := by
        rw [hL]
        exact List.mem_cons_self _ _
      have hb := (dirtyPageRanges_char bits).1 r hr
      have ht := ((dirtyPageRanges_char bits).2.2 r.start).mp ⟨r, hr, le_refl _, hb.1⟩
      rw [h r.start] at ht
      exact absurd ht (by simp)

/-! ## Lemmas: the vectored-I/O executor -/

theorem iovsTotalLen_eq_flatten (iovs : List (List Nat)) :
    iovsTotalLen iovs = iovs.flatten.length := by
  induction iovs with
  | nil => rfl
  | cons iov rest ih => simp [iovsTotalLen, List.flatten_cons, ih]

/-- `iovsAdjust` advances the flattened segment bytes by exactly the consumed
amount: fully consumed leading segments are dropped and the first partially
consumed segment is truncated by the remainder. -/
theorem iovsAdjust_flatten (iovs : List (List Nat)) (n : Nat) :
    (iovsAdjust iovs n).flatten = iovs.flatten.drop n := by
  induction iovs generalizing n with
  | nil => simp [iovsAdjust]
  | cons iov rest ih =>
      rw [iovsAdjust]
      by_cases h : iov.length ≤ n
      · rw [if_pos h, ih, List.flatten_cons, List.drop_append_eq_append_drop,
          List.drop_eq_nil_of_le h, List.nil_append]
      · rw [if_neg h, List.flatten_cons, List.flatten_cons, List.drop_append_eq_append_drop,
          Nat.sub_eq_zero_of_le (by omega), List.drop_zero]

theorem pwritevFullLoop_err_none (total : Nat) :
    ∀ (oracle : List (Nat × Option GoErr)) (iovs : List (List Nat)) (offset : Int)
      (done calls : Nat) (r : Nat × Option GoErr × Nat),
      pwritevFullLoop total oracle iovs offset done calls = some r → r.2.1 = none := by
  intro oracle
  induction oracle with
  | nil =>
      intro iovs offset done calls r h
      exact absurd h (by simp [pwritevFullLoop])
  | cons x rest ih =>
      intro iovs offset done calls r h
      obtain ⟨n, e⟩ := x
      rw [pwritevFullLoop] at h
      split at h
      · cases h
        rfl
      · exact ih _ _ _ _ r h

theorem preadvFullLoop_err_none (total : Nat) :
    ∀ (oracle : List (Nat × Option GoErr)) (iovs : List (List Nat)) (offset : Int)
      (done calls : Nat) (r : Nat × Option GoErr × Nat),
      preadvFullLoop total oracle iovs offset done calls = some r → r.2.1 = none := by
  intro oracle
  induction oracle with
  | nil =>
      intro iovs offset done calls r h
      exact absurd h (by simp [preadvFullLoop])
  | cons x rest ih =>
      intro iovs offset done calls r h
      obtain ⟨n, e⟩ := x
      rw [preadvFullLoop] at h
      split at h
      · cases h
        rfl
      · exact ih _ _ _ _ r h

theorem preadvFullLoop_isSome (total : Nat) :
    ∀ (oracle : List (Nat × Option GoErr)) (iovs : List (List Nat)) (offset : Int)
      (done calls : Nat), done < total → total ≤ done + oracle.length →
      (preadvFullLoop total oracle iovs offset done calls).isSome = true := by
  intro oracle
  induction oracle with
  | nil =>
      intro iovs offset done calls h1 h2
      simp at h2
      omega
  | cons x rest ih =>
      intro iovs offset done calls h1 h2
      obtain ⟨n, e⟩ := x
      rw [preadvFullLoop]
      split
      · rfl
      · next hbrk =>
          have hn : 1 ≤ n := by
            rcases Nat.eq_zero_or_pos n with rfl | h
            · exact absurd (by simp) hbrk
            · exact h
          have hlt : done + n < total := by
            by_contra hc
            exact hbrk (by simp; omega)
          refine ih _ _ _ _ hlt ?_
          simp at h2
          omega

theorem pwritevFullLoop_isSome (total : Nat) :
    ∀ (oracle : List (Nat × Option GoErr)) (iovs : List (List Nat)) (offset : Int)
      (done calls : Nat), (∀ x ∈ oracle, x.2.isSome = true ∨ 1 ≤ x.1) →
      done < total → total ≤ done + oracle.length →
      (pwritevFullLoop total oracle iovs offset done calls).isSome = true := by
  intro oracle
  induction oracle with
  | nil =>
      intro iovs offset done calls hprog h1 h2
      simp at h2
      omega
  | cons x rest ih =>
      intro iovs offset done calls hprog h1 h2
      obtain ⟨n, e⟩ := x
      rw [pwritevFullLoop]
      split
      · rfl
      · next hbrk =>
          have hn : 1 ≤ n := by
            rcases hprog (n, e) (List.mem_cons_self _ _) with he | hn
            · exact absurd (by simp [he]) hbrk
            · exact hn
          have hlt : done + n < total := by
            by_contra hc
            exact hbrk (by simp; omega)
          refine ih _ _ _ _ (fun y hy => hprog y (List.mem_cons_of_mem _ hy)) hlt ?_
          simp at h2
          omega

/-! ## Claim C6 -/

/-- Claim C6, what the code actually does (code_bug): the claim says an error
returned by the underlying primitive is propagated by `preadvFull` /
`pwritevFull` together with the byte count; the source breaks the loop on the
error but then executes `return done, nil`, discarding it.  At the failing
input — the primitive reporting an I/O error on its first call — both wrappers
return a nil error, and in general the error component of their result is
always nil. -/
theorem c6_error_swallowed :
    preadvFullO [[1, 2, 3]] 0 [(0, some .ioError)] = some (0, none, 1) ∧
    pwritevFullO [[1, 2, 3]] 0 [(0, some .ioError)] = some (0, none, 1) ∧
    (∀ iovs offset oracle r, pwritevFullO iovs offset oracle = some r → r.2.1 = none) ∧
    (∀ iovs offset oracle r, preadvFullO iovs offset oracle = some r → r.2.1 = none) := by
  refine ⟨by decide, by decide, ?_, ?_⟩
  · intro iovs offset oracle r h
    rw [pwritevFullO] at h
    split at h
    · cases h
      rfl
    · exact pwritevFullLoop_err_none _ _ _ _ _ _ r h
  · intro iovs offset oracle r h
    rw [preadvFullO] at h
    split at h
    · cases h
      rfl
    · exact preadvFullLoop_err_none _ _ _ _ _ _ r h

/-- Witness for C6: the general never-propagates statement applied at the
concrete failing input. -/
theorem c6_error_swallowed_witness :
    ((0, (none : Option GoErr), 1) : Nat × Option GoErr × Nat).2.1 = none ∧
    preadvFullO [[1, 2, 3]] 0 [(0, some .ioError)] = some (0, none, 1) :=
  ⟨c6_error_swallowed.2.2.2 [[1, 2, 3]] 0 [(0, some .ioError)] (0, none, 1)
      c6_error_swallowed.1,
   c6_error_swallowed.1⟩

/-! ## Claim C8 -/

/-- Claim C8 counterexample: the claim says both retry loops stop once the
cumulative length is reached or an error or zero-progress condition occurs —
"in particular the retry loop terminates on every input".  `pwritevFull` has no
zero-progress break: writing one byte against a primitive that keeps returning
success with zero bytes transferred, the loop is still running after one
hundred calls (the oracle is exhausted: `none`), whereas `preadvFull` with the
same primitive behaviour stops after a single call. -/
theorem c8_counterexample :
    pwritevFullO [[55]] 0 (List.replicate 100 ((0 : Nat), (none : Option GoErr))) = none ∧
    preadvFullO [[55]] 0 [((0 : Nat), (none : Option GoErr))] = some (0, none, 1) := by
  constructor
  · decide
  · decide

/-- Claim C8 (amended): `iovsAdjust` drops fully consumed leading segments and
truncates the first partially consumed segment by the consumed amount (the
remaining flattened bytes are the original flattened bytes with the first `n`
removed, and the remaining total shrinks by `n`); with zero total length both
wrappers return success with zero bytes and zero primitive calls; the
`preadvFull` loop terminates on every primitive behaviour within `total` calls
(zero progress breaks it); the `pwritevFull` loop, which has no zero-progress
break, terminates provided every error-free primitive call transfers at least
one byte. -/
theorem c8_partial_transfer_amended
    (iovs : List (List Nat)) (n : Nat) (offset : Int)
    (oracle : List (Nat × Option GoErr)) :
    (iovsAdjust iovs n).flatten = iovs.flatten.drop n ∧
    iovsTotalLen (iovsAdjust iovs n) = iovsTotalLen iovs - n ∧
    (iovsTotalLen iovs = 0 →
      pwritevFullO iovs offset oracle = some (0, none, 0) ∧
      preadvFullO iovs offset oracle = some (0, none, 0)) ∧
    (iovsTotalLen iovs ≤ oracle.length → (preadvFullO iovs offset oracle).isSome = true) ∧
    ((∀ x ∈ oracle, x.2.isSome = true ∨ 1 ≤ x.1) → iovsTotalLen iovs ≤ oracle.length →
      (pwritevFullO iovs offset oracle).isSome = true) := by
  refine ⟨iovsAdjust_flatten iovs n, ?_, ?_, ?_, ?_⟩
  · rw [iovsTotalLen_eq_flatten, iovsTotalLen_eq_flatten, iovsAdjust_flatten,
      List.length_drop]
  · intro h0
    rw [pwritevFullO, preadvFullO, if_pos h0, if_pos h0]
    exact ⟨rfl, rfl⟩
  · intro hlen
    rw [preadvFullO]
    split
    · rfl
    · next h0 => exact preadvFullLoop_isSome _ oracle iovs offset 0 0 (by omega) (by omega)
  · intro hprog hlen
    rw [pwritevFullO]
    split
    · rfl
    · next h0 => exact pwritevFullLoop_isSome _ oracle iovs offset 0 0 hprog (by omega) (by omega)

/-- Witness for C8: the amended claim applied at a concrete two-segment input
against a primitive that transfers one byte per call. -/
theorem c8_partial_transfer_amended_witness :
    iovsTotalLen [[1, 2], [3, 4, 5]] ≤
      (List.replicate 5 ((1 : Nat), (none : Option GoErr))).length ∧
    (preadvFullO [[1, 2], [3, 4, 5]] 0
      (List.replicate 5 ((1 : Nat), (none : Option GoErr)))).isSome = true ∧
    (pwritevFullO [[1, 2], [3, 4, 5]] 0
      (List.replicate 5 ((1 : Nat), (none : Option GoErr)))).isSome = true :=
  ⟨by decide,
   (c8_partial_transfer_amended [[1, 2], [3, 4, 5]] 2 0 _).2.2.2.1 (by decide),
   (c8_partial_transfer_amended [[1, 2], [3, 4, 5]] 2 0 _).2.2.2.2 (by decide) (by decide)⟩

/-- Claim C7 counterexample: the claim's third read is `GetAt(31,20)`, but
`31 + 20 = 51 > 50 = fileSize`, so the code rejects it with the out-of-bounds
error instead of returning the 19-byte string the claim expects (the
repository's own test reads `fileSize - 31 = 19` bytes there). -/
theorem c7_getAt_31_20_out_of_bounds :
    (WholeFileBuffer.GetAt c7step3.1 c7step3.2.1 31 20).2.2 = .error .outOfBounds ∧
    (PagedFileBuffer.GetAt c7pstep3.1 c7pstep3.2.1 31 20).2.2 = .error .outOfBounds := by
  exact ⟨rfl, rfl⟩

/-- Claim C7 (amended: the third read is the 19-byte read `GetAt(31,19)`, up to
the end of the file; `GetAt(31,20)` itself fails with out-of-bounds):
`GetAt(7,2) = "01"`; after `PutAt("aa",1)`, `GetAt(32,8) = "44444444"` and
`GetAt(31,19) = "3444444445555555566"`; after `PutAt("bbb",47)` and `Flush` the
persisted file is `"0aa00000111111112222222233333333444444445555555bbb"`; and
the backing-store calls over the whole sequence are exactly the reads
`(off=0,len=16)` (pages 0–1), `(off=32,len=8)` (page 4), `(off=24,len=8)`
(page 3), `(off=40,len=10)` (pages 5–6, partial), in that order, followed by
the two flush writes.  This holds for both `WholeFileBuffer` (GetAt/PutAt) and
`PagedFileBuffer`. -/
theorem c7_scenario_amended :
    c7step1.2.2 = .ok [48, 49] ∧
    c7step3.2.2 = .ok [52, 52, 52, 52, 52, 52, 52, 52] ∧
    c7step4.2.2 = .ok c7bytes31 ∧
    c7step6.2.2 = none ∧
    c7step6.2.1.buf = c7final ∧
    c7step6.2.1.logs =
      [.readAt 0 16, .readAt 32 8, .readAt 24 8, .readAt 40 10,
       .writeAt 0 8, .writeAt 40 10] ∧
    c7pstep1.2.2 = .ok [48, 49] ∧
    c7pstep3.2.2 = .ok [52, 52, 52, 52, 52, 52, 52, 52] ∧
    c7pstep4.2.2 = .ok c7bytes31 ∧
    c7pstep6.2.buf = c7final ∧
    c7pstep6.2.logs =
      [.readAt 0 16, .readAt 32 8, .readAt 24 8, .readAt 40 10,
       .writeAt 0 8, .writeAt 40 10] := by
  exact ⟨rfl, rfl, rfl, rfl, by decide, by decide, rfl, rfl, rfl, by decide, by decide⟩

/-! ## Claim C4: validation of offsets and lengths -/

theorem checkOffsetAndLength_neg {fileSize : Nat} {off length : Int} (h : off < 0) :
    checkOffsetAndLength fileSize off length = some .negativeOffset := by
  rw [checkOffsetAndLength, if_pos h]

theorem checkOffsetAndLength_oob {fileSize : Nat} {off length : Int} (h0 : 0 ≤ off)
    (h : (fileSize : Int) < off + length) :
    checkOffsetAndLength fileSize off length = some .outOfBounds := by
  rw [checkOffsetAndLength, if_neg (by omega), if_pos (by omega)]

/-- Claim C4: for every read/write operation of every buffer, a negative
offset fails with the negative-offset error, and a non-negative offset whose
range extends past the file size fails with the out-of-bounds error; in both
cases the operation returns with the buffer state and the backing store
(bytes and call log) exactly as they were — the error is detected before any
I/O and before any mutation. -/
theorem c4_validation (b : FileBuffer) (w : WholeFileBuffer) (f g : MockFile)
    (p : List Nat) (off length : Int) :
    (off < 0 →
      FileBuffer.ReadAt b f p.length off = (b, f, .error .negativeOffset) ∧
      FileBuffer.WriteAt b f p off = (b, f, .error .negativeOffset) ∧
      PagedFileBuffer.GetAt b f off length = (b, f, .error .negativeOffset) ∧
      PagedFileBuffer.PutAt b p off = (b, .error .negativeOffset) ∧
      WholeFileBuffer.ReadAt w g p.length off = (w, g, .error .negativeOffset) ∧
      WholeFileBuffer.WriteAt w g p off = (w, g, .error .negativeOffset) ∧
      WholeFileBuffer.GetAt w g off length = (w, g, .error .negativeOffset) ∧
      WholeFileBuffer.PutAt w p off = (w, .error .negativeOffset)) ∧
    (0 ≤ off →
      ((b.fileSize : Int) < off + p.length →
        FileBuffer.ReadAt b f p.length off = (b, f, .error .outOfBounds) ∧
        FileBuffer.WriteAt b f p off = (b, f, .error .outOfBounds) ∧
        PagedFileBuffer.PutAt b p off = (b, .error .outOfBounds)) ∧
      ((b.fileSize : Int) < off + length →
        PagedFileBuffer.GetAt b f off length = (b, f, .error .outOfBounds)) ∧
      ((w.fileSize : Int) < off + p.length →
        WholeFileBuffer.ReadAt w g p.length off = (w, g, .error .outOfBounds) ∧
        WholeFileBuffer.WriteAt w g p off = (w, g, .error .outOfBounds) ∧
        WholeFileBuffer.PutAt w p off = (w, .error .outOfBounds)) ∧
      ((w.fileSize : Int) < off + length →
        WholeFileBuffer.GetAt w g off length = (w, g, .error .outOfBounds))) := by
  constructor
  · intro h
    refine ⟨?_, ?_, ?_, ?_, ?_, ?_, ?_, ?_⟩ <;>
      simp [FileBuffer.ReadAt, FileBuffer.WriteAt, PagedFileBuffer.GetAt,
        PagedFileBuffer.PutAt, WholeFileBuffer.ReadAt, WholeFileBuffer.WriteAt,
        WholeFileBuffer.GetAt, WholeFileBuffer.PutAt, checkOffsetAndLength_neg h]
  · intro h0
    refine ⟨fun h => ⟨?_, ?_, ?_⟩, fun h => ?_, fun h => ⟨?_, ?_, ?_⟩, fun h => ?_⟩ <;>
      simp [FileBuffer.ReadAt, FileBuffer.WriteAt, PagedFileBuffer.GetAt,
        PagedFileBuffer.PutAt, WholeFileBuffer.ReadAt, WholeFileBuffer.WriteAt,
        WholeFileBuffer.GetAt, WholeFileBuffer.PutAt, checkOffsetAndLength_oob h0 h]

/-- Witness for C4: the validation theorem at `off = -3` and at an in-bounds
offset with an overlong length, on concrete buffers. -/
theorem c4_validation_witness :
    ((-3 : Int) < 0 ∧
      WholeFileBuffer.ReadAt (NewWholeFileBuffer 8 8) ⟨List.replicate 8 48, [], []⟩ 0 (-3) =
        (NewWholeFileBuffer 8 8, ⟨List.replicate 8 48, [], []⟩, .error .negativeOffset)) ∧
    ((0 : Int) ≤ 5 ∧ ((NewWholeFileBuffer 8 8).fileSize : Int) < 5 + ([0, 0, 0, 0] : List Nat).length ∧
      WholeFileBuffer.WriteAt (NewWholeFileBuffer 8 8) ⟨List.replicate 8 48, [], []⟩ [0, 0, 0, 0] 5 =
        (NewWholeFileBuffer 8 8, ⟨List.replicate 8 48, [], []⟩, .error .outOfBounds)) := by
  have h1 := (c4_validation (FileBuffer.new 8 8) (NewWholeFileBuffer 8 8)
    ⟨List.replicate 8 48, [], []⟩ ⟨List.replicate 8 48, [], []⟩ ([] : List Nat) (-3) 0).1
    (by decide)
  have h2 := ((c4_validation (FileBuffer.new 8 8) (NewWholeFileBuffer 8 8)
    ⟨List.replicate 8 48, [], []⟩ ⟨List.replicate 8 48, [], []⟩ ([0, 0, 0, 0] : List Nat) 5 0).2
    (by decide)).2.2.1 (by decide)
  refine ⟨⟨by decide, ?_⟩, by decide, by decide, ?_⟩
  · exact h1.2.2.2.2.1
  · exact h2.2.1

/-! ## Claim C9 -/

/-- Claim C9: `dirtyPageRanges` returns exactly the maximal runs of set bits of
the dirty tracker — non-empty ranges, ascending and non-overlapping (strictly
separated, hence maximally coalesced), covering a page iff its bit is set —
and `pageRangesToRead` returns, in the same form, exactly the maximal runs of
clear bits of the read tracker within the page range touched by the queried
byte range. -/
theorem c9_coalescing (bits : BitSet) (ps off len : Nat) :
    ((∀ r ∈ dirtyPageRanges bits, r.start < r.stop) ∧
     List.Chain' (fun a b => a.stop < b.start) (dirtyPageRanges bits) ∧
     (∀ p, inRanges (dirtyPageRanges bits) p ↔ bits.test p = true)) ∧
    ((∀ r ∈ pageRangesToRead bits ps off len, r.start < r.stop) ∧
     List.Chain' (fun a b => a.stop < b.start) (pageRangesToRead bits ps off len) ∧
     (∀ p, inRanges (pageRangesToRead bits ps off len) p ↔
        ((pageRangeForFileRange ps off len).start ≤ p ∧
         p ≤ (pageRangeForFileRange ps off len).stop ∧ bits.test p = false))) := by
  refine ⟨⟨?_, (dirtyPageRanges_char bits).2.1, (dirtyPageRanges_char bits).2.2⟩,
    ⟨?_, (pageRangesToRead_char bits ps off len).2.1,
     (pageRangesToRead_char bits ps off len).2.2⟩⟩
  · intro r hr
    exact ((dirtyPageRanges_char bits).1 r hr).1
  · intro r hr
    exact ((pageRangesToRead_char bits ps off len).1 r hr).2.1

/-- Witness for C9: the coalescing theorem at a concrete tracker with bits
`[1,1,0,1]`: page 1 is inside a dirty range, page 2 is not, and page 2 is
inside a range to read for the byte range `[0,32)` with page size 8. -/
theorem c9_coalescing_witness :
    inRanges (dirtyPageRanges ⟨[true, true, false, true]⟩) 1 ∧
    ¬ inRanges (dirtyPageRanges ⟨[true, true, false, true]⟩) 2 ∧
    inRanges (pageRangesToRead ⟨[true, true, false, true]⟩ 8 0 32) 2 := by
  have h := c9_coalescing ⟨[true, true, false, true]⟩ 8 0 32
  refine ⟨(h.1.2.2 1).mpr (by decide), fun hc => ?_, (h.2.2.2 2).mpr (by decide)⟩
  have := (h.1.2.2 2).mp hc
  exact absurd this (by decide)

/-! ## Lemmas: byte-level views of `goCopy` and `listWrite` -/

theorem goCopy_length (dst src : List Nat) : (goCopy dst src).length = dst.length := by
  simp only [goCopy, List.length_append, List.length_take, List.length_drop]
  omega

theorem listWrite_length (dst : List Nat) (off : Nat) (src : List Nat) :
    (listWrite dst off src).length = dst.length := by
  simp only [listWrite, List.length_append, List.length_take, goCopy_length,
    List.length_drop]
  omega

theorem getD_take (l : List Nat) (n i : Nat) (h : i < n) :
    (l.take n).getD i 0 = l.getD i 0 := by
  rw [List.getD_eq_getElem?_getD, List.getD_eq_getElem?_getD, List.getElem?_take, if_pos h]

theorem getD_drop (l : List Nat) (n i : Nat) :
    (l.drop n).getD i 0 = l.getD (n + i) 0 := by
  rw [List.getD_eq_getElem?_getD, List.getD_eq_getElem?_getD, List.getElem?_drop]

theorem goCopy_getD (dst src : List Nat) (i : Nat) :
    (goCopy dst src).getD i 0 =
      if i < min dst.length src.length then src.getD i 0 else dst.getD i 0 := by
  have hm : (src.take (min dst.length src.length)).length = min dst.length src.length := by
    simp only [List.length_take]
    omega
  by_cases h : i < min dst.length src.length
  · rw [if_pos h, goCopy, List.getD_append _ _ _ i (by omega), getD_take _ _ _ h]
  · rw [if_neg h, goCopy, List.getD_append_right _ _ _ i (by omega), hm, getD_drop]
    congr 1
    omega

theorem listWrite_getD (dst : List Nat) (off : Nat) (src : List Nat) (i : Nat) :
    (listWrite dst off src).getD i 0 =
      if off ≤ i ∧ i < off + src.length ∧ i < dst.length then src.getD (i - off) 0
      else dst.getD i 0 := by
  have htk : (dst.take off).length = min off dst.length := List.length_take off dst
  by_cases hlo : i < min off dst.length
  · rw [listWrite, List.getD_append _ _ _ i (by omega), getD_take _ _ _ (by omega),
      if_neg (by omega)]
  · rw [listWrite, List.getD_append_right _ _ _ i (by omega), htk, goCopy_getD]
    by_cases hc : i - min off dst.length < min (dst.drop off).length src.length
    · rw [if_pos hc]
      have hodl : off ≤ dst.length := by
        simp only [List.length_drop] at hc
        omega
      rw [if_pos (by simp only [List.length_drop] at hc; omega)]
      congr 1
      omega
    · rw [if_neg hc, getD_drop]
      simp only [List.length_drop] at hc
      by_cases hin : off ≤ i ∧ i < off + src.length ∧ i < dst.length
      · omega
      · rw [if_neg hin]
        by_cases hdl : off ≤ dst.length
        · congr 1
          omega
        · rw [List.getD_eq_default _ _ (by omega), List.getD_eq_default _ _ (by omega)]

/-! ## Lemmas: page arithmetic -/

theorem page_mul_lt_size {ps size q : Nat} (hps : 1 ≤ ps)
    (hq : q < (size + ps - 1) / ps) : q * ps < size := by
  have h2 : (q + 1) * ps ≤ size + ps - 1 :=
    le_trans (Nat.mul_le_mul_right ps hq) (Nat.div_mul_le_self _ _)
  rw [Nat.succ_mul] at h2
  rcases Nat.eq_zero_or_pos size with rfl | hsz
  · have h0 : (0 + ps - 1) / ps = 0 := Nat.div_eq_of_lt (by omega)
    omega
  · omega

theorem div_lt_pageCount {ps size i : Nat} (hps : 1 ≤ ps) (hi : i < size) :
    i / ps < (size + ps - 1) / ps := by
  have h1 : i / ps ≤ (size - 1) / ps := Nat.div_le_div_right (by omega)
  have h2 : (size + ps - 1) / ps = (size - 1) / ps + 1 := by
    rw [show size + ps - 1 = (size - 1) + ps by omega, Nat.add_div_right _ hps]
  omega

theorem div_mul_bounds {ps : Nat} (i : Nat) (hps : 1 ≤ ps) :
    (i / ps) * ps ≤ i ∧ i < (i / ps + 1) * ps := by
  refine ⟨Nat.div_mul_le_self i ps, ?_⟩
  rw [Nat.succ_mul]
  have h := Nat.div_add_mod i ps
  have h2 := Nat.mod_lt i (show 0 < ps by omega)
  rw [Nat.mul_comm] at h
  omega

/-! ## Lemmas: WholeFileBuffer.Flush -/

theorem BitSet.clearAll_clearAll (b : BitSet) : b.clearAll.clearAll = b.clearAll := by
  simp [BitSet.clearAll]

/-- The success path of the flush loop: with no scheduled failure, every
coalesced dirty range is written, the bytes of the written ranges now mirror
the buffer, and all other bytes of the store are untouched. -/
theorem wfFlushRanges_ok (b : WholeFileBuffer) (hps : 1 ≤ b.pageSize) :
    ∀ (rs : List pageRange) (f : MockFile),
      f.failPlan = [] →
      f.buf.length = b.fileSize →
      (∀ r ∈ rs, r.start < r.stop ∧ r.stop ≤ (b.fileSize + b.pageSize - 1) / b.pageSize) →
      ∃ g, wfFlushRanges b f rs = (g, none) ∧
        g.failPlan = [] ∧ g.buf.length = b.fileSize ∧
        (∀ i, (∃ r ∈ rs, r.start * b.pageSize ≤ i ∧
                 i < r.stop * b.pageSize ∧ i < b.fileSize) →
           g.buf.getD i 0 = b.buf.getD i 0) ∧
        (∀ i, (∀ r ∈ rs, ¬(r.start * b.pageSize ≤ i ∧ i < r.stop * b.pageSize ∧
                 i < b.fileSize)) →
           g.buf.getD i 0 = f.buf.getD i 0) := by
  intro rs
  induction rs with
  | nil =>
      intro f hplan hflen _
      refine ⟨f, rfl, hplan, by omega, fun i hi => ?_, fun i _ => rfl⟩
      rcases hi with ⟨r, hr, _⟩
      exact absurd hr (List.not_mem_nil r)
  | cons r rest ih =>
      intro f hplan hflen hrs
      have hbsz : b.buf.length = b.fileSize := rfl
      have hr := hrs r (List.mem_cons_self r rest)
      have hstartpc : r.start < (b.fileSize + b.pageSize - 1) / b.pageSize := by omega
      have hoffsz : r.start * b.pageSize < b.fileSize := page_mul_lt_size hps hstartpc
      have hoff0 : r.start * b.pageSize ≤ r.stop * b.pageSize :=
        Nat.mul_le_mul_right _ (by omega)
      rw [wfFlushRanges]
      set stp := if b.fileSize < r.stop * b.pageSize then b.fileSize
        else r.stop * b.pageSize with hstp
      have hstp_le : stp ≤ b.fileSize := by
        rw [hstp]
        split <;> omega
      have hstp_iff : ∀ i, i < stp ↔ (i < r.stop * b.pageSize ∧ i < b.fileSize) := by
        intro i
        rw [hstp]
        split <;> omega
      have hoff_le : r.start * b.pageSize ≤ stp := by
        rw [hstp]
        split <;> omega
      have hdlen : ((b.buf.drop (r.start * b.pageSize)).take
          (stp - r.start * b.pageSize)).length = stp - r.start * b.pageSize := by
        simp only [List.length_take, List.length_drop, hbsz]
        omega
      have hwr : MockFile.WriteAt f
          ((b.buf.drop (r.start * b.pageSize)).take (stp - r.start * b.pageSize))
          (r.start * b.pageSize) =
          .ok { buf := listWrite f.buf (r.start * b.pageSize)
                  ((b.buf.drop (r.start * b.pageSize)).take (stp - r.start * b.pageSize)),
                failPlan := [],
                logs := f.logs ++ [.writeAt (r.start * b.pageSize)
                  (stp - r.start * b.pageSize)] } := by
        rw [MockFile.WriteAt, hplan]
        rw [if_neg (by simp)]
        rw [if_neg (by rw [hdlen, hflen]; omega)]
        rw [hdlen]
        rfl
      rw [hwr]
      have hf'len : (listWrite f.buf (r.start * b.pageSize)
          ((b.buf.drop (r.start * b.pageSize)).take (stp - r.start * b.pageSize))).length
          = b.fileSize := by
        rw [listWrite_length, hflen]
      obtain ⟨g, hg, hgplan, hglen, hgcov, hgfr⟩ := ih
        { buf := listWrite f.buf (r.start * b.pageSize)
            ((b.buf.drop (r.start * b.pageSize)).take (stp - r.start * b.pageSize)),
          failPlan := [],
          logs := f.logs ++ [.writeAt (r.start * b.pageSize) (stp - r.start * b.pageSize)] }
        rfl hf'len (fun r' hr' => hrs r' (List.mem_cons_of_mem r hr'))
      refine ⟨g, hg, hgplan, hglen, ?_, ?_⟩
      · intro i hi
        rcases hi with ⟨r', hr', hcov⟩
        rcases List.mem_cons.mp hr' with rfl | hmem
        · by_cases hrest : ∃ r'' ∈ rest, r''.start * b.pageSize ≤ i ∧
              i < r''.stop * b.pageSize ∧ i < b.fileSize
          · exact hgcov i hrest
          · have hi_stp : i < stp := (hstp_iff i).mpr ⟨hcov.2.1, hcov.2.2⟩
            rw [hgfr i (by
              intro r'' hr'' hc
              exact hrest ⟨r'', hr'', hc⟩)]
            rw [listWrite_getD, if_pos (by
              rw [hdlen, hflen]
              exact ⟨hcov.1, by omega, by omega⟩)]
            rw [getD_take _ _ _ (by omega), getD_drop]
            congr 1
            omega
        · exact hgcov i ⟨r', hmem, hcov⟩
      · intro i hi
        have hnr := hi r (List.mem_cons_self r rest)
        rw [hgfr i (fun r'' hr'' => hi r'' (List.mem_cons_of_mem r hr''))]
        rw [listWrite_getD, if_neg (by
          rw [hdlen, hflen]
          intro hc
          have histp : i < stp := by
            have h21 := hc.2.1
            omega
          have h2 := (hstp_iff i).mp histp
          exact hnr ⟨hc.1, h2.1, h2.2⟩)]

/-- The failure path of the flush loop: when the store's schedule makes the
write of range `k` fail (after `k` successful writes), the loop stops with the
I/O error. -/
theorem wfFlushRanges_fail (b : WholeFileBuffer) (hps : 1 ≤ b.pageSize) :
    ∀ (rs : List pageRange) (f : MockFile) (k : Nat) (plan : List Bool),
      f.failPlan = List.replicate k true ++ false :: plan →
      f.buf.length = b.fileSize →
      (∀ r ∈ rs, r.start < r.stop ∧
        r.stop ≤ (b.fileSize + b.pageSize - 1) / b.pageSize) →
      k < rs.length →
      ∃ g, wfFlushRanges b f rs = (g, some .ioError) := by
  intro rs
  induction rs with
  | nil =>
      intro f k plan _ _ _ hk
      exact absurd hk (by simp)
  | cons r rest ih =>
      intro f k plan hplan hflen hrs hk
      have hr := hrs r (List.mem_cons_self _ _)
      have hbsz : b.buf.length = b.fileSize := rfl
      have hstartpc : r.start < (b.fileSize + b.pageSize - 1) / b.pageSize := by omega
      have hoffsz : r.start * b.pageSize < b.fileSize := page_mul_lt_size hps hstartpc
      rw [wfFlushRanges]
      set stp := if b.fileSize < r.stop * b.pageSize then b.fileSize
        else r.stop * b.pageSize with hstp
      cases k with
      | zero =>
          have hwr : MockFile.WriteAt f
              ((b.buf.drop (r.start * b.pageSize)).take (stp - r.start * b.pageSize))
              (r.start * b.pageSize) = .error .ioError := by
            rw [MockFile.WriteAt, if_pos (by rw [hplan]; rfl)]
          rw [hwr]
          exact ⟨f, rfl⟩
      | succ k' =>
          have hstp_le : stp ≤ b.fileSize := by
            rw [hstp]
            split <;> omega
          have hoff0 : r.start * b.pageSize ≤ r.stop * b.pageSize :=
            Nat.mul_le_mul_right _ (by omega)
          have hoff_le : r.start * b.pageSize ≤ stp := by
            rw [hstp]
            split <;> omega
          have hdlen : ((b.buf.drop (r.start * b.pageSize)).take
              (stp - r.start * b.pageSize)).length = stp - r.start * b.pageSize := by
            simp only [List.length_take, List.length_drop, hbsz]
            omega
          have hwr : MockFile.WriteAt f
              ((b.buf.drop (r.start * b.pageSize)).take (stp - r.start * b.pageSize))
              (r.start * b.pageSize) =
              .ok { buf := listWrite f.buf (r.start * b.pageSize)
                      ((b.buf.drop (r.start * b.pageSize)).take
                        (stp - r.start * b.pageSize)),
                    failPlan := f.failPlan.tail,
                    logs := f.logs ++ [.writeAt (r.start * b.pageSize)
                      (stp - r.start * b.pageSize)] } := by
            rw [MockFile.WriteAt, if_neg (by rw [hplan]; simp [List.replicate_succ]),
              if_neg (by rw [hdlen, hflen]; omega), hdlen]
          rw [hwr]
          apply ih _ k' plan
          · show f.failPlan.tail = List.replicate k' true ++ false :: plan
            rw [hplan]
            rfl
          · show (listWrite f.buf (r.start * b.pageSize) _).length = b.fileSize
            rw [listWrite_length, hflen]
          · exact fun r' hr' => hrs r' (List.mem_cons_of_mem _ hr')
          · simp only [List.length_cons] at hk
            omega

/-! ## Claim C2 -/

/-- Claim C2 counterexample: `FileBuffer.Flush` goes through `pwritevFull`,
which discards the primitive's error (see C6).  A fresh `FileBuffer`
(fileSize 8, pageSize 8) made dirty by `PutAt([97], 0)`, flushed against a
primitive that fails its first call with an I/O error: `Flush` reports no error
and clears the dirty bit anyway — refuting "a failed range write returns the
error with all dirty bits still set" for `FileBuffer`. -/
theorem c2_counterexample :
    (PagedFileBuffer.PutAt (FileBuffer.new 8 8) [97] 0).1.dirtyPages.test 0 = true ∧
    ((FileBuffer.FlushO (PagedFileBuffer.PutAt (FileBuffer.new 8 8) [97] 0).1
        [(0, some .ioError)]).map (fun p => (p.2, p.1.dirtyPages.test 0))) =
      some (none, false) := by
  exact ⟨rfl, rfl⟩

/-! ## Lemmas: the paged buffer, basic facts -/

theorem getD_replicate_zero (n j : Nat) : (List.replicate n (0 : Nat)).getD j 0 = 0 := by
  rw [List.getD_eq_getElem?_getD, List.getElem?_replicate]
  split <;> rfl

theorem pageLen_le (b : FileBuffer) (p : Nat) : b.pageLen p ≤ b.pageSize := by
  rw [FileBuffer.pageLen]
  split <;> omega

theorem pagePos_div {ps : Nat} (q j : Nat) (hps : 1 ≤ ps) (hj : j < ps) :
    (q * ps + j) / ps = q ∧ (q * ps + j) % ps = j := by
  constructor
  · rw [Nat.mul_comm q ps, Nat.mul_add_div (by omega)]
    simp [Nat.div_eq_of_lt hj]
  · rw [Nat.mul_comm q ps, Nat.mul_add_mod]
    exact Nat.mod_eq_of_lt hj

theorem setPage_pages (b : FileBuffer) (p : Nat) (buf : List Nat) (q : Nat) :
    (b.setPage p buf).pages q = if q = p then some buf else b.pages q := rfl

theorem byteAt_setPage (b : FileBuffer) (p : Nat) (buf : List Nat) (i : Nat) :
    (b.setPage p buf).byteAt i =
      if i / b.pageSize = p then buf.getD (i % b.pageSize) 0 else b.byteAt i := by
  simp only [FileBuffer.byteAt, FileBuffer.setPage]
  by_cases h : i / b.pageSize = p <;> simp [h]

/-- Everything `getBuf` guarantees: the returned buffer has the page's length,
the returned state differs from the input only by (possibly) materializing the
zero-filled page, and the byte view is unchanged. -/
theorem getBuf_spec (b : FileBuffer) (p : Nat)
    (hw : ∀ q buf, b.pages q = some buf → buf.length = b.pageLen q) :
    (b.getBuf p).1.length = b.pageLen p ∧
    (b.getBuf p).2.fileSize = b.fileSize ∧
    (b.getBuf p).2.pageSize = b.pageSize ∧
    (b.getBuf p).2.readPages = b.readPages ∧
    (b.getBuf p).2.dirtyPages = b.dirtyPages ∧
    (b.getBuf p).2.pages p = some (b.getBuf p).1 ∧
    (∀ q, q ≠ p → (b.getBuf p).2.pages q = b.pages q) ∧
    (∀ q buf, (b.getBuf p).2.pages q = some buf → buf.length = b.pageLen q) ∧
    (∀ i, (b.getBuf p).2.byteAt i = b.byteAt i) := by
  rw [FileBuffer.getBuf]
  cases hp : b.pages p with
  | some buf =>
      exact ⟨hw p buf hp, rfl, rfl, rfl, rfl, hp, fun q _ => rfl, hw, fun i => rfl⟩
  | none =>
      refine ⟨by simp [FileBuffer.pageLen], rfl, rfl, rfl, rfl, ?_, ?_, ?_, ?_⟩
      · rw [setPage_pages, if_pos rfl]
      · intro q hq
        rw [setPage_pages, if_neg hq]
      · intro q buf hq
        rw [setPage_pages] at hq
        by_cases hqp : q = p
        · rw [if_pos hqp] at hq
          cases hq
          subst hqp
          simp [FileBuffer.pageLen]
        · rw [if_neg hqp] at hq
          exact hw q buf hq
      · intro i
        rw [byteAt_setPage]
        by_cases h : i / b.pageSize = p
        · rw [if_pos h, getD_replicate_zero, FileBuffer.byteAt, h, hp]
        · rw [if_neg h]

theorem byteAt_eq_of_pages {b : FileBuffer} {buf : List Nat} {i : Nat}
    (hp : b.pages (i / b.pageSize) = some buf) :
    b.byteAt i = buf.getD (i % b.pageSize) 0 := by
  rw [FileBuffer.byteAt, hp]

theorem pageLen_congr {a b : FileBuffer} (h1 : a.fileSize = b.fileSize)
    (h2 : a.pageSize = b.pageSize) (p : Nat) : a.pageLen p = b.pageLen p := by
  rw [FileBuffer.pageLen, FileBuffer.pageLen, h1, h2]

theorem scatterPages_succ (c : FileBuffer) (d : List Nat) (q n : Nat) :
    c.scatterPages d q (n+1) =
      ((c.getBuf q).2.setPage q (goCopy (c.getBuf q).1 d)).scatterPages
        (d.drop (min (c.getBuf q).1.length d.length)) (q+1) n := rfl

/-- The scatter loop of `WriteAt`/`PutAt`: starting at page `q` with `n` pages
to go, it writes `d` byte-for-byte into consecutive page buffers starting at
byte `q * pageSize`, consumes all of `d` when the pages cover it, and changes
nothing else — geometry, trackers and the pages before `q` are untouched. -/
theorem scatterPages_spec :
    ∀ (n : Nat) (c : FileBuffer) (d : List Nat) (q : Nat),
      1 ≤ c.pageSize →
      (∀ p buf, c.pages p = some buf → buf.length = c.pageLen p) →
      (d ≠ [] → q * c.pageSize + d.length ≤ c.fileSize ∧
                q * c.pageSize + d.length ≤ (q + n) * c.pageSize) →
      (c.scatterPages d q n).1.fileSize = c.fileSize ∧
      (c.scatterPages d q n).1.pageSize = c.pageSize ∧
      (c.scatterPages d q n).1.readPages = c.readPages ∧
      (c.scatterPages d q n).1.dirtyPages = c.dirtyPages ∧
      (∀ p buf, (c.scatterPages d q n).1.pages p = some buf →
          buf.length = c.pageLen p) ∧
      (c.scatterPages d q n).2 = [] ∧
      (∀ i, i < d.length →
          (c.scatterPages d q n).1.byteAt (q * c.pageSize + i) = d.getD i 0) ∧
      (∀ p, p < q → (c.scatterPages d q n).1.pages p = c.pages p) := by
  intro n
  induction n with
  | zero =>
      intro c d q hps hw hbnd
      have hd : d = [] := by
        by_cases h : d = []
        · exact h
        · have h2 := (hbnd h).2
          rw [Nat.add_zero] at h2
          exact absurd (List.length_eq_zero.mp (by omega)) h
      subst hd
      exact ⟨rfl, rfl, rfl, rfl, hw, rfl,
        fun i hi => absurd hi (by simp), fun p _ => rfl⟩
  | succ n ih =>
      intro c d q hps hw hbnd
      obtain ⟨hblen, hfs, hpsz, hrp, hdp, hpq, hpo, hw1, _⟩ := getBuf_spec c q hw
      rw [scatterPages_succ]
      have hc2fs : ((c.getBuf q).2.setPage q (goCopy (c.getBuf q).1 d)).fileSize
          = c.fileSize := hfs
      have hc2ps : ((c.getBuf q).2.setPage q (goCopy (c.getBuf q).1 d)).pageSize
          = c.pageSize := hpsz
      have hc2rp : ((c.getBuf q).2.setPage q (goCopy (c.getBuf q).1 d)).readPages
          = c.readPages := hrp
      have hc2dp : ((c.getBuf q).2.setPage q (goCopy (c.getBuf q).1 d)).dirtyPages
          = c.dirtyPages := hdp
      have hplen : ∀ p, ((c.getBuf q).2.setPage q (goCopy (c.getBuf q).1 d)).pageLen p
          = c.pageLen p := pageLen_congr hc2fs hc2ps
      have hc2pages : ∀ p, ((c.getBuf q).2.setPage q (goCopy (c.getBuf q).1 d)).pages p
          = if p = q then some (goCopy (c.getBuf q).1 d) else (c.getBuf q).2.pages p :=
        fun p => rfl
      have hw2 : ∀ p bufp,
          ((c.getBuf q).2.setPage q (goCopy (c.getBuf q).1 d)).pages p = some bufp →
          bufp.length = ((c.getBuf q).2.setPage q (goCopy (c.getBuf q).1 d)).pageLen p := by
        intro p bufp hp
        rw [hplen p]
        rw [hc2pages] at hp
        by_cases hpq' : p = q
        · rw [if_pos hpq'] at hp
          cases hp
          subst hpq'
          rw [goCopy_length]
          exact hblen
        · rw [if_neg hpq'] at hp
          exact hw1 p bufp hp
      -- when data remains after the first page, that page is a full page
      have hfull : min (c.getBuf q).1.length d.length < d.length →
          (c.getBuf q).1.length = c.pageSize ∧ d ≠ [] := by
        intro hlt
        have hd0 : d ≠ [] := by
          intro h
          subst h
          simp at hlt
        obtain ⟨hb1, _⟩ := hbnd hd0
        have hcm : c.pageSize * q = q * c.pageSize := Nat.mul_comm _ _
        have hple := pageLen_le c q
        refine ⟨?_, hd0⟩
        rw [hblen]
        rw [hblen] at hlt
        rw [FileBuffer.pageLen] at *
        split at hlt
        case isTrue hcond =>
          exfalso
          omega
        case isFalse hcond =>
          rw [if_neg hcond]
      have hbnd2 : d.drop (min (c.getBuf q).1.length d.length) ≠ [] →
          (q+1) * ((c.getBuf q).2.setPage q (goCopy (c.getBuf q).1 d)).pageSize +
            (d.drop (min (c.getBuf q).1.length d.length)).length ≤
            ((c.getBuf q).2.setPage q (goCopy (c.getBuf q).1 d)).fileSize ∧
          (q+1) * ((c.getBuf q).2.setPage q (goCopy (c.getBuf q).1 d)).pageSize +
            (d.drop (min (c.getBuf q).1.length d.length)).length ≤
            ((q+1) + n) * ((c.getBuf q).2.setPage q (goCopy (c.getBuf q).1 d)).pageSize := by
        intro hne
        rw [hc2ps, hc2fs, List.length_drop]
        have hlt : min (c.getBuf q).1.length d.length < d.length := by
          by_contra hc
          exact hne (List.drop_eq_nil_of_le (by omega))
        obtain ⟨hbps, hd0⟩ := hfull hlt
        obtain ⟨hb1, hb2⟩ := hbnd hd0
        have hs1 : (q+1) * c.pageSize = q * c.pageSize + c.pageSize := Nat.succ_mul _ _
        have hs2 : (q+1+n) * c.pageSize = (q+n+1) * c.pageSize := by ring_nf
        have hs3 : (q+n+1) * c.pageSize = (q + (n+1)) * c.pageSize := by ring_nf
        constructor
        · omega
        · rw [hs2, hs3]
          omega
      obtain ⟨ihfs, ihps, ihrp, ihdp, ihw, ihleft, ihbytes, ihframe⟩ :=
        ih ((c.getBuf q).2.setPage q (goCopy (c.getBuf q).1 d))
          (d.drop (min (c.getBuf q).1.length d.length)) (q+1)
          (by rw [hc2ps]; exact hps) hw2 hbnd2
      refine ⟨by rw [ihfs, hc2fs], by rw [ihps, hc2ps], by rw [ihrp, hc2rp],
        by rw [ihdp, hc2dp], ?_, ihleft, ?_, ?_⟩
      · intro p bufp hp
        rw [← hplen p]
        exact ihw p bufp hp
      · intro i hi
        by_cases hi1 : i < min (c.getBuf q).1.length d.length
        · -- inside the first page
          have hiq : i < c.pageSize := by
            have := hblen
            have := pageLen_le c q
            omega
          have hdiv := pagePos_div q i hps hiq
          have hpgs : (((c.getBuf q).2.setPage q
              (goCopy (c.getBuf q).1 d)).scatterPages
                (d.drop (min (c.getBuf q).1.length d.length)) (q+1) n).1.pages
              ((q * c.pageSize + i) /
                (((c.getBuf q).2.setPage q (goCopy (c.getBuf q).1 d)).scatterPages
                  (d.drop (min (c.getBuf q).1.length d.length)) (q+1) n).1.pageSize)
              = some (goCopy (c.getBuf q).1 d) := by
            rw [ihps, hc2ps, hdiv.1, ihframe q (by omega), hc2pages, if_pos rfl]
          rw [byteAt_eq_of_pages hpgs, ihps, hc2ps, hdiv.2, goCopy_getD, if_pos hi1]
        · -- handled by the recursive call
          have hlt : min (c.getBuf q).1.length d.length < d.length := by omega
          obtain ⟨hbps, _⟩ := hfull hlt
          have hb := ihbytes (i - min (c.getBuf q).1.length d.length)
            (by rw [List.length_drop]; omega)
          rw [getD_drop] at hb
          have hidx : (q+1) * ((c.getBuf q).2.setPage q
              (goCopy (c.getBuf q).1 d)).pageSize +
              (i - min (c.getBuf q).1.length d.length) = q * c.pageSize + i := by
            rw [hc2ps]
            have hs1 : (q+1) * c.pageSize = q * c.pageSize + c.pageSize := Nat.succ_mul _ _
            omega
          rw [hidx] at hb
          rw [hb]
          congr 1
          omega
      · intro p hp
        rw [ihframe p (by omega), hc2pages, if_neg (by omega), hpo p (by omega)]

theorem writeCore_eq (b : FileBuffer) (data : List Nat) (off : Nat) :
    b.writeCore data off =
      ((b.getBuf (pageRangeForFileRange b.pageSize off data.length).start).2.setPage
          (pageRangeForFileRange b.pageSize off data.length).start
          ((b.getBuf (pageRangeForFileRange b.pageSize off data.length).start).1.take
              (off % b.pageSize) ++
            goCopy ((b.getBuf
              (pageRangeForFileRange b.pageSize off data.length).start).1.drop
              (off % b.pageSize)) data)).scatterPages
        (data.drop (min ((b.getBuf
            (pageRangeForFileRange b.pageSize off data.length).start).1.length -
            off % b.pageSize) data.length))
        ((pageRangeForFileRange b.pageSize off data.length).start + 1)
        ((pageRangeForFileRange b.pageSize off data.length).stop -
          (pageRangeForFileRange b.pageSize off data.length).start) := rfl

/-- The write assembly of `WriteAt`/`PutAt` copies `data` byte-for-byte into
the page buffers at absolute positions `off, off+1, …`, consumes all of the
data (the leftover slice is empty), and leaves geometry and both trackers
unchanged. -/
theorem writeCore_spec (b : FileBuffer) (data : List Nat) (off : Nat)
    (hps : 1 ≤ b.pageSize)
    (hw : ∀ p buf, b.pages p = some buf → buf.length = b.pageLen p)
    (hlen : 1 ≤ data.length)
    (hbound : off + data.length ≤ b.fileSize) :
    (b.writeCore data off).1.fileSize = b.fileSize ∧
    (b.writeCore data off).1.pageSize = b.pageSize ∧
    (b.writeCore data off).1.readPages = b.readPages ∧
    (b.writeCore data off).1.dirtyPages = b.dirtyPages ∧
    (∀ p buf, (b.writeCore data off).1.pages p = some buf → buf.length = b.pageLen p) ∧
    (b.writeCore data off).2 = [] ∧
    (∀ i, i < data.length → (b.writeCore data off).1.byteAt (off + i) = data.getD i 0) := by
  have hoffsz : off < b.fileSize := by omega
  rw [writeCore_eq]
  set r := pageRangeForFileRange b.pageSize off data.length with hrdef
  have hrs : r.start = off / b.pageSize := rfl
  have hre : r.stop = (off + data.length - 1) / b.pageSize := rfl
  set oip := off % b.pageSize with hoipdef
  obtain ⟨hblen, hfs, hpsz, hrp, hdp, hpq, hpo, hw1, _⟩ := getBuf_spec b r.start hw
  have hdm : b.pageSize * (off / b.pageSize) + off % b.pageSize = off :=
    Nat.div_add_mod off b.pageSize
  rw [← hrs, ← hoipdef] at hdm
  have hoiplt : oip < b.pageSize := Nat.mod_lt _ (by omega)
  have hplsplit : b.pageLen r.start = b.pageSize ∨
      (b.fileSize < b.pageSize * r.start + b.pageSize ∧
       b.pageLen r.start = b.fileSize - b.pageSize * r.start) := by
    rw [FileBuffer.pageLen]
    split
    · exact Or.inr ⟨by assumption, rfl⟩
    · exact Or.inl rfl
  have hple : b.pageLen r.start ≤ b.pageSize := pageLen_le b r.start
  have hoipblen : oip < (b.getBuf r.start).1.length := by
    rw [hblen]
    rcases hplsplit with h | ⟨h1, h2⟩ <;> omega
  have hnblen : ((b.getBuf r.start).1.take oip ++
      goCopy ((b.getBuf r.start).1.drop oip) data).length =
      (b.getBuf r.start).1.length := by
    rw [List.length_append, List.length_take, goCopy_length, List.length_drop]
    omega
  set nb := (b.getBuf r.start).1.take oip ++ goCopy ((b.getBuf r.start).1.drop oip) data
    with hnbdef
  set n1 := min ((b.getBuf r.start).1.length - oip) data.length with hn1def
  -- facts about the updated state
  have hb2fs : ((b.getBuf r.start).2.setPage r.start nb).fileSize = b.fileSize := hfs
  have hb2ps : ((b.getBuf r.start).2.setPage r.start nb).pageSize = b.pageSize := hpsz
  have hb2rp : ((b.getBuf r.start).2.setPage r.start nb).readPages = b.readPages := hrp
  have hb2dp : ((b.getBuf r.start).2.setPage r.start nb).dirtyPages = b.dirtyPages := hdp
  have hb2plen : ∀ p, ((b.getBuf r.start).2.setPage r.start nb).pageLen p = b.pageLen p :=
    pageLen_congr hb2fs hb2ps
  have hb2pages : ∀ p, ((b.getBuf r.start).2.setPage r.start nb).pages p =
      if p = r.start then some nb else (b.getBuf r.start).2.pages p := fun p => rfl
  have hw2 : ∀ p bufp, ((b.getBuf r.start).2.setPage r.start nb).pages p = some bufp →
      bufp.length = ((b.getBuf r.start).2.setPage r.start nb).pageLen p := by
    intro p bufp hp
    rw [hb2plen p]
    rw [hb2pages] at hp
    by_cases hpr : p = r.start
    · rw [if_pos hpr] at hp
      cases hp
      subst hpr
      rw [hnblen, hblen]
    · rw [if_neg hpr] at hp
      exact hw1 p bufp hp
  -- when data continues past the first page, that page is full
  have hfull : n1 < data.length → (b.getBuf r.start).1.length = b.pageSize := by
    intro hlt
    have hlt' : ((b.getBuf r.start).1.length - oip) ⊓ data.length < data.length := hlt
    rcases hplsplit with h | ⟨h1, h2⟩
    · rw [hblen]
      exact h
    · exfalso
      omega
  have hstartstop : r.start ≤ r.stop := by
    rw [hrs, hre]
    exact Nat.div_le_div_right (by omega)
  have hstopbound : off + data.length ≤ (r.stop + 1) * b.pageSize := by
    have h := (div_mul_bounds (off + data.length - 1) hps).2
    rw [← hre] at h
    omega
  have hbnd2 : data.drop n1 ≠ [] →
      (r.start + 1) * ((b.getBuf r.start).2.setPage r.start nb).pageSize +
        (data.drop n1).length ≤ ((b.getBuf r.start).2.setPage r.start nb).fileSize ∧
      (r.start + 1) * ((b.getBuf r.start).2.setPage r.start nb).pageSize +
        (data.drop n1).length ≤
        ((r.start + 1) + (r.stop - r.start)) *
          ((b.getBuf r.start).2.setPage r.start nb).pageSize := by
    intro hne
    rw [hb2ps, hb2fs, List.length_drop]
    have hlt : n1 < data.length := by
      by_contra hc
      exact hne (List.drop_eq_nil_of_le (by omega))
    have hbps := hfull hlt
    have hs1 : (r.start + 1) * b.pageSize = r.start * b.pageSize + b.pageSize :=
      Nat.succ_mul _ _
    have hcm : b.pageSize * r.start = r.start * b.pageSize := Nat.mul_comm _ _
    constructor
    · omega
    · rw [show r.start + 1 + (r.stop - r.start) = r.stop + 1 by omega]
      have hs2 : (r.stop + 1) * b.pageSize = r.stop * b.pageSize + b.pageSize :=
        Nat.succ_mul _ _
      omega
  obtain ⟨ihfs, ihps, ihrp, ihdp, ihw, ihleft, ihbytes, ihframe⟩ :=
    scatterPages_spec (r.stop - r.start) ((b.getBuf r.start).2.setPage r.start nb)
      (data.drop n1) (r.start + 1) (by rw [hb2ps]; exact hps) hw2 hbnd2
  refine ⟨by rw [ihfs, hb2fs], by rw [ihps, hb2ps], by rw [ihrp, hb2rp],
    by rw [ihdp, hb2dp], ?_, ihleft, ?_⟩
  · intro p bufp hp
    rw [← hb2plen p]
    exact ihw p bufp hp
  · intro i hi
    by_cases hi1 : i < n1
    · -- inside the first page
      have hoi : oip + i < b.pageSize := by
        have h1 : i < ((b.getBuf r.start).1.length - oip) ⊓ data.length := hi1
        omega
      have hoffi : off + i = r.start * b.pageSize + (oip + i) := by
        have hcm : b.pageSize * r.start = r.start * b.pageSize := Nat.mul_comm _ _
        omega
      have hdiv := pagePos_div r.start (oip + i) hps hoi
      have hpgs : ((((b.getBuf r.start).2.setPage r.start nb).scatterPages
          (data.drop n1) (r.start + 1) (r.stop - r.start)).1).pages
          ((off + i) / ((((b.getBuf r.start).2.setPage r.start nb).scatterPages
            (data.drop n1) (r.start + 1) (r.stop - r.start)).1).pageSize)
          = some nb := by
        rw [ihps, hb2ps, hoffi, hdiv.1, ihframe r.start (by omega), hb2pages,
          if_pos rfl]
      rw [byteAt_eq_of_pages hpgs, ihps, hb2ps, hoffi, hdiv.2, hnbdef,
        List.getD_append_right _ _ _ _ (by rw [List.length_take]; omega),
        List.length_take]
      rw [show oip + i - min oip (b.getBuf r.start).1.length = i by omega]
      rw [goCopy_getD, if_pos (by rw [List.length_drop]; omega)]
    · -- by the scatter loop
      have hlt : n1 < data.length := by omega
      have hbps := hfull hlt
      have hb := ihbytes (i - n1) (by rw [List.length_drop]; omega)
      rw [getD_drop] at hb
      have hidx : (r.start + 1) * ((b.getBuf r.start).2.setPage r.start nb).pageSize +
          (i - n1) = off + i := by
        rw [hb2ps]
        have hs1 : (r.start + 1) * b.pageSize = r.start * b.pageSize + b.pageSize :=
          Nat.succ_mul _ _
        have hcm : b.pageSize * r.start = r.start * b.pageSize := Nat.mul_comm _ _
        omega
      rw [hidx] at hb
      rw [hb]
      congr 1
      omega

theorem take_eq_range_map_getD (l : List Nat) (t : Nat) (ht : t ≤ l.length) :
    l.take t = (List.range t).map (fun i => l.getD i 0) := by
  apply List.ext_getElem
  · simp only [List.length_take, List.length_map, List.length_range]
    omega
  · intro i h1 h2
    simp only [List.getElem_take, List.getElem_map, List.getElem_range]
    rw [List.getD_eq_getElem?_getD,
      List.getElem?_eq_getElem (by simp only [List.length_take] at h1; omega)]
    rfl

theorem byteAt_getBuf (c : FileBuffer) (q j : Nat) (hps : 1 ≤ c.pageSize)
    (hj : j < c.pageSize) :
    c.byteAt (q * c.pageSize + j) = (c.getBuf q).1.getD j 0 := by
  have hdiv := pagePos_div q j hps hj
  rw [FileBuffer.byteAt, hdiv.1, hdiv.2, FileBuffer.getBuf]
  cases hp : c.pages q with
  | some buf => rfl
  | none => rw [getD_replicate_zero]

theorem gatherPages_succ (c : FileBuffer) (room q n : Nat) :
    c.gatherPages room q (n+1) =
      ((c.getBuf q).1.take (min room (c.getBuf q).1.length) ++
        ((c.getBuf q).2.gatherPages (room - min room (c.getBuf q).1.length) (q+1) n).1,
       ((c.getBuf q).2.gatherPages (room - min room (c.getBuf q).1.length) (q+1) n).2) := rfl

/-- The gather loop of `ReadAt`/`GetAt`: starting at page `q` with `n` pages
to go and `room` bytes of space, it returns exactly the buffer's bytes at
absolute positions `q * pageSize, …, q * pageSize + room - 1`, and only
materializes pages (the byte view and everything else is unchanged). -/
theorem gatherPages_spec :
    ∀ (n : Nat) (c : FileBuffer) (room q : Nat),
      1 ≤ c.pageSize →
      (∀ p buf, c.pages p = some buf → buf.length = c.pageLen p) →
      (room ≠ 0 → q * c.pageSize + room ≤ c.fileSize ∧
                  q * c.pageSize + room ≤ (q + n) * c.pageSize) →
      (c.gatherPages room q n).1 =
        (List.range room).map (fun i => c.byteAt (q * c.pageSize + i)) ∧
      (c.gatherPages room q n).2.fileSize = c.fileSize ∧
      (c.gatherPages room q n).2.pageSize = c.pageSize ∧
      (c.gatherPages room q n).2.readPages = c.readPages ∧
      (c.gatherPages room q n).2.dirtyPages = c.dirtyPages ∧
      (∀ p buf, (c.gatherPages room q n).2.pages p = some buf →
          buf.length = c.pageLen p) ∧
      (∀ i, (c.gatherPages room q n).2.byteAt i = c.byteAt i) := by
  intro n
  induction n with
  | zero =>
      intro c room q hps hw hbnd
      have hr : room = 0 := by
        by_cases h : room = 0
        · exact h
        · have h2 := (hbnd h).2
          rw [Nat.add_zero] at h2
          omega
      subst hr
      exact ⟨rfl, rfl, rfl, rfl, rfl, hw, fun i => rfl⟩
  | succ n ih =>
      intro c room q hps hw hbnd
      obtain ⟨hblen, hfs, hpsz, hrp, hdp, hpq, hpo, hw1, hba⟩ := getBuf_spec c q hw
      rw [gatherPages_succ]
      have hple := pageLen_le c q
      have hplsplit : c.pageLen q = c.pageSize ∨
          (c.fileSize < c.pageSize * q + c.pageSize ∧
           c.pageLen q = c.fileSize - c.pageSize * q) := by
        rw [FileBuffer.pageLen]
        split
        · exact Or.inr ⟨by assumption, rfl⟩
        · exact Or.inl rfl
      have hcm : c.pageSize * q = q * c.pageSize := Nat.mul_comm _ _
      -- when room continues past this page, this page is full
      have hfull : min room (c.getBuf q).1.length < room →
          (c.getBuf q).1.length = c.pageSize := by
        intro hlt
        have hr0 : room ≠ 0 := by omega
        obtain ⟨hb1, _⟩ := hbnd hr0
        rcases hplsplit with h | ⟨h1, h2⟩
        · rw [hblen]
          exact h
        · exfalso
          omega
      have hw1' : ∀ p buf, (c.getBuf q).2.pages p = some buf →
          buf.length = (c.getBuf q).2.pageLen p := by
        intro p buf hp
        rw [pageLen_congr hfs hpsz p]
        exact hw1 p buf hp
      have hbnd2 : room - min room (c.getBuf q).1.length ≠ 0 →
          (q+1) * (c.getBuf q).2.pageSize + (room - min room (c.getBuf q).1.length) ≤
            (c.getBuf q).2.fileSize ∧
          (q+1) * (c.getBuf q).2.pageSize + (room - min room (c.getBuf q).1.length) ≤
            ((q+1) + n) * (c.getBuf q).2.pageSize := by
        intro hne
        rw [hpsz, hfs]
        have hlt : min room (c.getBuf q).1.length < room := by omega
        have hbps := hfull hlt
        have hr0 : room ≠ 0 := by omega
        obtain ⟨hb1, hb2⟩ := hbnd hr0
        have hs1 : (q+1) * c.pageSize = q * c.pageSize + c.pageSize := Nat.succ_mul _ _
        constructor
        · omega
        · rw [show q + 1 + n = q + (n+1) by omega]
          omega
      obtain ⟨ihlist, ihfs, ihps, ihrp, ihdp, ihw, ihba⟩ :=
        ih (c.getBuf q).2 (room - min room (c.getBuf q).1.length) (q+1)
          (by rw [hpsz]; exact hps) hw1' hbnd2
      have hplen2 : ∀ p, (c.getBuf q).2.pageLen p = c.pageLen p := pageLen_congr hfs hpsz
      refine ⟨?_, by rw [ihfs, hfs], by rw [ihps, hpsz], by rw [ihrp, hrp],
        by rw [ihdp, hdp], ?_, ?_⟩
      · -- the assembled bytes
        show (c.getBuf q).1.take (min room (c.getBuf q).1.length) ++
          ((c.getBuf q).2.gatherPages (room - min room (c.getBuf q).1.length) (q+1) n).1 =
          (List.range room).map (fun i => c.byteAt (q * c.pageSize + i))
        rw [ihlist]
        conv_rhs => rw [show room = min room (c.getBuf q).1.length +
          (room - min room (c.getBuf q).1.length) from by omega]
        rw [List.range_add, List.map_append]
        congr 1
        · rw [take_eq_range_map_getD _ _ (by omega)]
          apply List.map_congr_left
          intro a ha
          have halt : a < min room (c.getBuf q).1.length := List.mem_range.mp ha
          have hacut : a < c.pageSize := by omega
          show (c.getBuf q).1.getD a 0 = c.byteAt (q * c.pageSize + a)
          rw [byteAt_getBuf c q a hps hacut]
        · rw [List.map_map]
          apply List.map_congr_left
          intro a ha
          have halt : a < room - min room (c.getBuf q).1.length := List.mem_range.mp ha
          have hbps := hfull (by omega)
          show (c.getBuf q).2.byteAt ((q+1) * (c.getBuf q).2.pageSize + a) =
            c.byteAt (q * c.pageSize + (min room (c.getBuf q).1.length + a))
          rw [hba, hpsz]
          congr 1
          have hs1 : (q+1) * c.pageSize = q * c.pageSize + c.pageSize := Nat.succ_mul _ _
          omega
      · intro p buf hp
        rw [← hplen2 p]
        exact ihw p buf hp
      · intro i
        rw [ihba i, hba i]

theorem readCore_eq (b : FileBuffer) (off length : Nat) :
    b.readCore off length =
      (((b.getBuf (pageRangeForFileRange b.pageSize off length).start).1.drop
          (off % b.pageSize)).take length ++
        ((b.getBuf (pageRangeForFileRange b.pageSize off length).start).2.gatherPages
          (length - (((b.getBuf (pageRangeForFileRange b.pageSize off length).start).1.drop
              (off % b.pageSize)).take length).length)
          ((pageRangeForFileRange b.pageSize off length).start + 1)
          ((pageRangeForFileRange b.pageSize off length).stop -
            (pageRangeForFileRange b.pageSize off length).start)).1,
       ((b.getBuf (pageRangeForFileRange b.pageSize off length).start).2.gatherPages
          (length - (((b.getBuf (pageRangeForFileRange b.pageSize off length).start).1.drop
              (off % b.pageSize)).take length).length)
          ((pageRangeForFileRange b.pageSize off length).start + 1)
          ((pageRangeForFileRange b.pageSize off length).stop -
            (pageRangeForFileRange b.pageSize off length).start)).2) := rfl

/-- The read assembly of `ReadAt`/`GetAt` returns exactly the buffer's bytes at
absolute positions `off, …, off + length - 1`, and only materializes pages:
geometry, both trackers and the byte view are unchanged. -/
theorem readCore_spec (b : FileBuffer) (off length : Nat)
    (hps : 1 ≤ b.pageSize)
    (hw : ∀ p buf, b.pages p = some buf → buf.length = b.pageLen p)
    (hlen : 1 ≤ length)
    (hbound : off + length ≤ b.fileSize) :
    (b.readCore off length).1 =
      (List.range length).map (fun i => b.byteAt (off + i)) ∧
    (b.readCore off length).2.fileSize = b.fileSize ∧
    (b.readCore off length).2.pageSize = b.pageSize ∧
    (b.readCore off length).2.readPages = b.readPages ∧
    (b.readCore off length).2.dirtyPages = b.dirtyPages ∧
    (∀ p buf, (b.readCore off length).2.pages p = some buf →
        buf.length = b.pageLen p) ∧
    (∀ i, (b.readCore off length).2.byteAt i = b.byteAt i) := by
  rw [readCore_eq]
  set r := pageRangeForFileRange b.pageSize off length with hrdef
  have hrs : r.start = off / b.pageSize := rfl
  have hre : r.stop = (off + length - 1) / b.pageSize := rfl
  set oip := off % b.pageSize with hoipdef
  obtain ⟨hblen, hfs, hpsz, hrp, hdp, hpq, hpo, hw1, hba⟩ := getBuf_spec b r.start hw
  have hdm : b.pageSize * (off / b.pageSize) + off % b.pageSize = off :=
    Nat.div_add_mod off b.pageSize
  rw [← hrs, ← hoipdef] at hdm
  have hoiplt : oip < b.pageSize := Nat.mod_lt _ (by omega)
  have hplsplit : b.pageLen r.start = b.pageSize ∨
      (b.fileSize < b.pageSize * r.start + b.pageSize ∧
       b.pageLen r.start = b.fileSize - b.pageSize * r.start) := by
    rw [FileBuffer.pageLen]
    split
    · exact Or.inr ⟨by assumption, rfl⟩
    · exact Or.inl rfl
  have hple : b.pageLen r.start ≤ b.pageSize := pageLen_le b r.start
  have hoipblen : oip < (b.getBuf r.start).1.length := by
    rw [hblen]
    rcases hplsplit with h | ⟨h1, h2⟩ <;> omega
  have hflen : (((b.getBuf r.start).1.drop oip).take length).length =
      min length ((b.getBuf r.start).1.length - oip) := by
    rw [List.length_take, List.length_drop]
  rw [hflen]
  -- when the read continues past the first page, that page is full
  have hfull : min length ((b.getBuf r.start).1.length - oip) < length →
      (b.getBuf r.start).1.length = b.pageSize := by
    intro hlt
    rcases hplsplit with h | ⟨h1, h2⟩
    · rw [hblen]
      exact h
    · exfalso
      omega
  have hstartstop : r.start ≤ r.stop := by
    rw [hrs, hre]
    exact Nat.div_le_div_right (by omega)
  have hstopbound : off + length ≤ (r.stop + 1) * b.pageSize := by
    have h := (div_mul_bounds (off + length - 1) hps).2
    rw [← hre] at h
    omega
  have hw1' : ∀ p buf, (b.getBuf r.start).2.pages p = some buf →
      buf.length = (b.getBuf r.start).2.pageLen p := by
    intro p buf hp
    rw [pageLen_congr hfs hpsz p]
    exact hw1 p buf hp
  have hbnd2 : length - min length ((b.getBuf r.start).1.length - oip) ≠ 0 →
      (r.start + 1) * (b.getBuf r.start).2.pageSize +
        (length - min length ((b.getBuf r.start).1.length - oip)) ≤
        (b.getBuf r.start).2.fileSize ∧
      (r.start + 1) * (b.getBuf r.start).2.pageSize +
        (length - min length ((b.getBuf r.start).1.length - oip)) ≤
        ((r.start + 1) + (r.stop - r.start)) * (b.getBuf r.start).2.pageSize := by
    intro hne
    rw [hpsz, hfs]
    have hlt : min length ((b.getBuf r.start).1.length - oip) < length := by omega
    have hbps := hfull hlt
    have hs1 : (r.start + 1) * b.pageSize = r.start * b.pageSize + b.pageSize :=
      Nat.succ_mul _ _
    have hcm : b.pageSize * r.start = r.start * b.pageSize := Nat.mul_comm _ _
    constructor
    · omega
    · rw [show r.start + 1 + (r.stop - r.start) = r.stop + 1 by omega]
      have hs2 : (r.stop + 1) * b.pageSize = r.stop * b.pageSize + b.pageSize :=
        Nat.succ_mul _ _
      omega
  obtain ⟨ihlist, ihfs, ihps, ihrp, ihdp, ihw, ihba⟩ :=
    gatherPages_spec (r.stop - r.start) (b.getBuf r.start).2
      (length - min length ((b.getBuf r.start).1.length - oip)) (r.start + 1)
      (by rw [hpsz]; exact hps) hw1' hbnd2
  have hplen2 : ∀ p, (b.getBuf r.start).2.pageLen p = b.pageLen p :=
    pageLen_congr hfs hpsz
  refine ⟨?_, by rw [ihfs, hfs], by rw [ihps, hpsz], by rw [ihrp, hrp],
    by rw [ihdp, hdp], ?_, ?_⟩
  · -- the assembled bytes
    show ((b.getBuf r.start).1.drop oip).take length ++
      ((b.getBuf r.start).2.gatherPages
        (length - min length ((b.getBuf r.start).1.length - oip)) (r.start + 1)
        (r.stop - r.start)).1 =
      (List.range length).map (fun i => b.byteAt (off + i))
    rw [ihlist]
    have htake : ((b.getBuf r.start).1.drop oip).take length =
        ((b.getBuf r.start).1.drop oip).take
          (min length ((b.getBuf r.start).1.length - oip)) := by
      rcases Nat.le_total length ((b.getBuf r.start).1.length - oip) with h | h
      · rw [Nat.min_eq_left h]
      · rw [Nat.min_eq_right h,
          List.take_of_length_le (by rw [List.length_drop]; exact h),
          ← List.length_drop, List.take_length]
    rw [htake, take_eq_range_map_getD _ _ (by rw [List.length_drop]; omega)]
    conv_rhs => rw [show length = min length ((b.getBuf r.start).1.length - oip) +
      (length - min length ((b.getBuf r.start).1.length - oip)) from by omega]
    rw [List.range_add, List.map_append, List.map_map]
    congr 1
    · apply List.map_congr_left
      intro a ha
      have halt : a < min length ((b.getBuf r.start).1.length - oip) :=
        List.mem_range.mp ha
      have hoa : oip + a < b.pageSize := by omega
      show ((b.getBuf r.start).1.drop oip).getD a 0 = b.byteAt (off + a)
      rw [getD_drop]
      rw [show off + a = r.start * b.pageSize + (oip + a) from by
        have hcm : b.pageSize * r.start = r.start * b.pageSize := Nat.mul_comm _ _
        omega]
      rw [byteAt_getBuf b r.start (oip + a) hps hoa]
    · apply List.map_congr_left
      intro a ha
      have halt : a < length - min length ((b.getBuf r.start).1.length - oip) :=
        List.mem_range.mp ha
      have hbps := hfull (by omega)
      show (b.getBuf r.start).2.byteAt
          ((r.start + 1) * (b.getBuf r.start).2.pageSize + a) =
        b.byteAt (off + (min length ((b.getBuf r.start).1.length - oip) + a))
      rw [hba, hpsz]
      congr 1
      have hs1 : (r.start + 1) * b.pageSize = r.start * b.pageSize + b.pageSize :=
        Nat.succ_mul _ _
      have hcm : b.pageSize * r.start = r.start * b.pageSize := Nat.mul_comm _ _
      omega
  · intro p buf hp
    rw [← hplen2 p]
    exact ihw p buf hp
  · intro i
    rw [ihba i, hba i]

theorem pagedReadPages_succ (f : MockFile) (b : FileBuffer) (page n : Nat) :
    pagedReadPages f b page (n+1) =
      ((pagedReadPages f
          ((b.getBuf page).2.setPage page
            (goCopy (b.getBuf page).1
              ((f.buf.drop ((b.getBuf page).2.pageSize * page)).take
                (b.getBuf page).1.length)))
          (page+1) n).1,
       (b.getBuf page).1.length +
        (pagedReadPages f
          ((b.getBuf page).2.setPage page
            (goCopy (b.getBuf page).1
              ((f.buf.drop ((b.getBuf page).2.pageSize * page)).take
                (b.getBuf page).1.length)))
          (page+1) n).2) := rfl

/-- The scatter loop of one `Preread` range only refills page buffers: the
geometry, both trackers, and the page-length invariant are untouched. -/
theorem pagedReadPages_spec :
    ∀ (n : Nat) (f : MockFile) (b : FileBuffer) (page : Nat),
      (∀ p buf, b.pages p = some buf → buf.length = b.pageLen p) →
      (pagedReadPages f b page n).1.fileSize = b.fileSize ∧
      (pagedReadPages f b page n).1.pageSize = b.pageSize ∧
      (pagedReadPages f b page n).1.readPages = b.readPages ∧
      (pagedReadPages f b page n).1.dirtyPages = b.dirtyPages ∧
      (∀ p buf, (pagedReadPages f b page n).1.pages p = some buf →
          buf.length = b.pageLen p) := by
  intro n
  induction n with
  | zero =>
      intro f b page hw
      exact ⟨rfl, rfl, rfl, rfl, hw⟩
  | succ n ih =>
      intro f b page hw
      obtain ⟨hblen, hfs, hpsz, hrp, hdp, hpq, hpo, hw1, _⟩ := getBuf_spec b page hw
      rw [pagedReadPages_succ]
      set nb := goCopy (b.getBuf page).1
        ((f.buf.drop ((b.getBuf page).2.pageSize * page)).take (b.getBuf page).1.length)
        with hnbdef
      have hnblen : nb.length = (b.getBuf page).1.length := goCopy_length _ _
      have hb2fs : ((b.getBuf page).2.setPage page nb).fileSize = b.fileSize := hfs
      have hb2ps : ((b.getBuf page).2.setPage page nb).pageSize = b.pageSize := hpsz
      have hb2rp : ((b.getBuf page).2.setPage page nb).readPages = b.readPages := hrp
      have hb2dp : ((b.getBuf page).2.setPage page nb).dirtyPages = b.dirtyPages := hdp
      have hb2plen : ∀ p, ((b.getBuf page).2.setPage page nb).pageLen p = b.pageLen p :=
        pageLen_congr hb2fs hb2ps
      have hw2 : ∀ p bufp, ((b.getBuf page).2.setPage page nb).pages p = some bufp →
          bufp.length = ((b.getBuf page).2.setPage page nb).pageLen p := by
        intro p bufp hp
        rw [hb2plen p]
        rw [setPage_pages] at hp
        by_cases hpr : p = page
        · rw [if_pos hpr] at hp
          cases hp
          subst hpr
          rw [hnblen, hblen]
        · rw [if_neg hpr] at hp
          exact hw1 p bufp hp
      obtain ⟨ihfs, ihps, ihrp, ihdp, ihw⟩ :=
        ih f ((b.getBuf page).2.setPage page nb) (page+1) hw2
      refine ⟨by rw [ihfs, hb2fs], by rw [ihps, hb2ps], by rw [ihrp, hb2rp],
        by rw [ihdp, hb2dp], ?_⟩
      intro p bufp hp
      rw [← hb2plen p]
      exact ihw p bufp hp

theorem pagedPrereadRanges_cons (b : FileBuffer) (f : MockFile) (r : pageRange)
    (rest : List pageRange) :
    pagedPrereadRanges b f (r :: rest) =
      pagedPrereadRanges
        { (pagedReadPages f b r.start (r.stop - r.start)).1 with
            readPages := setBits (pagedReadPages f b r.start (r.stop - r.start)).1.readPages
              r.start (r.stop - r.start) }
        { f with logs := f.logs ++
            [.readAt (r.start * b.pageSize)
              (pagedReadPages f b r.start (r.stop - r.start)).2] }
        rest := rfl

/-- The loop of `Preread` over the coalesced unread ranges: it preserves the
geometry, the dirty tracker, the page-length invariant and the store's bytes
and fail plan; it marks exactly the in-bounds pages of the ranges read; and it
appends only read calls to the store's log. -/
theorem pagedPrereadRanges_spec :
    ∀ (rs : List pageRange) (b : FileBuffer) (f : MockFile),
      (∀ p buf, b.pages p = some buf → buf.length = b.pageLen p) →
      (pagedPrereadRanges b f rs).1.fileSize = b.fileSize ∧
      (pagedPrereadRanges b f rs).1.pageSize = b.pageSize ∧
      (pagedPrereadRanges b f rs).1.dirtyPages = b.dirtyPages ∧
      (pagedPrereadRanges b f rs).1.readPages.len = b.readPages.len ∧
      (∀ q, (pagedPrereadRanges b f rs).1.readPages.test q = true ↔
        (b.readPages.test q = true ∨
         ∃ r ∈ rs, r.start ≤ q ∧ q < r.start + (r.stop - r.start) ∧
           q < b.readPages.len)) ∧
      (∀ p buf, (pagedPrereadRanges b f rs).1.pages p = some buf →
          buf.length = b.pageLen p) ∧
      (pagedPrereadRanges b f rs).2.buf = f.buf ∧
      (pagedPrereadRanges b f rs).2.failPlan = f.failPlan ∧
      (∃ ex, (pagedPrereadRanges b f rs).2.logs = f.logs ++ ex ∧
        ∀ c ∈ ex, c.isRead = true) := by
  intro rs
  induction rs with
  | nil =>
      intro b f hw
      refine ⟨rfl, rfl, rfl, rfl, fun q => ?_, hw, rfl, rfl,
        ⟨[], ?_, fun c hc => absurd hc (List.not_mem_nil c)⟩⟩
      · show b.readPages.test q = true ↔ _
        simp
      · show f.logs = f.logs ++ []
        rw [List.append_nil]
  | cons r rest ih =>
      intro b f hw
      obtain ⟨hfs1, hps1, hrp1, hdp1, hw1⟩ :=
        pagedReadPages_spec (r.stop - r.start) f b r.start hw
      rw [pagedPrereadRanges_cons]
      set b1 := (pagedReadPages f b r.start (r.stop - r.start)).1 with hb1def
      set total := (pagedReadPages f b r.start (r.stop - r.start)).2 with htotaldef
      set b2 : FileBuffer :=
        { b1 with readPages := setBits b1.readPages r.start (r.stop - r.start) }
        with hb2def
      set f2 : MockFile :=
        { f with logs := f.logs ++ [.readAt (r.start * b.pageSize) total] } with hf2def
      have hb2fs : b2.fileSize = b.fileSize := hfs1
      have hb2ps : b2.pageSize = b.pageSize := hps1
      have hb2dp : b2.dirtyPages = b.dirtyPages := hdp1
      have hb2rp : b2.readPages = setBits b.readPages r.start (r.stop - r.start) := by
        rw [show b2.readPages = setBits b1.readPages r.start (r.stop - r.start) from rfl,
          hrp1]
      have hplen2 : ∀ p, b2.pageLen p = b.pageLen p := pageLen_congr hb2fs hb2ps
      have hw2 : ∀ p buf, b2.pages p = some buf → buf.length = b2.pageLen p := by
        intro p buf hp
        rw [hplen2 p]
        exact hw1 p buf hp
      obtain ⟨ihfs, ihps, ihdp, ihlen, ihtest, ihw, ihbuf, ihfp, ex, hex, hexr⟩ :=
        ih b2 f2 hw2
      refine ⟨by rw [ihfs, hb2fs], by rw [ihps, hb2ps], by rw [ihdp, hb2dp],
        by rw [ihlen, hb2rp, setBits_len], fun q => ?_, ?_, ihbuf, ihfp, ?_⟩
      · rw [ihtest q, hb2rp, setBits_test, setBits_len]
        constructor
        · rintro ((hb | hr) | ⟨r', hr', hp⟩)
          · exact Or.inl hb
          · exact Or.inr ⟨r, List.mem_cons_self _ _, hr⟩
          · exact Or.inr ⟨r', List.mem_cons_of_mem _ hr', hp⟩
        · rintro (hb | ⟨r', hr', hp⟩)
          · exact Or.inl (Or.inl hb)
          · rcases List.mem_cons.mp hr' with rfl | hr''
            · exact Or.inl (Or.inr hp)
            · exact Or.inr ⟨r', hr'', hp⟩
      · intro p buf hp
        rw [← hplen2 p]
        exact ihw p buf hp
      · refine ⟨.readAt (r.start * b.pageSize) total :: ex, ?_, ?_⟩
        · rw [hex]
          show (f.logs ++ [IoCall.readAt (r.start * b.pageSize) total]) ++ ex = _
          rw [List.append_assoc]
          rfl
        · intro c hc
          rcases List.mem_cons.mp hc with rfl | hc'
          · rfl
          · exact hexr c hc'

/-- `Preread` preserves the geometry, the dirty tracker, the page-length
invariant, and the store's bytes and fail plan; it marks read exactly the
in-bounds pages of the queried range (on top of those already marked); and it
only appends read calls to the store's log. -/
theorem Preread_spec (b : FileBuffer) (f : MockFile) (off length : Nat)
    (hw : ∀ p buf, b.pages p = some buf → buf.length = b.pageLen p) :
    (b.Preread f off length).1.fileSize = b.fileSize ∧
    (b.Preread f off length).1.pageSize = b.pageSize ∧
    (b.Preread f off length).1.dirtyPages = b.dirtyPages ∧
    (b.Preread f off length).1.readPages.len = b.readPages.len ∧
    (∀ q, (b.Preread f off length).1.readPages.test q = true ↔
      (b.readPages.test q = true ∨
       ((pageRangeForFileRange b.pageSize off length).start ≤ q ∧
        q ≤ (pageRangeForFileRange b.pageSize off length).stop ∧
        q < b.readPages.len))) ∧
    (∀ p buf, (b.Preread f off length).1.pages p = some buf →
        buf.length = b.pageLen p) ∧
    (b.Preread f off length).2.buf = f.buf ∧
    (b.Preread f off length).2.failPlan = f.failPlan ∧
    (∃ ex, (b.Preread f off length).2.logs = f.logs ++ ex ∧
      ∀ c ∈ ex, c.isRead = true) := by
  obtain ⟨h1, h2, h3, h4, h5, h6, h7, h8, h9⟩ :=
    pagedPrereadRanges_spec (pageRangesToRead b.readPages b.pageSize off length) b f hw
  refine ⟨h1, h2, h3, h4, fun q => ?_, h6, h7, h8, h9⟩
  show (pagedPrereadRanges b f
    (pageRangesToRead b.readPages b.pageSize off length)).1.readPages.test q = true ↔ _
  rw [h5 q]
  have hchar := (pageRangesToRead_char b.readPages b.pageSize off length).2.2 q
  have hbound := (pageRangesToRead_char b.readPages b.pageSize off length).1
  constructor
  · rintro (hb | ⟨r, hr, hq1, hq2, hq3⟩)
    · exact Or.inl hb
    · have hrr := hbound r hr
      have hin : inRanges (pageRangesToRead b.readPages b.pageSize off length) q :=
        ⟨r, hr, hq1, by omega⟩
      have hc := hchar.mp hin
      exact Or.inr ⟨hc.1, hc.2.1, hq3⟩
  · rintro (hb | ⟨hq1, hq2, hq3⟩)
    · exact Or.inl hb
    · by_cases ht : b.readPages.test q = true
      · exact Or.inl ht
      · have hin : inRanges (pageRangesToRead b.readPages b.pageSize off length) q :=
          hchar.mpr ⟨hq1, hq2, by simpa using ht⟩
        obtain ⟨r, hr, hs, he⟩ := hin
        have hrr := hbound r hr
        exact Or.inr ⟨r, hr, hs, by omega, hq3⟩

/-- When every page of the queried range is already marked read, `Preread`
does nothing at all: no state change and no I/O. -/
theorem Preread_noop (b : FileBuffer) (f : MockFile) (off length : Nat)
    (h : ∀ p, (pageRangeForFileRange b.pageSize off length).start ≤ p →
         p ≤ (pageRangeForFileRange b.pageSize off length).stop →
         b.readPages.test p = true) :
    b.Preread f off length = (b, f) := by
  show pagedPrereadRanges b f (pageRangesToRead b.readPages b.pageSize off length) = (b, f)
  rw [pageRangesToRead_all_read h]
  rfl

theorem checkOffsetAndLength_ok (fileSize off length : Nat)
    (h : off + length ≤ fileSize) :
    checkOffsetAndLength fileSize (off : Int) (length : Int) = none := by
  rw [checkOffsetAndLength, if_neg (by omega), if_neg (by omega)]

theorem map_range_getD (l : List Nat) :
    (List.range l.length).map (fun i => l.getD i 0) = l := by
  rw [← take_eq_range_map_getD l l.length (le_refl _), List.take_length]

theorem WriteAt_ok_eq (b : FileBuffer) (f : MockFile) (p : List Nat) (off : Nat)
    (h : checkOffsetAndLength b.fileSize (off : Int) (p.length : Int) = none) :
    b.WriteAt f p (off : Int) =
      ({ ((b.Preread f off p.length).1.writeCore p off).1 with
          dirtyPages := setDirty
            ((b.Preread f off p.length).1.writeCore p off).1.dirtyPages
            ((b.Preread f off p.length).1.writeCore p off).1.pageSize off p.length },
       (b.Preread f off p.length).2,
       .ok ((b.Preread f off p.length).1.writeCore p off).2.length) := by
  rw [FileBuffer.WriteAt, h]
  rfl

theorem ReadAt_ok_eq (b : FileBuffer) (f : MockFile) (lenP : Nat) (off : Nat)
    (h : checkOffsetAndLength b.fileSize (off : Int) (lenP : Int) = none) :
    b.ReadAt f lenP (off : Int) =
      (((b.Preread f off lenP).1.readCore off lenP).2,
       (b.Preread f off lenP).2,
       .ok (((b.Preread f off lenP).1.readCore off lenP).1, lenP)) := by
  rw [FileBuffer.ReadAt, h]
  rfl

theorem PutAt_ok_eq (b : FileBuffer) (data : List Nat) (off : Nat)
    (h : checkOffsetAndLength b.fileSize (off : Int) (data.length : Int) = none) :
    PagedFileBuffer.PutAt b data (off : Int) =
      ({ (b.writeCore data off).1 with
          dirtyPages := setDirty (b.writeCore data off).1.dirtyPages
            (b.writeCore data off).1.pageSize off data.length },
       .ok ()) := by
  rw [PagedFileBuffer.PutAt, h]
  rfl

/-- Everything a valid (in-bounds, non-empty) `FileBuffer.WriteAt` does: it
returns `.ok 0` (the leftover slice's length), copies the data into the page
buffers, marks the touched pages read (via its preread) and dirty, preserves
the geometry, the tracker lengths and the page-length invariant, and touches
the store only by read calls (the store's bytes and fail plan are unchanged). -/
theorem WriteAt_ok_spec (b : FileBuffer) (f : MockFile) (p : List Nat) (off : Nat)
    (hwf : b.WF) (hlen : 1 ≤ p.length) (hbound : off + p.length ≤ b.fileSize) :
    (b.WriteAt f p (off : Int)).2.2 = .ok 0 ∧
    (b.WriteAt f p (off : Int)).1.fileSize = b.fileSize ∧
    (b.WriteAt f p (off : Int)).1.pageSize = b.pageSize ∧
    (b.WriteAt f p (off : Int)).1.readPages.len = b.readPages.len ∧
    (b.WriteAt f p (off : Int)).1.dirtyPages.len = b.dirtyPages.len ∧
    (∀ pg buf, (b.WriteAt f p (off : Int)).1.pages pg = some buf →
        buf.length = b.pageLen pg) ∧
    (∀ q, (pageRangeForFileRange b.pageSize off p.length).start ≤ q →
        q ≤ (pageRangeForFileRange b.pageSize off p.length).stop →
        (b.WriteAt f p (off : Int)).1.readPages.test q = true) ∧
    (∀ i, i < p.length →
        (b.WriteAt f p (off : Int)).1.byteAt (off + i) = p.getD i 0) ∧
    (∀ q, (pageRangeForFileRange b.pageSize off p.length).start ≤ q →
        q ≤ (pageRangeForFileRange b.pageSize off p.length).stop →
        (b.WriteAt f p (off : Int)).1.dirtyPages.test q = true) ∧
    (b.WriteAt f p (off : Int)).2.1.buf = f.buf ∧
    (b.WriteAt f p (off : Int)).2.1.failPlan = f.failPlan ∧
    (∃ ex, (b.WriteAt f p (off : Int)).2.1.logs = f.logs ++ ex ∧
      ∀ c ∈ ex, c.isRead = true) := by
  obtain ⟨hps, hw, hrplen, hdplen⟩ := hwf
  have hchk : checkOffsetAndLength b.fileSize (off : Int) (p.length : Int) = none :=
    checkOffsetAndLength_ok _ _ _ hbound
  rw [WriteAt_ok_eq b f p off hchk]
  obtain ⟨hp1, hp2, hp3, hp4, hp5, hp6, hp7, hp8, hp9⟩ := Preread_spec b f off p.length hw
  set b1 := (b.Preread f off p.length).1 with hb1def
  have hw1 : ∀ pg buf, b1.pages pg = some buf → buf.length = b1.pageLen pg := by
    intro pg buf h
    rw [pageLen_congr hp1 hp2 pg]
    exact hp6 pg buf h
  obtain ⟨wfs, wps, wrp, wdp, winv, wleft, wbytes⟩ :=
    writeCore_spec b1 p off (by rw [hp2]; exact hps) hw1 hlen (by rw [hp1]; exact hbound)
  set b2 := (b1.writeCore p off).1 with hb2def
  have h3fs : ({ b2 with dirtyPages := setDirty b2.dirtyPages b2.pageSize off p.length }
      : FileBuffer).fileSize = b2.fileSize := rfl
  have h3ps : ({ b2 with dirtyPages := setDirty b2.dirtyPages b2.pageSize off p.length }
      : FileBuffer).pageSize = b2.pageSize := rfl
  have h3rp : ({ b2 with dirtyPages := setDirty b2.dirtyPages b2.pageSize off p.length }
      : FileBuffer).readPages = b2.readPages := rfl
  have h3dp : ({ b2 with dirtyPages := setDirty b2.dirtyPages b2.pageSize off p.length }
      : FileBuffer).dirtyPages = setDirty b2.dirtyPages b2.pageSize off p.length := rfl
  have h3pg : ({ b2 with dirtyPages := setDirty b2.dirtyPages b2.pageSize off p.length }
      : FileBuffer).pages = b2.pages := rfl
  have h3ba : ∀ i, ({ b2 with dirtyPages := setDirty b2.dirtyPages b2.pageSize off p.length }
      : FileBuffer).byteAt i = b2.byteAt i := fun i => rfl
  have hinvlen : ∀ pg buf, b2.pages pg = some buf → buf.length = b.pageLen pg := by
    intro pg buf h
    rw [← pageLen_congr hp1 hp2 pg]
    exact winv pg buf h
  have hstoplt : (pageRangeForFileRange b.pageSize off p.length).stop <
      (b.fileSize + b.pageSize - 1) / b.pageSize := by
    have h := div_lt_pageCount hps (show off + p.length - 1 < b.fileSize by omega)
    exact h
  have hsucc := pageRange_start_le_stop_succ b.pageSize off p.length
  refine ⟨?_, ?_, ?_, ?_, ?_, ?_, ?_, ?_, ?_, hp7, hp8, hp9⟩
  · show Except.ok ((b1.writeCore p off).2).length = Except.ok 0
    rw [wleft]
    rfl
  · rw [h3fs, wfs, hp1]
  · rw [h3ps, wps, hp2]
  · rw [h3rp, wrp, hp4]
  · rw [h3dp, setDirty, setBits_len, wdp, hp3]
  · intro pg buf h
    rw [show ({ b2 with dirtyPages := setDirty b2.dirtyPages b2.pageSize off p.length }
      : FileBuffer).pages pg = b2.pages pg from rfl] at h
    exact hinvlen pg buf h
  · intro q hq1 hq2
    rw [h3rp, wrp]
    rw [hp5 q]
    exact Or.inr ⟨hq1, hq2, by omega⟩
  · intro i hi
    rw [h3ba, wbytes i hi]
  · intro q hq1 hq2
    rw [h3dp, wdp, wps, hp3, hp2, setDirty, setBits_test]
    refine Or.inr ⟨hq1, by omega, by omega⟩

/-- Claim C10: for every valid `FileBuffer.WriteAt` (non-empty `p`, in
bounds), the returned byte count is `.ok 0` — the length of the re-sliced
leftover slice — not `len(p)`, even though every byte of `p` is copied into
the page buffers at `off, …, off+len(p)-1` and every touched page is marked
dirty. -/
theorem c10_writeAt_returns_zero (b : FileBuffer) (f : MockFile) (p : List Nat)
    (off : Nat) (hwf : b.WF) (hlen : 1 ≤ p.length)
    (hbound : off + p.length ≤ b.fileSize) :
    (b.WriteAt f p (off : Int)).2.2 = .ok 0 ∧
    (∀ i, i < p.length →
        (b.WriteAt f p (off : Int)).1.byteAt (off + i) = p.getD i 0) ∧
    (∀ q, (pageRangeForFileRange b.pageSize off p.length).start ≤ q →
        q ≤ (pageRangeForFileRange b.pageSize off p.length).stop →
        (b.WriteAt f p (off : Int)).1.dirtyPages.test q = true) := by
  obtain ⟨h1, _, _, _, _, _, _, h8, h9, _, _, _⟩ := WriteAt_ok_spec b f p off hwf hlen hbound
  exact ⟨h1, h8, h9⟩

/-- Witness for C10: `WriteAt([1,2,3], 7)` on a fresh 50-byte, 16-byte-page
buffer returns `.ok 0`. -/
theorem c10_writeAt_returns_zero_witness :
    (FileBuffer.new 50 16).WF ∧ 1 ≤ ([1, 2, 3] : List Nat).length ∧
    7 + ([1, 2, 3] : List Nat).length ≤ (FileBuffer.new 50 16).fileSize ∧
    (((FileBuffer.new 50 16).WriteAt ⟨List.replicate 50 48, [], []⟩ [1, 2, 3]
        ((7 : Nat) : Int)).2.2 = .ok 0 ∧
     (∀ i, i < ([1, 2, 3] : List Nat).length →
        ((FileBuffer.new 50 16).WriteAt ⟨List.replicate 50 48, [], []⟩ [1, 2, 3]
          ((7 : Nat) : Int)).1.byteAt (7 + i) = [1, 2, 3].getD i 0) ∧
     (∀ q, (pageRangeForFileRange (FileBuffer.new 50 16).pageSize 7
            ([1, 2, 3] : List Nat).length).start ≤ q →
        q ≤ (pageRangeForFileRange (FileBuffer.new 50 16).pageSize 7
            ([1, 2, 3] : List Nat).length).stop →
        ((FileBuffer.new 50 16).WriteAt ⟨List.replicate 50 48, [], []⟩ [1, 2, 3]
          ((7 : Nat) : Int)).1.dirtyPages.test q = true)) := by
  have hwf : (FileBuffer.new 50 16).WF :=
    ⟨by decide, fun p buf h => Option.noConfusion h, by decide, by decide⟩
  exact ⟨hwf, by decide, by decide,
    c10_writeAt_returns_zero (FileBuffer.new 50 16) ⟨List.replicate 50 48, [], []⟩
      [1, 2, 3] 7 hwf (by decide) (by decide)⟩

/-- Claim C5 counterexample: a valid `FileBuffer.WriteAt` of one byte at
offset 1 on a fresh buffer DOES issue I/O to the backing store during the
call: it prereads the touched (never-read) page, logging the read
`(off=0, len=16)`.  The claim says an overwrite of a never-read page does not
trigger a read. -/
theorem c5_writeAt_triggers_read :
    ((FileBuffer.new 50 16).WriteAt ⟨List.replicate 50 48, [], []⟩ [97]
        (1 : Int)).2.1.logs = [.readAt 0 16] := rfl

/-- Claim C5 (amended): `PagedFileBuffer.PutAt` satisfies the claim in full —
it interacts with no backing store at all (its signature takes none), copies
the data into the page buffers and marks the touched pages dirty.
`FileBuffer.WriteAt` copies and marks dirty and never *writes* to the store —
the store's bytes and fail plan are unchanged and every call it logs is a
read — but it violates the no-I/O part: it prereads the touched range, so an
overwrite of a never-read page does trigger a read (see the counterexample). -/
theorem c5_write_io_amended (b : FileBuffer) (f : MockFile) (data : List Nat)
    (off : Nat) (hwf : b.WF) (hlen : 1 ≤ data.length)
    (hbound : off + data.length ≤ b.fileSize) :
    (PagedFileBuffer.PutAt b data (off : Int)).2 = .ok () ∧
    (∀ i, i < data.length →
        (PagedFileBuffer.PutAt b data (off : Int)).1.byteAt (off + i) =
          data.getD i 0) ∧
    (∀ q, (pageRangeForFileRange b.pageSize off data.length).start ≤ q →
        q ≤ (pageRangeForFileRange b.pageSize off data.length).stop →
        (PagedFileBuffer.PutAt b data (off : Int)).1.dirtyPages.test q = true) ∧
    (b.WriteAt f data (off : Int)).2.1.buf = f.buf ∧
    (b.WriteAt f data (off : Int)).2.1.failPlan = f.failPlan ∧
    (∃ ex, (b.WriteAt f data (off : Int)).2.1.logs = f.logs ++ ex ∧
      ∀ c ∈ ex, c.isRead = true) := by
  obtain ⟨hps, hw, hrplen, hdplen⟩ := hwf
  have hchk : checkOffsetAndLength b.fileSize (off : Int) (data.length : Int) = none :=
    checkOffsetAndLength_ok _ _ _ hbound
  obtain ⟨_, _, _, _, _, _, _, _, _, h10, h11, h12⟩ :=
    WriteAt_ok_spec b f data off ⟨hps, hw, hrplen, hdplen⟩ hlen hbound
  rw [PutAt_ok_eq b data off hchk]
  obtain ⟨wfs, wps, wrp, wdp, winv, wleft, wbytes⟩ :=
    writeCore_spec b data off hps hw hlen hbound
  set b2 := (b.writeCore data off).1 with hb2def
  have h3ba : ∀ i,
      ({ b2 with dirtyPages := setDirty b2.dirtyPages b2.pageSize off data.length }
        : FileBuffer).byteAt i = b2.byteAt i := fun i => rfl
  have h3dp :
      ({ b2 with dirtyPages := setDirty b2.dirtyPages b2.pageSize off data.length }
        : FileBuffer).dirtyPages =
      setDirty b2.dirtyPages b2.pageSize off data.length := rfl
  have hstoplt : (pageRangeForFileRange b.pageSize off data.length).stop <
      (b.fileSize + b.pageSize - 1) / b.pageSize :=
    div_lt_pageCount hps (show off + data.length - 1 < b.fileSize by omega)
  have hsucc := pageRange_start_le_stop_succ b.pageSize off data.length
  refine ⟨rfl, ?_, ?_, h10, h11, h12⟩
  · intro i hi
    rw [h3ba, wbytes i hi]
  · intro q hq1 hq2
    rw [h3dp, wdp, wps, setDirty, setBits_test]
    exact Or.inr ⟨hq1, by omega, by omega⟩

/-- Witness for C5 amended: the write of `[97,98]` at offset 7 on a fresh
50-byte, 16-byte-page buffer over a store of 50 `'0'` bytes. -/
theorem c5_write_io_amended_witness :
    (FileBuffer.new 50 16).WF ∧ 1 ≤ ([97, 98] : List Nat).length ∧
    7 + ([97, 98] : List Nat).length ≤ (FileBuffer.new 50 16).fileSize ∧
    ((PagedFileBuffer.PutAt (FileBuffer.new 50 16) [97, 98] ((7 : Nat) : Int)).2 =
        .ok () ∧
     (∀ i, i < ([97, 98] : List Nat).length →
        (PagedFileBuffer.PutAt (FileBuffer.new 50 16) [97, 98]
          ((7 : Nat) : Int)).1.byteAt (7 + i) = [97, 98].getD i 0) ∧
     (∀ q, (pageRangeForFileRange (FileBuffer.new 50 16).pageSize 7
            ([97, 98] : List Nat).length).start ≤ q →
        q ≤ (pageRangeForFileRange (FileBuffer.new 50 16).pageSize 7
            ([97, 98] : List Nat).length).stop →
        (PagedFileBuffer.PutAt (FileBuffer.new 50 16) [97, 98]
          ((7 : Nat) : Int)).1.dirtyPages.test q = true) ∧
     ((FileBuffer.new 50 16).WriteAt ⟨List.replicate 50 48, [], []⟩ [97, 98]
        ((7 : Nat) : Int)).2.1.buf = (⟨List.replicate 50 48, [], []⟩ : MockFile).buf ∧
     ((FileBuffer.new 50 16).WriteAt ⟨List.replicate 50 48, [], []⟩ [97, 98]
        ((7 : Nat) : Int)).2.1.failPlan =
          (⟨List.replicate 50 48, [], []⟩ : MockFile).failPlan ∧
     (∃ ex, ((FileBuffer.new 50 16).WriteAt ⟨List.replicate 50 48, [], []⟩ [97, 98]
        ((7 : Nat) : Int)).2.1.logs =
          (⟨List.replicate 50 48, [], []⟩ : MockFile).logs ++ ex ∧
        ∀ c ∈ ex, c.isRead = true)) := by
  have hwf : (FileBuffer.new 50 16).WF :=
    ⟨by decide, fun p buf h => Option.noConfusion h, by decide, by decide⟩
  exact ⟨hwf, by decide, by decide,
    c5_write_io_amended (FileBuffer.new 50 16) ⟨List.replicate 50 48, [], []⟩
      [97, 98] 7 hwf (by decide) (by decide)⟩

/-- Claim C1 counterexample: on a fresh `PagedFileBuffer` over the digit
store, `PutAt([97], 0)` then `GetAt(0, 1)` returns the store's original byte
`48`, not the written byte `97`: `PutAt` neither prereads nor marks the page
read, so the subsequent `GetAt` prereads the never-read page from the store,
overwriting the put data before it was ever flushed. -/
theorem c1_putAt_getAt_roundtrip_fails :
    (PagedFileBuffer.GetAt
        (PagedFileBuffer.PutAt (FileBuffer.new 50 16) [97] (0 : Int)).1
        c7file (0 : Int) (1 : Int)).2.2 = .ok [48] ∧
    (48 : Nat) ≠ 97 := ⟨rfl, by decide⟩

/-- Claim C1 (amended): the write/read roundtrip DOES hold for the
`FileBuffer.WriteAt` / `FileBuffer.ReadAt` pair, which prereads the touched
range before copying: for every valid `(data, off)`, `ReadAt` of `len(data)`
bytes at `off` immediately after `WriteAt(data, off)` (no `Flush` between)
returns exactly `data`; the write leaves the store's bytes untouched; and the
read performs no backing-store I/O at all (the store is returned unchanged —
the write already marked the range's pages read).  For the
`PagedFileBuffer.PutAt`/`GetAt` pair the roundtrip fails on never-read pages
(see the counterexample), since `PutAt` does not mark the written pages. -/
theorem c1_roundtrip_amended (b : FileBuffer) (f : MockFile) (data : List Nat)
    (off : Nat) (hwf : b.WF) (hlen : 1 ≤ data.length)
    (hbound : off + data.length ≤ b.fileSize) :
    ((b.WriteAt f data (off : Int)).1.ReadAt (b.WriteAt f data (off : Int)).2.1
        data.length (off : Int)).2.2 = .ok (data, data.length) ∧
    (b.WriteAt f data (off : Int)).2.1.buf = f.buf ∧
    ((b.WriteAt f data (off : Int)).1.ReadAt (b.WriteAt f data (off : Int)).2.1
        data.length (off : Int)).2.1 = (b.WriteAt f data (off : Int)).2.1 := by
  obtain ⟨_, wfs, wps, _, _, winv, wread, wbytes, _, wbuf, _, _⟩ :=
    WriteAt_ok_spec b f data off hwf hlen hbound
  obtain ⟨hps, _, _, _⟩ := hwf
  set b1 := (b.WriteAt f data (off : Int)).1 with hb1def
  set f1 := (b.WriteAt f data (off : Int)).2.1 with hf1def
  have hchk : checkOffsetAndLength b1.fileSize (off : Int) (data.length : Int) = none := by
    rw [wfs]
    exact checkOffsetAndLength_ok _ _ _ hbound
  have hnoop : b1.Preread f1 off data.length = (b1, f1) := by
    apply Preread_noop
    intro p hp1 hp2
    rw [wps] at hp1 hp2
    exact wread p hp1 hp2
  have hw1 : ∀ pg buf, b1.pages pg = some buf → buf.length = b1.pageLen pg := by
    intro pg buf h
    rw [pageLen_congr wfs wps pg]
    exact winv pg buf h
  obtain ⟨rlist, _, _, _, _, _, _⟩ := readCore_spec b1 off data.length
    (by rw [wps]; exact hps) hw1 hlen (by rw [wfs]; exact hbound)
  have hread : b1.ReadAt f1 data.length (off : Int) =
      ((b1.readCore off data.length).2, f1,
       .ok ((b1.readCore off data.length).1, data.length)) := by
    rw [ReadAt_ok_eq b1 f1 data.length off hchk, hnoop]
  have hdata : (List.range data.length).map (fun i => b1.byteAt (off + i)) = data := by
    have h1 : (List.range data.length).map (fun i => b1.byteAt (off + i)) =
        (List.range data.length).map (fun i => data.getD i 0) := by
      apply List.map_congr_left
      intro a ha
      exact wbytes a (List.mem_range.mp ha)
    rw [h1, map_range_getD]
  rw [hread]
  refine ⟨?_, wbuf, rfl⟩
  show Except.ok ((b1.readCore off data.length).1, data.length) =
    Except.ok (data, data.length)
  rw [rlist, hdata]

/-- Witness for C1 amended: `WriteAt([97,98], 7)` then `ReadAt` of 2 bytes at
7 on a fresh 50-byte, 16-byte-page buffer over the digit store. -/
theorem c1_roundtrip_amended_witness :
    (FileBuffer.new 50 16).WF ∧ 1 ≤ ([97, 98] : List Nat).length ∧
    7 + ([97, 98] : List Nat).length ≤ (FileBuffer.new 50 16).fileSize ∧
    ((((FileBuffer.new 50 16).WriteAt c7file [97, 98] ((7 : Nat) : Int)).1.ReadAt
        ((FileBuffer.new 50 16).WriteAt c7file [97, 98] ((7 : Nat) : Int)).2.1
        ([97, 98] : List Nat).length ((7 : Nat) : Int)).2.2 =
        .ok ([97, 98], ([97, 98] : List Nat).length) ∧
     ((FileBuffer.new 50 16).WriteAt c7file [97, 98] ((7 : Nat) : Int)).2.1.buf =
        c7file.buf ∧
     (((FileBuffer.new 50 16).WriteAt c7file [97, 98] ((7 : Nat) : Int)).1.ReadAt
        ((FileBuffer.new 50 16).WriteAt c7file [97, 98] ((7 : Nat) : Int)).2.1
        ([97, 98] : List Nat).length ((7 : Nat) : Int)).2.1 =
        ((FileBuffer.new 50 16).WriteAt c7file [97, 98] ((7 : Nat) : Int)).2.1) := by
  have hwf : (FileBuffer.new 50 16).WF :=
    ⟨by decide, fun p buf h => Option.noConfusion h, by decide, by decide⟩
  exact ⟨hwf, by decide, by decide,
    c1_roundtrip_amended (FileBuffer.new 50 16) c7file [97, 98] 7 hwf
      (by decide) (by decide)⟩

/-- A separated chain of non-empty ranges is pairwise separated. -/
theorem chain_sep_pairwise :
    ∀ (rs : List pageRange),
      List.Chain' (fun a c => a.stop < c.start) rs →
      (∀ r ∈ rs, r.start < r.stop) →
      List.Pairwise (fun a c => a.stop ≤ c.start) rs := by
  intro rs
  induction rs with
  | nil =>
      intro _ _
      exact List.Pairwise.nil
  | cons r rest ih =>
      intro hc hne
      have hct : List.Chain' (fun a c => a.stop < c.start) rest := hc.tail
      have hpt : List.Pairwise (fun a c => a.stop ≤ c.start) rest :=
        ih hct (fun x hx => hne x (List.mem_cons_of_mem _ hx))
      refine List.Pairwise.cons ?_ hpt
      intro r' hr'
      cases rest with
      | nil => exact absurd hr' (List.not_mem_nil r')
      | cons s rest2 =>
          have hrs : r.stop < s.start := (List.chain'_cons.mp hc).1
          rcases List.mem_cons.mp hr' with rfl | hr2
          · omega
          · have hss : s.stop ≤ r'.start := (List.pairwise_cons.mp hpt).1 r' hr2
            have hsne : s.start < s.stop := hne s (by simp)
            omega

/-- The loop of `WholeFileBuffer.Preread` preserves the read-tracking
invariant, provided the ranges it is given are non-empty, pairwise separated
and consist of pages whose tracker bit is clear — which is exactly what
`pageRangesToRead` returns. -/
theorem wfPrereadRanges_inv (size ps : Nat) (hps : 1 ≤ ps) :
    ∀ (rs : List pageRange) (b : WholeFileBuffer) (f : MockFile),
      wfReadState size ps b f →
      (∀ r ∈ rs, r.start < r.stop) →
      (∀ r ∈ rs, ∀ p, r.start ≤ p → p < r.stop → b.readPages.test p = false) →
      List.Pairwise (fun a c => a.stop ≤ c.start) rs →
      wfReadState size ps (wfPrereadRanges b f rs).1 (wfPrereadRanges b f rs).2.1 := by
  intro rs
  induction rs with
  | nil =>
      intro b f hst _ _ _
      exact hst
  | cons pr rest ih =>
      intro b f hst hne hun hsep
      obtain ⟨hbps, hbfs, hrplen, hfbl, hlog, hdisj⟩ := hst
      have hbps1 : 1 ≤ b.pageSize := by rw [hbps]; exact hps
      have hprne : pr.start < pr.stop := hne pr (List.mem_cons_self _ _)
      rw [wfPrereadRanges]
      set stp := if b.fileSize < pr.stop * b.pageSize then b.fileSize
        else pr.stop * b.pageSize with hstp
      have hstp_le : stp ≤ b.fileSize := by
        rw [hstp]
        split <;> omega
      have hstp_le2 : stp ≤ pr.stop * b.pageSize := by
        rw [hstp]
        split <;> omega
      have hstop0 : pr.start * b.pageSize < pr.stop * b.pageSize := by
        have h1 := Nat.mul_le_mul_right b.pageSize (show pr.start + 1 ≤ pr.stop from hprne)
        have h2 : (pr.start + 1) * b.pageSize = pr.start * b.pageSize + b.pageSize :=
          Nat.succ_mul _ _
        omega
      have hempty : stp ≤ pr.start * b.pageSize → size ≤ pr.start * b.pageSize := by
        intro hle
        rw [hstp] at hle
        by_cases hcond : b.fileSize < pr.stop * b.pageSize
        · rw [if_pos hcond] at hle
          omega
        · rw [if_neg hcond] at hle
          omega
      by_cases hbc : f.buf.length < pr.start * b.pageSize + (stp - pr.start * b.pageSize)
      · have hrd : f.ReadAt (stp - pr.start * b.pageSize) (pr.start * b.pageSize) =
            .error .outOfBounds := by
          rw [MockFile.ReadAt, if_pos hbc]
        rw [hrd]
        exact ⟨hbps, hbfs, hrplen, hfbl, hlog, hdisj⟩
      · have hrd : f.ReadAt (stp - pr.start * b.pageSize) (pr.start * b.pageSize) =
            .ok ((f.buf.drop (pr.start * b.pageSize)).take (stp - pr.start * b.pageSize),
              { f with logs := f.logs ++
                [.readAt (pr.start * b.pageSize) (stp - pr.start * b.pageSize)] }) := by
          rw [MockFile.ReadAt, if_neg hbc]
        rw [hrd]
        set bytes := (f.buf.drop (pr.start * b.pageSize)).take (stp - pr.start * b.pageSize)
          with hbytesdef
        set f1 : MockFile := { f with logs := f.logs ++
          [.readAt (pr.start * b.pageSize) (stp - pr.start * b.pageSize)] } with hf1def
        set b1 : WholeFileBuffer :=
          { b with buf := listWrite b.buf (pr.start * b.pageSize) bytes,
                   readPages := setBits b.readPages pr.start (pr.stop - pr.start) }
          with hb1def
        have hst1 : wfReadState size ps b1 f1 := by
          refine ⟨hbps, ?_, ?_, hfbl, ?_, ?_⟩
          · show (listWrite b.buf (pr.start * b.pageSize) bytes).length = size
            rw [listWrite_length]
            exact hbfs
          · show (setBits b.readPages pr.start (pr.stop - pr.start)).len = (size + ps - 1) / ps
            rw [setBits_len]
            exact hrplen
          · intro c hc
            rw [show f1.logs = f.logs ++ [IoCall.readAt (pr.start * b.pageSize)
              (stp - pr.start * b.pageSize)] from rfl] at hc
            rcases List.mem_append.mp hc with hold | hnew
            · obtain ⟨h1, h2, h3, h4⟩ := hlog c hold
              refine ⟨h1, h2, h3, ?_⟩
              intro i hi1 hi2
              show (setBits b.readPages pr.start (pr.stop - pr.start)).test (i / ps) = true
              rw [setBits_test]
              exact Or.inl (h4 i hi1 hi2)
            · have hceq : c = IoCall.readAt (pr.start * b.pageSize)
                  (stp - pr.start * b.pageSize) := List.mem_singleton.mp hnew
              subst hceq
              refine ⟨rfl, ?_, ?_, ?_⟩
              · show pr.start * b.pageSize + (stp - pr.start * b.pageSize) ≤ size
                omega
              · show stp - pr.start * b.pageSize = 0 → size ≤ pr.start * b.pageSize
                intro h0
                exact hempty (by omega)
              · intro i hi1 hi2
                show (setBits b.readPages pr.start (pr.stop - pr.start)).test (i / ps) = true
                have hioff : pr.start * b.pageSize ≤ i := hi1
                have histp : i < stp := by
                  have h : i < pr.start * b.pageSize + (stp - pr.start * b.pageSize) := hi2
                  omega
                rw [setBits_test]
                have hp1 : pr.start ≤ i / ps := by
                  rw [← hbps]
                  exact (Nat.le_div_iff_mul_le (by omega)).mpr hioff
                have hp2 : i / ps < pr.stop := by
                  rw [← hbps]
                  exact (Nat.div_lt_iff_lt_mul (by omega)).mpr (by omega)
                have hp3 : i / ps < b.readPages.len := by
                  rw [hrplen]
                  exact div_lt_pageCount hps (by omega)
                exact Or.inr ⟨hp1, by omega, hp3⟩
          · show List.Pairwise disjointCalls (f.logs ++ [IoCall.readAt
              (pr.start * b.pageSize) (stp - pr.start * b.pageSize)])
            rw [List.pairwise_append]
            refine ⟨hdisj,
              List.Pairwise.cons (fun y hy => absurd hy (List.not_mem_nil y))
                List.Pairwise.nil, ?_⟩
            intro d hd c' hc'
            have hceq : c' = IoCall.readAt (pr.start * b.pageSize)
                (stp - pr.start * b.pageSize) := List.mem_singleton.mp hc'
            subst hceq
            obtain ⟨hd1, hd2, hd3, hd4⟩ := hlog d hd
            show d.off + d.len ≤ pr.start * b.pageSize ∨
              pr.start * b.pageSize + (stp - pr.start * b.pageSize) ≤ d.off
            by_cases hcempty : stp ≤ pr.start * b.pageSize
            · left
              have h := hempty hcempty
              omega
            · by_cases hdz : d.len = 0
              · right
                have h := hd3 hdz
                omega
              · by_contra hcon
                push_neg at hcon
                obtain ⟨hc1, hc2⟩ := hcon
                set i := max (pr.start * b.pageSize) d.off with hidef
                have hiin_c1 : pr.start * b.pageSize ≤ i := le_max_left _ _
                have hiin_c2 : i < stp := by omega
                have hiin_d1 : d.off ≤ i := le_max_right _ _
                have hiin_d2 : i < d.off + d.len := by omega
                have htrue := hd4 i hiin_d1 hiin_d2
                have hfalse : b.readPages.test (i / ps) = false := by
                  apply hun pr (List.mem_cons_self _ _)
                  · rw [← hbps]
                    exact (Nat.le_div_iff_mul_le (by omega)).mpr hiin_c1
                  · rw [← hbps]
                    exact (Nat.div_lt_iff_lt_mul (by omega)).mpr (by omega)
                rw [htrue] at hfalse
                exact Bool.noConfusion hfalse
        refine ih b1 f1 hst1 (fun r hr => hne r (List.mem_cons_of_mem _ hr)) ?_
          ((List.pairwise_cons.mp hsep).2)
        intro r' hr' p hp1 hp2
        have hold : b.readPages.test p = false :=
          hun r' (List.mem_cons_of_mem _ hr') p hp1 hp2
        have hge : pr.stop ≤ r'.start := (List.pairwise_cons.mp hsep).1 r' hr'
        show (setBits b.readPages pr.start (pr.stop - pr.start)).test p = false
        have hnot : ¬ ((setBits b.readPages pr.start (pr.stop - pr.start)).test p = true) := by
          rw [setBits_test]
          rintro (h | ⟨h1, h2, h3⟩)
          · rw [hold] at h
            exact Bool.noConfusion h
          · omega
        cases hbt : (setBits b.readPages pr.start (pr.stop - pr.start)).test p with
        | false => rfl
        | true => exact absurd hbt hnot

/-- `WholeFileBuffer.Preread` preserves the read-tracking invariant: the
ranges it reads come from `pageRangesToRead`, which returns non-empty,
separated ranges of unmarked pages only. -/
theorem wfPreread_inv (size ps : Nat) (hps : 1 ≤ ps) (b : WholeFileBuffer)
    (f : MockFile) (off length : Nat) (hst : wfReadState size ps b f) :
    wfReadState size ps (b.Preread f off length).1 (b.Preread f off length).2.1 := by
  have hchar := pageRangesToRead_char b.readPages b.pageSize off length
  show wfReadState size ps
    (wfPrereadRanges b f (pageRangesToRead b.readPages b.pageSize off length)).1
    (wfPrereadRanges b f (pageRangesToRead b.readPages b.pageSize off length)).2.1
  refine wfPrereadRanges_inv size ps hps _ b f hst
    (fun r hr => (hchar.1 r hr).2.1)
    (fun r hr p h1 h2 => pageRangesToRead_unread hr h1 h2)
    (chain_sep_pairwise _ hchar.2.1 (fun r hr => (hchar.1 r hr).2.1))

/-- Each of the three read-only operations preserves the read-tracking
invariant. -/
theorem applyReadOp_inv (size ps : Nat) (hps : 1 ≤ ps) (b : WholeFileBuffer)
    (f : MockFile) (op : ReadOp) (hst : wfReadState size ps b f) :
    wfReadState size ps (b.applyReadOp f op).1 (b.applyReadOp f op).2 := by
  cases op with
  | getAt off length =>
      show wfReadState size ps (b.GetAt f off length).1 (b.GetAt f off length).2.1
      rw [WholeFileBuffer.GetAt]
      cases hchk : checkOffsetAndLength b.fileSize off length with
      | some e => exact hst
      | none =>
          have hinv := wfPreread_inv size ps hps b f off.toNat length.toNat hst
          rcases hpre : b.Preread f off.toNat length.toNat with ⟨b1, f1, err⟩
          rw [hpre] at hinv
          cases err with
          | some e => exact hinv
          | none => exact hinv
  | readAt lenP off =>
      show wfReadState size ps (b.ReadAt f lenP off).1 (b.ReadAt f lenP off).2.1
      rw [WholeFileBuffer.ReadAt]
      cases hchk : checkOffsetAndLength b.fileSize off (lenP : Int) with
      | some e => exact hst
      | none =>
          have hinv := wfPreread_inv size ps hps b f off.toNat lenP hst
          rcases hpre : b.Preread f off.toNat lenP with ⟨b1, f1, err⟩
          rw [hpre] at hinv
          cases err with
          | some e => exact hinv
          | none => exact hinv
  | preread off length =>
      exact wfPreread_inv size ps hps b f off length hst

/-- A whole sequence of read-only operations preserves the read-tracking
invariant. -/
theorem runReadOps_inv (size ps : Nat) (hps : 1 ≤ ps) :
    ∀ (ops : List ReadOp) (b : WholeFileBuffer) (f : MockFile),
      wfReadState size ps b f →
      wfReadState size ps (WholeFileBuffer.runReadOps b f ops).1
        (WholeFileBuffer.runReadOps b f ops).2 := by
  intro ops
  induction ops with
  | nil =>
      intro b f hst
      exact hst
  | cons op ops ih =>
      intro b f hst
      exact ih _ _ (applyReadOp_inv size ps hps b f op hst)

/-- A fresh buffer over a store of the right size with an empty log satisfies
the read-tracking invariant. -/
theorem wfReadState_init (size ps : Nat) (f0 : MockFile)
    (hbuf : f0.buf.length = size) (hlogs : f0.logs = []) :
    wfReadState size ps (NewWholeFileBuffer size ps) f0 := by
  refine ⟨rfl, ?_, ?_, hbuf, ?_, ?_⟩
  · show (List.replicate size 0).length = size
    exact List.length_replicate _ _
  · show (List.replicate ((size + ps - 1) / ps) false).length = (size + ps - 1) / ps
    exact List.length_replicate _ _
  · intro c hc
    rw [hlogs] at hc
    exact absurd hc (List.not_mem_nil c)
  · rw [hlogs]
    exact List.Pairwise.nil

/-- Claim C3: across any sequence of `GetAt`/`ReadAt`/`Preread` calls on one
fresh `WholeFileBuffer`, each page is fetched from the backing store at most
once: every logged backing-store call is a read, the byte ranges of the
logged calls are pairwise disjoint, every byte of every logged read lies on a
page whose bit is set in the read tracker, and `pageRangesToRead` never
returns a range containing a page whose tracker bit is set. -/
theorem c3_each_page_read_once (size ps : Nat) (f0 : MockFile) (ops : List ReadOp)
    (hps : 1 ≤ ps) (hbuf : f0.buf.length = size) (hlogs : f0.logs = []) :
    (∀ c ∈ (WholeFileBuffer.runReadOps (NewWholeFileBuffer size ps) f0 ops).2.logs,
        c.isRead = true) ∧
    List.Pairwise disjointCalls
      (WholeFileBuffer.runReadOps (NewWholeFileBuffer size ps) f0 ops).2.logs ∧
    (∀ c ∈ (WholeFileBuffer.runReadOps (NewWholeFileBuffer size ps) f0 ops).2.logs,
      ∀ i, c.off ≤ i → i < c.off + c.len →
        (WholeFileBuffer.runReadOps (NewWholeFileBuffer size ps) f0
          ops).1.readPages.test (i / ps) = true) ∧
    (∀ off len r p,
        r ∈ pageRangesToRead
          (WholeFileBuffer.runReadOps (NewWholeFileBuffer size ps) f0 ops).1.readPages
          ps off len →
        r.start ≤ p → p < r.stop →
        (WholeFileBuffer.runReadOps (NewWholeFileBuffer size ps) f0
          ops).1.readPages.test p = false) := by
  obtain ⟨_, _, _, _, hlog, hdisj⟩ := runReadOps_inv size ps hps ops
    (NewWholeFileBuffer size ps) f0 (wfReadState_init size ps f0 hbuf hlogs)
  exact ⟨fun c hc => (hlog c hc).1, hdisj, fun c hc => (hlog c hc).2.2.2,
    fun off len r p hr h1 h2 => pageRangesToRead_unread hr h1 h2⟩

/-- Witness for C3: the repository's own scenario (`GetAt(7,2)`,
`GetAt(32,8)`, `GetAt(31,19)`, a full `Preread`, `ReadAt` of 4 bytes at 40)
on a fresh 50-byte buffer with 8-byte pages over the digit store. -/
theorem c3_each_page_read_once_witness :
    1 ≤ 8 ∧ c7file.buf.length = 50 ∧ c7file.logs = [] ∧
    ((∀ c ∈ (WholeFileBuffer.runReadOps (NewWholeFileBuffer 50 8) c7file
        [ReadOp.getAt 7 2, ReadOp.getAt 32 8, ReadOp.getAt 31 19,
         ReadOp.preread 0 50, ReadOp.readAt 4 40]).2.logs, c.isRead = true) ∧
     List.Pairwise disjointCalls
      (WholeFileBuffer.runReadOps (NewWholeFileBuffer 50 8) c7file
        [ReadOp.getAt 7 2, ReadOp.getAt 32 8, ReadOp.getAt 31 19,
         ReadOp.preread 0 50, ReadOp.readAt 4 40]).2.logs ∧
     (∀ c ∈ (WholeFileBuffer.runReadOps (NewWholeFileBuffer 50 8) c7file
        [ReadOp.getAt 7 2, ReadOp.getAt 32 8, ReadOp.getAt 31 19,
         ReadOp.preread 0 50, ReadOp.readAt 4 40]).2.logs,
      ∀ i, c.off ≤ i → i < c.off + c.len →
        (WholeFileBuffer.runReadOps (NewWholeFileBuffer 50 8) c7file
          [ReadOp.getAt 7 2, ReadOp.getAt 32 8, ReadOp.getAt 31 19,
           ReadOp.preread 0 50, ReadOp.readAt 4 40]).1.readPages.test (i / 8) = true) ∧
     (∀ off len r p,
        r ∈ pageRangesToRead
          (WholeFileBuffer.runReadOps (NewWholeFileBuffer 50 8) c7file
            [ReadOp.getAt 7 2, ReadOp.getAt 32 8, ReadOp.getAt 31 19,
             ReadOp.preread 0 50, ReadOp.readAt 4 40]).1.readPages 8 off len →
        r.start ≤ p → p < r.stop →
        (WholeFileBuffer.runReadOps (NewWholeFileBuffer 50 8) c7file
          [ReadOp.getAt 7 2, ReadOp.getAt 32 8, ReadOp.getAt 31 19,
           ReadOp.preread 0 50, ReadOp.readAt 4 40]).1.readPages.test p = false)) := by
  exact ⟨by decide, by decide, rfl,
    c3_each_page_read_once 50 8 c7file
      [ReadOp.getAt 7 2, ReadOp.getAt 32 8, ReadOp.getAt 31 19,
       ReadOp.preread 0 50, ReadOp.readAt 4 40] (by decide) (by decide) rfl⟩

theorem getD_map_range (g : Nat → Nat) (L j : Nat) (h : j < L) :
    ((List.range L).map g).getD j 0 = g j := by
  rw [List.getD_eq_getElem?_getD, List.getElem?_map, List.getElem?_range h]
  rfl

theorem rangeLen_congr {a b : FileBuffer} (h1 : a.fileSize = b.fileSize)
    (h2 : a.pageSize = b.pageSize) :
    ∀ (n q : Nat), a.rangeLen q n = b.rangeLen q n := by
  intro n
  induction n with
  | zero =>
      intro q
      rfl
  | succ n ih =>
      intro q
      show a.pageLen q + a.rangeLen (q+1) n = b.pageLen q + b.rangeLen (q+1) n
      rw [pageLen_congr h1 h2 q, ih (q+1)]

theorem rangeLen_zero_of (b : FileBuffer) :
    ∀ (n q : Nat), b.fileSize ≤ b.pageSize * q → b.rangeLen q n = 0 := by
  intro n
  induction n with
  | zero =>
      intro q _
      rfl
  | succ n ih =>
      intro q hq
      show b.pageLen q + b.rangeLen (q+1) n = 0
      have h1 : b.pageLen q = 0 := by
        rw [FileBuffer.pageLen]
        split
        · omega
        · omega
      rw [h1, ih (q+1) (by
        have h2 : b.pageSize * (q+1) = b.pageSize * q + b.pageSize := by
          rw [Nat.mul_add, Nat.mul_one]
        omega)]

/-- A range's total buffer length reaches exactly to the end of the range or
the end of the file, whichever comes first. -/
theorem rangeLen_eq (b : FileBuffer) :
    ∀ (n q : Nat), q * b.pageSize ≤ b.fileSize →
      q * b.pageSize + b.rangeLen q n = min ((q + n) * b.pageSize) b.fileSize := by
  intro n
  induction n with
  | zero =>
      intro q hq
      show q * b.pageSize + 0 = min ((q + 0) * b.pageSize) b.fileSize
      rw [Nat.add_zero, Nat.add_zero, Nat.min_eq_left hq]
  | succ n ih =>
      intro q hq
      show q * b.pageSize + (b.pageLen q + b.rangeLen (q+1) n) = _
      have hcm : b.pageSize * q = q * b.pageSize := Nat.mul_comm _ _
      have hs1 : (q + 1) * b.pageSize = q * b.pageSize + b.pageSize := Nat.succ_mul _ _
      by_cases hfull : (q + 1) * b.pageSize ≤ b.fileSize
      · have hpl : b.pageLen q = b.pageSize := by
          rw [FileBuffer.pageLen, if_neg (by omega)]
        have hih := ih (q+1) hfull
        have hq1n : (q + 1 + n) * b.pageSize = (q + (n+1)) * b.pageSize := by
          rw [show q + 1 + n = q + (n+1) by omega]
        rw [hpl]
        omega
      · have hpl : b.pageLen q = b.fileSize - b.pageSize * q := by
          rw [FileBuffer.pageLen, if_pos (by omega)]
        have hz : b.rangeLen (q+1) n = 0 := rangeLen_zero_of b n (q+1) (by
          have h2 : b.pageSize * (q+1) = b.pageSize * q + b.pageSize := by
            rw [Nat.mul_add, Nat.mul_one]
          omega)
        have hmono : (q + 1) * b.pageSize ≤ (q + (n+1)) * b.pageSize :=
          Nat.mul_le_mul_right _ (by omega)
        rw [hpl, hz]
        omega

theorem rangeBytes_succ (b : FileBuffer) (q n : Nat) :
    b.rangeBytes q (n+1) =
      ((b.getBuf q).1 ++ ((b.getBuf q).2.rangeBytes (q+1) n).1,
       ((b.getBuf q).2.rangeBytes (q+1) n).2) := rfl

/-- The flush loop's gather of one range's page buffers (what
`iovsForPageRange` hands to `pwritevFull`, flattened): exactly the buffer's
bytes at absolute positions `q * pageSize, …`, for the range's total length;
the state only (possibly) materializes pages. -/
theorem rangeBytes_spec :
    ∀ (n : Nat) (c : FileBuffer) (q : Nat),
      1 ≤ c.pageSize →
      (∀ p buf, c.pages p = some buf → buf.length = c.pageLen p) →
      (c.rangeBytes q n).1 =
        (List.range (c.rangeLen q n)).map (fun j => c.byteAt (q * c.pageSize + j)) ∧
      (c.rangeBytes q n).2.fileSize = c.fileSize ∧
      (c.rangeBytes q n).2.pageSize = c.pageSize ∧
      (c.rangeBytes q n).2.readPages = c.readPages ∧
      (c.rangeBytes q n).2.dirtyPages = c.dirtyPages ∧
      (∀ p buf, (c.rangeBytes q n).2.pages p = some buf → buf.length = c.pageLen p) ∧
      (∀ i, (c.rangeBytes q n).2.byteAt i = c.byteAt i) := by
  intro n
  induction n with
  | zero =>
      intro c q hps hw
      exact ⟨rfl, rfl, rfl, rfl, rfl, hw, fun i => rfl⟩
  | succ n ih =>
      intro c q hps hw
      obtain ⟨hblen, hfs, hpsz, hrp, hdp, hpq, hpo, hw1, hba⟩ := getBuf_spec c q hw
      rw [rangeBytes_succ]
      have hw1' : ∀ p buf, (c.getBuf q).2.pages p = some buf →
          buf.length = (c.getBuf q).2.pageLen p := by
        intro p buf hp
        rw [pageLen_congr hfs hpsz p]
        exact hw1 p buf hp
      obtain ⟨ihlist, ihfs, ihps, ihrp, ihdp, ihw, ihba⟩ :=
        ih (c.getBuf q).2 (q+1) (by rw [hpsz]; exact hps) hw1'
      have hplen2 : ∀ p, (c.getBuf q).2.pageLen p = c.pageLen p := pageLen_congr hfs hpsz
      have hrlen2 : ∀ m p, (c.getBuf q).2.rangeLen p m = c.rangeLen p m :=
        fun m p => rangeLen_congr hfs hpsz m p
      have hple : c.pageLen q ≤ c.pageSize := pageLen_le c q
      have hplsplit : c.pageLen q = c.pageSize ∨
          (c.fileSize < c.pageSize * q + c.pageSize ∧
           c.pageLen q = c.fileSize - c.pageSize * q) := by
        rw [FileBuffer.pageLen]
        split
        · exact Or.inr ⟨by assumption, rfl⟩
        · exact Or.inl rfl
      refine ⟨?_, by rw [ihfs, hfs], by rw [ihps, hpsz], by rw [ihrp, hrp],
        by rw [ihdp, hdp], ?_, ?_⟩
      · show (c.getBuf q).1 ++ ((c.getBuf q).2.rangeBytes (q+1) n).1 =
          (List.range (c.rangeLen q (n+1))).map (fun j => c.byteAt (q * c.pageSize + j))
        rw [ihlist, hrlen2 n (q+1)]
        show _ = (List.range (c.pageLen q + c.rangeLen (q+1) n)).map
          (fun j => c.byteAt (q * c.pageSize + j))
        rw [List.range_add, List.map_append, List.map_map]
        congr 1
        · conv_lhs => rw [← map_range_getD (c.getBuf q).1]
          rw [hblen]
          apply List.map_congr_left
          intro a ha
          have halt : a < c.pageLen q := List.mem_range.mp ha
          show (c.getBuf q).1.getD a 0 = c.byteAt (q * c.pageSize + a)
          rw [byteAt_getBuf c q a hps (by omega)]
        · apply List.map_congr_left
          intro a ha
          have halt : a < c.rangeLen (q+1) n := List.mem_range.mp ha
          have hfull : c.pageLen q = c.pageSize := by
            rcases hplsplit with h | ⟨h1, h2⟩
            · exact h
            · exfalso
              have hz : c.rangeLen (q+1) n = 0 := rangeLen_zero_of c n (q+1) (by
                have h2' : c.pageSize * (q+1) = c.pageSize * q + c.pageSize := by
                  rw [Nat.mul_add, Nat.mul_one]
                omega)
              omega
          show (c.getBuf q).2.byteAt ((q+1) * (c.getBuf q).2.pageSize + a) =
            c.byteAt (q * c.pageSize + (c.pageLen q + a))
          rw [hba, hpsz]
          congr 1
          have hs1 : (q+1) * c.pageSize = q * c.pageSize + c.pageSize := Nat.succ_mul _ _
          omega
      · intro p buf hp
        rw [← hplen2 p]
        exact ihw p buf hp
      · intro i
        rw [ihba i, hba i]

theorem pagedFlushRanges_cons (b : FileBuffer) (f : MockFile) (r : pageRange)
    (rest : List pageRange) :
    pagedFlushRanges b f (r :: rest) =
      pagedFlushRanges (b.rangeBytes r.start (r.stop - r.start)).2
        { f with
          buf := (listWrite f.buf (r.start * b.pageSize)
            (b.rangeBytes r.start (r.stop - r.start)).1),
          logs := (f.logs ++ [.writeAt (r.start * b.pageSize)
            (b.rangeBytes r.start (r.stop - r.start)).1.length]) }
        rest := rfl

/-- The success path of `FileBuffer.Flush`'s loop (there is no other path: its
`pwritevFull` never reports an error): each range's gathered page bytes are
written to the store at the range's byte offset, so every covered store byte
ends up equal to the buffer's byte; uncovered store bytes, the store's fail
plan, and the whole buffer view (geometry, trackers, bytes) are untouched. -/
theorem pagedFlushRanges_ok (PS SZ : Nat) (hps : 1 ≤ PS) :
    ∀ (rs : List pageRange) (b : FileBuffer) (f : MockFile),
      b.pageSize = PS → b.fileSize = SZ →
      (∀ p buf, b.pages p = some buf → buf.length = b.pageLen p) →
      f.buf.length = SZ →
      (∀ r ∈ rs, r.start < r.stop ∧ r.start * PS ≤ SZ) →
      (pagedFlushRanges b f rs).1.fileSize = SZ ∧
      (pagedFlushRanges b f rs).1.pageSize = PS ∧
      (pagedFlushRanges b f rs).1.readPages = b.readPages ∧
      (pagedFlushRanges b f rs).1.dirtyPages = b.dirtyPages ∧
      (∀ p buf, (pagedFlushRanges b f rs).1.pages p = some buf →
          buf.length = b.pageLen p) ∧
      (∀ i, (pagedFlushRanges b f rs).1.byteAt i = b.byteAt i) ∧
      (pagedFlushRanges b f rs).2.buf.length = SZ ∧
      (pagedFlushRanges b f rs).2.failPlan = f.failPlan ∧
      (∀ i, (∃ r ∈ rs, r.start * PS ≤ i ∧ i < r.stop * PS ∧ i < SZ) →
        (pagedFlushRanges b f rs).2.buf.getD i 0 = b.byteAt i) ∧
      (∀ i, (∀ r ∈ rs, ¬(r.start * PS ≤ i ∧ i < r.stop * PS ∧ i < SZ)) →
        (pagedFlushRanges b f rs).2.buf.getD i 0 = f.buf.getD i 0) := by
  intro rs
  induction rs with
  | nil =>
      intro b f hbps hbfs hw hfl _
      refine ⟨hbfs, hbps, rfl, rfl, hw, fun i => rfl, hfl, rfl, fun i hi => ?_,
        fun i _ => rfl⟩
      rcases hi with ⟨r, hr, _⟩
      exact absurd hr (List.not_mem_nil r)
  | cons r rest ih =>
      intro b f hbps hbfs hw hfl hrs
      have hr0 := hrs r (List.mem_cons_self _ _)
      rw [pagedFlushRanges_cons]
      obtain ⟨rblist, rbfs, rbps, rbrp, rbdp, rbw, rbba⟩ :=
        rangeBytes_spec (r.stop - r.start) b r.start (by rw [hbps]; exact hps) hw
      set b1 := (b.rangeBytes r.start (r.stop - r.start)).2 with hb1def
      set bytes := (b.rangeBytes r.start (r.stop - r.start)).1 with hbytesdef
      set f1 : MockFile := { f with
        buf := listWrite f.buf (r.start * b.pageSize) bytes,
        logs := f.logs ++ [.writeAt (r.start * b.pageSize) bytes.length] } with hf1def
      have hrl : r.start * b.pageSize + b.rangeLen r.start (r.stop - r.start) =
          min ((r.start + (r.stop - r.start)) * b.pageSize) b.fileSize :=
        rangeLen_eq b (r.stop - r.start) r.start (by rw [hbps, hbfs]; exact hr0.2)
      rw [show r.start + (r.stop - r.start) = r.stop by omega] at hrl
      have hbyteslen : bytes.length = b.rangeLen r.start (r.stop - r.start) := by
        have h := congrArg List.length rblist
        rw [List.length_map, List.length_range] at h
        exact h
      have hf1len : f1.buf.length = SZ := by
        show (listWrite f.buf (r.start * b.pageSize) bytes).length = SZ
        rw [listWrite_length]
        exact hfl
      have hw1 : ∀ p buf, b1.pages p = some buf → buf.length = b1.pageLen p := by
        intro p buf hp
        rw [pageLen_congr rbfs rbps p]
        exact rbw p buf hp
      obtain ⟨ihfs, ihps, ihrp, ihdp, ihw, ihba, ihfl, ihfp, ihcov, ihfr⟩ :=
        ih b1 f1 (by rw [rbps, hbps]) (by rw [rbfs, hbfs]) hw1 hf1len
          (fun r' hr' => hrs r' (List.mem_cons_of_mem _ hr'))
      refine ⟨ihfs, ihps, by rw [ihrp, rbrp], by rw [ihdp, rbdp], ?_, ?_, ihfl, ihfp,
        ?_, ?_⟩
      · intro p buf hp
        rw [← pageLen_congr rbfs rbps p]
        exact ihw p buf hp
      · intro i
        rw [ihba i, rbba i]
      · intro i hi
        rcases hi with ⟨r', hr', hcov⟩
        rcases List.mem_cons.mp hr' with rfl | hmem
        · by_cases hrest : ∃ r'' ∈ rest, r''.start * PS ≤ i ∧ i < r''.stop * PS ∧ i < SZ
          · rw [ihcov i hrest]
            exact rbba i
          · rw [ihfr i (fun r'' hr'' hc => hrest ⟨r'', hr'', hc⟩)]
            show (listWrite f.buf (r'.start * b.pageSize) bytes).getD i 0 = b.byteAt i
            have hcond : r'.start * b.pageSize ≤ i ∧
                i < r'.start * b.pageSize + bytes.length ∧ i < f.buf.length := by
              have h1 : r'.start * b.pageSize ≤ i := by
                rw [hbps]
                exact hcov.1
              have h2a : i < r'.stop * b.pageSize := by
                rw [hbps]
                exact hcov.2.1
              have h2b : i < b.fileSize := by
                rw [hbfs]
                exact hcov.2.2
              refine ⟨h1, by omega, by rw [hfl]; exact hcov.2.2⟩
            rw [listWrite_getD, if_pos hcond]
            rw [rblist, getD_map_range _ _ _ (by omega)]
            congr 1
            omega
        · rw [ihcov i ⟨r', hmem, hcov⟩]
          exact rbba i
      · intro i hi
        have hnr := hi r (List.mem_cons_self _ _)
        rw [ihfr i (fun r'' hr'' => hi r'' (List.mem_cons_of_mem _ hr''))]
        show (listWrite f.buf (r.start * b.pageSize) bytes).getD i 0 = f.buf.getD i 0
        rw [listWrite_getD, if_neg (by
          rintro ⟨h1, h2, h3⟩
          apply hnr
          have hb1' : i < r.start * b.pageSize + b.rangeLen r.start (r.stop - r.start) := by
            rw [← hbyteslen]
            exact h2
          refine ⟨?_, ?_, ?_⟩
          · rw [← hbps]
            exact h1
          · rw [← hbps]
            omega
          · rw [← hbfs]
            omega)]

/-- A buffer whose dirty-range scan is empty and whose `ClearAll` is a no-op
flushes to nothing: the state and the store are returned exactly as given. -/
theorem FileBuffer.Flush_noop (c : FileBuffer) (g : MockFile)
    (h1 : dirtyPageRanges c.dirtyPages = [])
    (h2 : c.dirtyPages.clearAll = c.dirtyPages) :
    c.Flush g = (c, g) := by
  show ({ (pagedFlushRanges c g (dirtyPageRanges c.dirtyPages)).1 with
      dirtyPages :=
        (pagedFlushRanges c g (dirtyPageRanges c.dirtyPages)).1.dirtyPages.clearAll },
    (pagedFlushRanges c g (dirtyPageRanges c.dirtyPages)).2) = (c, g)
  rw [h1]
  show ({ c with dirtyPages := c.dirtyPages.clearAll }, g) = (c, g)
  rw [h2]

/-- Claim C2 (amended: the failed-write clause holds for `WholeFileBuffer`,
whose backing `ReadWriterAt` reports errors; `FileBuffer.Flush` never observes
a failure because `pwritevFull` discards errors — a failing write there leaves
no error reported and the dirty tracker is cleared anyway, see the
counterexample): for `WholeFileBuffer`, after a successful `Flush` the store's
bytes on every dirty page equal the buffer's bytes, the dirty tracker is
cleared entirely, a second `Flush` performs zero backing-store calls (it
returns the store, log included, unchanged), and a write failure at any range
of the flush returns the error with the buffer state, dirty bits included,
untouched.  For `FileBuffer`, `Flush` (which cannot fail) likewise leaves the
store's bytes on every dirty page equal to the buffer's byte view, clears the
dirty tracker entirely, and a second `Flush` performs zero backing-store
calls (buffer and store are returned unchanged). -/
theorem c2_flush_amended (b : WholeFileBuffer) (f : MockFile)
    (pb : FileBuffer) (pf : MockFile)
    (hps : 1 ≤ b.pageSize)
    (hlen : b.dirtyPages.len = (b.fileSize + b.pageSize - 1) / b.pageSize)
    (hfb : f.buf.length = b.fileSize)
    (hplan : f.failPlan = [])
    (hpwf : pb.WF)
    (hpfb : pf.buf.length = pb.fileSize) :
    ((b.Flush f).2.2 = none ∧
     (∀ i, i < b.fileSize → b.dirtyPages.test (i / b.pageSize) = true →
        (b.Flush f).2.1.buf.getD i 0 = b.buf.getD i 0) ∧
     (∀ q, (b.Flush f).1.dirtyPages.test q = false) ∧
     (b.Flush f).1.Flush (b.Flush f).2.1 = ((b.Flush f).1, (b.Flush f).2.1, none)) ∧
    (∀ plan, dirtyPageRanges b.dirtyPages ≠ [] →
       b.Flush { f with failPlan := false :: plan } =
         (b, { f with failPlan := false :: plan }, some .ioError)) ∧
    (∀ k plan, k < (dirtyPageRanges b.dirtyPages).length →
       ∃ g, b.Flush { f with failPlan := List.replicate k true ++ false :: plan } =
         (b, g, some .ioError)) ∧
    ((∀ i, i < pb.fileSize → pb.dirtyPages.test (i / pb.pageSize) = true →
        (pb.Flush pf).2.buf.getD i 0 = pb.byteAt i) ∧
     (∀ q, (pb.Flush pf).1.dirtyPages.test q = false) ∧
     (pb.Flush pf).1.Flush (pb.Flush pf).2 = ((pb.Flush pf).1, (pb.Flush pf).2)) := by
  have hchar := dirtyPageRanges_char b.dirtyPages
  have hrsb : ∀ r ∈ dirtyPageRanges b.dirtyPages, r.start < r.stop ∧
      r.stop ≤ (b.fileSize + b.pageSize - 1) / b.pageSize := by
    intro r hr
    have := hchar.1 r hr
    omega
  obtain ⟨g, hg, hgplan, hglen, hgcov, hgfr⟩ :=
    wfFlushRanges_ok b hps (dirtyPageRanges b.dirtyPages) f hplan hfb hrsb
  have hflush : b.Flush f = ({ b with dirtyPages := b.dirtyPages.clearAll }, g, none) := by
    rw [WholeFileBuffer.Flush, hg]
  -- the FileBuffer side
  obtain ⟨hpps, hpw, hprp, hpdp⟩ := hpwf
  have hpchar := dirtyPageRanges_char pb.dirtyPages
  have hprs : ∀ r ∈ dirtyPageRanges pb.dirtyPages, r.start < r.stop ∧
      r.start * pb.pageSize ≤ pb.fileSize := by
    intro r hr
    have h1 := hpchar.1 r hr
    refine ⟨h1.1, ?_⟩
    have h2 : r.start < (pb.fileSize + pb.pageSize - 1) / pb.pageSize := by omega
    exact le_of_lt (page_mul_lt_size hpps h2)
  obtain ⟨pffs, pfps, pfrp, pfdp, pfw, pfba, pffl, pffp, pfcov, pffr⟩ :=
    pagedFlushRanges_ok pb.pageSize pb.fileSize hpps (dirtyPageRanges pb.dirtyPages)
      pb pf rfl rfl hpw hpfb hprs
  have hpflush1 : (pb.Flush pf).1 =
      { (pagedFlushRanges pb pf (dirtyPageRanges pb.dirtyPages)).1 with
        dirtyPages := (pagedFlushRanges pb pf
          (dirtyPageRanges pb.dirtyPages)).1.dirtyPages.clearAll } := rfl
  have hpflush2 : (pb.Flush pf).2 =
      (pagedFlushRanges pb pf (dirtyPageRanges pb.dirtyPages)).2 := rfl
  refine ⟨⟨by rw [hflush], ?_, ?_, ?_⟩, ?_, ?_, ?_, ?_, ?_⟩
  · intro i hi hdirty
    rw [hflush]
    show g.buf.getD i 0 = b.buf.getD i 0
    apply hgcov
    rcases (hchar.2.2 (i / b.pageSize)).mpr hdirty with ⟨r, hr, hr1, hr2⟩
    refine ⟨r, hr, ?_, ?_, hi⟩
    · calc r.start * b.pageSize ≤ (i / b.pageSize) * b.pageSize :=
            Nat.mul_le_mul_right _ hr1
        _ ≤ i := (div_mul_bounds i hps).1
    · calc i < (i / b.pageSize + 1) * b.pageSize := (div_mul_bounds i hps).2
        _ ≤ r.stop * b.pageSize := Nat.mul_le_mul_right _ (by omega)
  · intro q
    rw [hflush]
    exact BitSet.test_clearAll _ q
  · rw [hflush]
    have hcleared : dirtyPageRanges
        ({ b with dirtyPages := b.dirtyPages.clearAll } : WholeFileBuffer).dirtyPages = [] :=
      dirtyPageRanges_all_clear (fun p => BitSet.test_clearAll _ p)
    rw [WholeFileBuffer.Flush, hcleared]
    simp only [wfFlushRanges, BitSet.clearAll_clearAll]
  · intro plan hne
    cases hrg : dirtyPageRanges b.dirtyPages with
    | nil => exact absurd hrg hne
    | cons r rest =>
        have hwrfail : ∀ (data : List Nat) (off : Nat),
            MockFile.WriteAt { f with failPlan := false :: plan } data off =
              .error .ioError := by
          intro data off
          rw [MockFile.WriteAt, if_pos (by simp)]
        rw [WholeFileBuffer.Flush, hrg, wfFlushRanges, hwrfail]
  · intro k plan hk
    obtain ⟨g', hg'⟩ := wfFlushRanges_fail b hps (dirtyPageRanges b.dirtyPages)
      { f with failPlan := List.replicate k true ++ false :: plan } k plan rfl hfb hrsb hk
    exact ⟨g', by rw [WholeFileBuffer.Flush, hg']⟩
  · intro i hi hdirty
    rw [hpflush2]
    apply pfcov
    rcases (hpchar.2.2 (i / pb.pageSize)).mpr hdirty with ⟨r, hr, hr1, hr2⟩
    refine ⟨r, hr, ?_, ?_, hi⟩
    · calc r.start * pb.pageSize ≤ (i / pb.pageSize) * pb.pageSize :=
            Nat.mul_le_mul_right _ hr1
        _ ≤ i := (div_mul_bounds i hpps).1
    · calc i < (i / pb.pageSize + 1) * pb.pageSize := (div_mul_bounds i hpps).2
        _ ≤ r.stop * pb.pageSize := Nat.mul_le_mul_right _ (by omega)
  · intro q
    rw [hpflush1]
    exact BitSet.test_clearAll _ q
  · apply FileBuffer.Flush_noop
    · exact dirtyPageRanges_all_clear (fun p => by
        rw [hpflush1]
        exact BitSet.test_clearAll _ p)
    · rw [hpflush1]
      exact BitSet.clearAll_clearAll _

/-- Witness for C2: the flush theorem at a concrete `WholeFileBuffer`
(fileSize 16, pageSize 8) made dirty by `PutAt([7,7,7], 2)` and a concrete
`FileBuffer` (fileSize 16, pageSize 8) with page 0 dirty, each against a
16-byte store. -/
theorem c2_flush_amended_witness :
    (1 ≤ (WholeFileBuffer.PutAt (NewWholeFileBuffer 16 8) [7, 7, 7] 2).1.pageSize ∧
     (WholeFileBuffer.PutAt (NewWholeFileBuffer 16 8) [7, 7, 7] 2).1.dirtyPages.len =
       ((WholeFileBuffer.PutAt (NewWholeFileBuffer 16 8) [7, 7, 7] 2).1.fileSize +
        (WholeFileBuffer.PutAt (NewWholeFileBuffer 16 8) [7, 7, 7] 2).1.pageSize - 1) /
        (WholeFileBuffer.PutAt (NewWholeFileBuffer 16 8) [7, 7, 7] 2).1.pageSize) ∧
    ((WholeFileBuffer.PutAt (NewWholeFileBuffer 16 8) [7, 7, 7] 2).1.Flush
        ⟨List.replicate 16 48, [], []⟩).2.2 = none ∧
    (∀ q, (FileBuffer.Flush
        ⟨16, 8, fun _ => none, BitSet.new 2, (BitSet.new 2).set 0⟩
        ⟨List.replicate 16 48, [], []⟩).1.dirtyPages.test q = false) ∧
    (∀ i, i < (16 : Nat) → ((BitSet.new 2).set 0).test (i / 8) = true →
      (FileBuffer.Flush ⟨16, 8, fun _ => none, BitSet.new 2, (BitSet.new 2).set 0⟩
        ⟨List.replicate 16 48, [], []⟩).2.buf.getD i 0 =
        FileBuffer.byteAt ⟨16, 8, fun _ => none, BitSet.new 2, (BitSet.new 2).set 0⟩ i) := by
  have hpwf : ((⟨16, 8, fun _ => none, BitSet.new 2, (BitSet.new 2).set 0⟩ :
      FileBuffer)).WF :=
    ⟨by decide, fun p buf h => Option.noConfusion h, by decide, by decide⟩
  have h := c2_flush_amended
    (WholeFileBuffer.PutAt (NewWholeFileBuffer 16 8) [7, 7, 7] 2).1
    ⟨List.replicate 16 48, [], []⟩
    (⟨16, 8, fun _ => none, BitSet.new 2, (BitSet.new 2).set 0⟩ : FileBuffer)
    ⟨List.replicate 16 48, [], []⟩
    (by decide) (by decide) (by decide) rfl hpwf (by decide)
  exact ⟨⟨by decide, by decide⟩, h.1.1, h.2.2.2.2.1, h.2.2.2.1⟩

end Filebuffer
